import Mathlib

/-!
# TileToSequentialFor: lowering of `linalg_ext.tile` to a sequential `scf.for`

A shallow embedding of `lib/Dialects/LinalgExt/Transforms/TileToSequentialFor.cpp`.

* The IR is a tree of operations.  Every operation and every block has a numeric
  identity (the counterpart of a pointer); an SSA value is named by the identity of
  its owner, a position and its type.
* `PatternRewriter` is the state the rewrite pattern mutates: the block around the
  matched operation, the supply of fresh identities and the log of created operations.
* `matchAndRewrite` follows `TileOpToSCFRewriter::matchAndRewrite` statement by
  statement.  An `assert` that fails, and a statement whose behaviour is undefined
  in C++ (a failed `cast`, `front()` of an empty vector, a null defining op), ends the
  run with `Completion.aborted`.
* `Runtime`, `execIndexOp`, `scfForExec` give the generated index arithmetic and the
  generated loop their documented meaning, so that statements about iterations,
  offsets and sizes are statements about the emitted operations.
-/

namespace TileToSequentialFor

/-! ## Types and values -/

/-- Element types of tensors and scalars. -/
inductive ElemTy
  | f32
  | f64
  | i32
  | i64
  deriving DecidableEq, Repr

/-- The types the rewrite distinguishes: `index`, ranked tensors (a dimension is
`some n` when static and `none` when dynamic), unranked tensors, and other scalars. -/
inductive Ty
  | index
  | rankedTensor (shape : List (Option Nat)) (elem : ElemTy)
  | unrankedTensor (elem : ElemTy)
  | scalar (elem : ElemTy)
  deriving DecidableEq, Repr

/-- The test `isa<IndexType>()`. -/
def Ty.isIndex : Ty → Bool
  | .index => true
  | _ => false

/-- An SSA value: the `idx`-th result of the operation `owner`, or the `idx`-th
argument of the block `owner`. -/
inductive Value
  | opResult (owner : Nat) (idx : Nat) (ty : Ty)
  | blockArg (owner : Nat) (idx : Nat) (ty : Ty)
  deriving DecidableEq, Repr

/-- The type of a value, `Value::getType`. -/
def Value.getType : Value → Ty
  | .opResult _ _ ty => ty
  | .blockArg _ _ ty => ty

/-- The identity of the operation or block that owns a value. -/
def Value.owner : Value → Nat
  | .opResult o _ _ => o
  | .blockArg o _ _ => o

/-- The marker `ShapedType::kDynamicSize` of a size that is an operand. -/
def kDynamicSize : Int := -1

/-- The marker `ShapedType::kDynamicStrideOrOffset` of an offset or stride that is an
operand. -/
def kDynamicStrideOrOffset : Int := -9223372036854775808

/-- Modelled from the spec: the arithmetic that `AffineBuilder` (declared in
`Transforms/Utils.h`, which is not among the sources) emits for `ab.mul` and `ab.sub`;
the spec gives `offset = induction-variable × step` and `remaining = total − offset`.
What it emits for `ab.min` is the operation `affineMin`, the minimum of its operands
(`size = min(remaining, step)`). -/
inductive AffineKind
  | mul
  | sub
  deriving DecidableEq, Repr

/-! ## Operations -/

/-- The operations of the embedding.  An operation with a region holds the identity
of its single block, the types of the block arguments where they are not implied,
and the block's operations. -/
inductive Operation where
  | constantIndex (id : Nat) (value : Int)
  | dim (id : Nat) (source index : Value)
  | affineApply (id : Nat) (kind : AffineKind) (lhs rhs : Value)
  | affineMin (id : Nat) (operands : List Value)
  | extractSlice (id : Nat) (resultType : Ty) (source : Value)
      (offsets sizes strides : List Value)
      (static_offsets static_sizes static_strides : List Int)
  | insertSlice (id : Nat) (resultType : Ty) (source dest : Value)
      (offsets sizes strides : List Value)
      (static_offsets static_sizes static_strides : List Int)
  | scfFor (id : Nat) (lb ub step : Value) (initArgs : List Value) (blockId : Nat)
      (body : List Operation)
  | scfYield (id : Nat) (operands : List Value)
  | tile (id : Nat) (tile_sizes : Value) (outs : List Value) (resultTypes : List Ty)
      (blockId : Nat) (argTypes : List Ty) (body : List Operation)
  | tileYield (id : Nat) (operands : List Value)
  | other (id : Nat) (name : Nat) (operands : List Value) (resultTypes : List Ty)
      (blockId : Nat) (argTypes : List Ty) (body : List Operation)
  deriving Repr

/-- The identity of an operation. -/
def Operation.id : Operation → Nat
  | .constantIndex id _ => id
  | .dim id _ _ => id
  | .affineApply id _ _ _ => id
  | .affineMin id _ => id
  | .extractSlice id _ _ _ _ _ _ _ _ => id
  | .insertSlice id _ _ _ _ _ _ _ _ _ => id
  | .scfFor id _ _ _ _ _ _ => id
  | .scfYield id _ => id
  | .tile id _ _ _ _ _ _ => id
  | .tileYield id _ => id
  | .other id _ _ _ _ _ _ => id

mutual
/-- Rewrites every operand of an operation, at every nesting depth. -/
def Operation.mapValues (f : Value → Value) : Operation → Operation
  | .constantIndex id v => .constantIndex id v
  | .dim id s i => .dim id (f s) (f i)
  | .affineApply id k l r => .affineApply id k (f l) (f r)
  | .affineMin id os => .affineMin id (os.map f)
  | .extractSlice id rt s os ss sts so sz st =>
      .extractSlice id rt (f s) (os.map f) (ss.map f) (sts.map f) so sz st
  | .insertSlice id rt s d os ss sts so sz st =>
      .insertSlice id rt (f s) (f d) (os.map f) (ss.map f) (sts.map f) so sz st
  | .scfFor id lb ub step ia b body =>
      .scfFor id (f lb) (f ub) (f step) (ia.map f) b (mapValuesList f body)
  | .scfYield id os => .scfYield id (os.map f)
  | .tile id ts outs rts b ats body =>
      .tile id (f ts) (outs.map f) rts b ats (mapValuesList f body)
  | .tileYield id os => .tileYield id (os.map f)
  | .other id n os rts b ats body => .other id n (os.map f) rts b ats (mapValuesList f body)
/-- Rewrites every operand of every operation of a block. -/
def mapValuesList (f : Value → Value) : List Operation → List Operation
  | [] => []
  | o :: os => o.mapValues f :: mapValuesList f os
end

/-- One use replaced: `old` becomes `new`, every other value stays. -/
def replaceUse (old new : Value) (v : Value) : Value :=
  if v = old then new else v

/-- The loop `for (it : zip(olds, news)) get<0>(it).replaceAllUsesWith(get<1>(it))`
over a list of operations. -/
def replaceAllUsesWith (pairs : List (Value × Value)) (ops : List Operation) :
    List Operation :=
  pairs.foldl (fun acc p => mapValuesList (replaceUse p.1 p.2) acc) ops

/-- The values `mk k t₀, mk (k+1) t₁, …`: the results of an operation or the
arguments of a block, numbered from `k`. -/
def numbered (mk : Nat → Ty → Value) : Nat → List Ty → List Value
  | _, [] => []
  | k, t :: ts => mk k t :: numbered mk (k + 1) ts

/-! ## The matched operation and the loop that replaces it -/

/-- The operation `linalg_ext.tile`: the step operand `tile_sizes`, the output
operands `outs`, the result types, and the region's block (its identity, the types
of its arguments, its operations). -/
structure TileOp where
  id : Nat
  tile_sizes : Value
  outs : List Value
  resultTypes : List Ty
  blockId : Nat
  argTypes : List Ty
  body : List Operation
  deriving Repr

/-- The number of results, `getNumResults`. -/
def TileOp.getNumResults (tileOp : TileOp) : Nat := tileOp.resultTypes.length

/-- The results of the tile operation. -/
def TileOp.getResults (tileOp : TileOp) : List Value :=
  numbered (fun k t => Value.opResult tileOp.id k t) 0 tileOp.resultTypes

/-- The arguments of the tile operation's block. -/
def TileOp.getArguments (tileOp : TileOp) : List Value :=
  numbered (fun k t => Value.blockArg tileOp.blockId k t) 0 tileOp.argTypes

/-- The tile operation as an operation of the IR. -/
def TileOp.toOperation (tileOp : TileOp) : Operation :=
  .tile tileOp.id tileOp.tile_sizes tileOp.outs tileOp.resultTypes tileOp.blockId
    tileOp.argTypes tileOp.body

/-- The operation `scf.for` while the pattern fills its body. -/
structure ForOp where
  id : Nat
  lb : Value
  ub : Value
  step : Value
  initArgs : List Value
  blockId : Nat
  body : List Operation
  deriving Repr

/-- The induction variable: argument 0 of the body block, of type `index`. -/
def ForOp.getInductionVar (forOp : ForOp) : Value :=
  .blockArg forOp.blockId 0 .index

/-- The loop-carried block arguments: arguments 1, 2, … of the body block, each with
the type of the matching initial value. -/
def ForOp.getRegionIterArgs (forOp : ForOp) : List Value :=
  numbered (fun k t => Value.blockArg forOp.blockId k t) 1
    (forOp.initArgs.map Value.getType)

/-- The results of the loop: one per initial value, of the same type. -/
def ForOp.getResults (forOp : ForOp) : List Value :=
  numbered (fun k t => Value.opResult forOp.id k t) 0 (forOp.initArgs.map Value.getType)

/-- The loop as an operation of the IR. -/
def ForOp.toOperation (forOp : ForOp) : Operation :=
  .scfFor forOp.id forOp.lb forOp.ub forOp.step forOp.initArgs forOp.blockId forOp.body

/-! ## The rewriter -/

/-- The state of the pattern rewriter.  `before` and `after` are the operations of
the enclosing block ahead of and behind the matched operation (the driver sets the
insertion point just ahead of the matched operation); `nextId` is the next unused
identity; `created` logs every created operation, in creation order, as it was when
created. -/
structure PatternRewriter where
  nextId : Nat
  before : List Operation
  after : List Operation
  created : List Operation
  deriving Repr

/-- Creates an operation at the insertion point ahead of the matched operation;
returns its identity. -/
def PatternRewriter.create (rewriter : PatternRewriter) (mk : Nat → Operation) :
    Nat × PatternRewriter :=
  (rewriter.nextId,
    { rewriter with
      nextId := rewriter.nextId + 1
      before := rewriter.before ++ [mk rewriter.nextId]
      created := rewriter.created ++ [mk rewriter.nextId] })

/-- Creates an operation at the insertion point in the loop body; returns its
identity.  The insertion point is set at the start of the body while the body is
empty, which is its end, and an operation is inserted ahead of the insertion point:
every created operation becomes the last of the body. -/
def PatternRewriter.createInBody (rewriter : PatternRewriter) (forOp : ForOp)
    (mk : Nat → Operation) : Nat × PatternRewriter × ForOp :=
  (rewriter.nextId,
    { rewriter with
      nextId := rewriter.nextId + 1
      created := rewriter.created ++ [mk rewriter.nextId] },
    { forOp with body := forOp.body ++ [mk rewriter.nextId] })

/-- The builder `scf::ForOp(lb, ub, step, iterArgs)` without a body builder: the loop
is created ahead of the matched operation with an empty body block.  It takes two
identities, one for the operation and one for its block.  The loop stays a value of
its own while its body is filled and is put into the block when the rewrite ends. -/
def PatternRewriter.createFor (rewriter : PatternRewriter) (lb ub step : Value)
    (iterArgs : List Value) : ForOp × PatternRewriter :=
  let forOp : ForOp :=
    { id := rewriter.nextId, lb := lb, ub := ub, step := step, initArgs := iterArgs
      blockId := rewriter.nextId + 1, body := [] }
  (forOp,
    { rewriter with
      nextId := rewriter.nextId + 2
      created := rewriter.created ++ [forOp.toOperation] })

/-- How a run of the pattern can end other than by returning. -/
inductive Abort
  | assertResults
  | assertStepType
  | emptyOuts
  | castRankedTensorType
  | frontOfEmpty
  | mergeArgCount
  | castTileYield
  | nullExtractSlice
  deriving DecidableEq, Repr

/-- The type `LogicalResult`. -/
inductive LogicalResult
  | success
  | failure
  deriving DecidableEq, Repr

/-- The way a run ends: it returns a `LogicalResult`, or it aborts. -/
inductive Completion
  | returned (result : LogicalResult)
  | aborted (why : Abort)
  deriving DecidableEq, Repr

/-- The end of a run and the rewriter state at that point. -/
structure Outcome where
  completion : Completion
  rewriter : PatternRewriter
  deriving Repr

/-! ## Slice extraction and insertion -/

/-- The result of a single-result operation of type `ty`. -/
def resultOf (id : Nat) (ty : Ty) : Value := .opResult id 0 ty

/-- The builder `tensor::DimOp(source, int64_t index)` at the end of the loop body:
it first creates the constant index and then the dimension query on it. -/
def createDimOp (rewriter : PatternRewriter) (forOp : ForOp) (tensor : Value) (i : Nat) :
    Value × PatternRewriter × ForOp :=
  let (c, rewriter, forOp) := rewriter.createInBody forOp (fun id => .constantIndex id i)
  let (d, rewriter, forOp) :=
    rewriter.createInBody forOp (fun id => .dim id tensor (resultOf c .index))
  (resultOf d .index, rewriter, forOp)

/-- The loop `for (i = 1; i < rank; ++i) sizes.push_back(create<DimOp>(tensor, i))`,
run over the remaining dimensions `dims`. -/
def pushDimSizes (tensor : Value) :
    List Nat → PatternRewriter → ForOp → List Value → List Value × PatternRewriter × ForOp
  | [], rewriter, forOp, sizes => (sizes, rewriter, forOp)
  | i :: dims, rewriter, forOp, sizes =>
      let (d, rewriter, forOp) := createDimOp rewriter forOp tensor i
      pushDimSizes tensor dims rewriter forOp (sizes ++ [d])

/-- The result type `ExtractSliceOp` infers when every size is an operand: a ranked
tensor with one dynamic dimension per size. -/
def inferExtractSliceType (elem : ElemTy) (sizes : List Value) : Ty :=
  .rankedTensor (List.replicate sizes.length none) elem

/-- One round of the loop over `forOp.getRegionIterArgs()` (source lines 94-106).
The `cast<RankedTensorType>` aborts on any other type, and `offsets.front() = offset`
aborts on rank 0.  `createOrFold` always creates here: the fold of an extraction needs
a constant leading offset and the leading offset is the result of the offset
computation. -/
def extractSubtensor (zero one offset size : Value) (rewriter : PatternRewriter)
    (forOp : ForOp) (tensor : Value) : Except Abort (Value × PatternRewriter × ForOp) :=
  match tensor.getType with
  | .rankedTensor shape elem =>
      let rank := shape.length
      match List.replicate rank zero with
      | [] => .error .frontOfEmpty
      | _ :: rest =>
          let offsets := offset :: rest
          let (sizes, rewriter, forOp) :=
            pushDimSizes tensor (List.range' 1 (rank - 1)) rewriter forOp [size]
          let strides := List.replicate rank one
          let resultType := inferExtractSliceType elem sizes
          let (e, rewriter, forOp) := rewriter.createInBody forOp (fun id =>
            .extractSlice id resultType tensor offsets sizes strides
              (List.replicate offsets.length kDynamicStrideOrOffset)
              (List.replicate sizes.length kDynamicSize)
              (List.replicate strides.length kDynamicStrideOrOffset))
          .ok (resultOf e resultType, rewriter, forOp)
  | _ => .error .castRankedTensorType

/-- The loop over `forOp.getRegionIterArgs()`: one extraction per loop-carried value,
collected in `implicitSubtensorExtracts`. -/
def materializeExtracts (zero one offset size : Value) :
    List Value → PatternRewriter → ForOp → List Value →
      Except Abort (List Value × PatternRewriter × ForOp)
  | [], rewriter, forOp, implicitSubtensorExtracts =>
      .ok (implicitSubtensorExtracts, rewriter, forOp)
  | tensor :: tensors, rewriter, forOp, implicitSubtensorExtracts =>
      match extractSubtensor zero one offset size rewriter forOp tensor with
      | .error a => .error a
      | .ok (e, rewriter, forOp) =>
          materializeExtracts zero one offset size tensors rewriter forOp
            (implicitSubtensorExtracts ++ [e])

/-- The call `getDefiningOp()` on a value used in the loop body: the operation of the
body that owns the value, none for a block argument. -/
def getDefiningOp (body : List Operation) : Value → Option Operation
  | .opResult owner _ _ => body.find? (fun o => o.id == owner)
  | .blockArg _ _ _ => none

/-- The function `createMatchingSubsetInsert` (source lines 36-44), with the
`getDefiningOp<tensor::ExtractSliceOp>()` of its call site: the insertion takes its
result type from the source of the extraction and its offsets, sizes and strides,
operands and static attributes alike, from the extraction.  A value that no
extraction defines gives a null operation, whose use aborts. -/
def createMatchingSubsetInsert (rewriter : PatternRewriter) (forOp : ForOp)
    (subsetExtract source dest : Value) : Except Abort (Value × PatternRewriter × ForOp) :=
  match getDefiningOp forOp.body subsetExtract with
  | some (.extractSlice _ _ extractSource offsets sizes strides static_offsets static_sizes
      static_strides) =>
      let (i, rewriter, forOp) := rewriter.createInBody forOp (fun id =>
        .insertSlice id extractSource.getType source dest offsets sizes strides
          static_offsets static_sizes static_strides)
      .ok (resultOf i extractSource.getType, rewriter, forOp)
  | _ => .error .nullExtractSlice

/-- The loop over `zip(implicitSubtensorExtracts, tileYieldOp.getOperands(),
forOp.getRegionIterArgs())` (source lines 117-125). -/
def createInserts :
    List (Value × Value × Value) → PatternRewriter → ForOp → List Value →
      Except Abort (List Value × PatternRewriter × ForOp)
  | [], rewriter, forOp, implicitSubtensorInserts =>
      .ok (implicitSubtensorInserts, rewriter, forOp)
  | (e, y, a) :: rest, rewriter, forOp, implicitSubtensorInserts =>
      match createMatchingSubsetInsert rewriter forOp e y a with
      | .error w => .error w
      | .ok (i, rewriter, forOp) =>
          createInserts rest rewriter forOp (implicitSubtensorInserts ++ [i])

/-- The call `mergeBlocks(source, dest, argValues)`: it asserts one replacement per
argument of the source block, replaces the uses of each argument in turn, and moves
the operations of the source block to the end of the destination block. -/
def mergeBlocks (tileOp : TileOp) (forOp : ForOp) (argValues : List Value) :
    Except Abort ForOp :=
  if argValues.length = tileOp.argTypes.length then
    .ok { forOp with
          body := forOp.body ++
            replaceAllUsesWith (tileOp.getArguments.zip argValues) tileOp.body }
  else .error .mergeArgCount

/-- The call `replaceOp(tileOp, forOp.getResults())` together with the placement of
the finished loop: every use of a result of the tile operation, anywhere in the
block, becomes the matching result of the loop, and the tile operation is erased.
The tile operation has as many results as the loop once the first assertion has
passed. -/
def PatternRewriter.replaceOp (rewriter : PatternRewriter) (tileOp : TileOp)
    (forOp : ForOp) : PatternRewriter :=
  let pairs := tileOp.getResults.zip forOp.getResults
  { rewriter with
    before := replaceAllUsesWith pairs (rewriter.before ++ [forOp.toOperation])
    after := replaceAllUsesWith pairs rewriter.after }

/-! ## The pattern -/

/-- The second half of `TileOpToSCFRewriter::matchAndRewrite` (source lines 108-134):
the body of the tile operation is merged into the loop body, one matching insertion
is created per extraction, the terminator is added, the spliced `tile_yield` is
erased and the tile operation is replaced by the results of the loop.  The
`tile_yield` is the operation that is last in the body right after the merge (the
`cast` aborts when that operation is no `tile_yield`); it is erased at the position
it has then, everything created later being placed behind it. -/
def spliceAndWriteBack (tileOp : TileOp) (rewriter : PatternRewriter) (forOp : ForOp)
    (offset size : Value) (implicitSubtensorExtracts : List Value) : Outcome :=
  let bbArgsTranslated := [offset, size] ++ implicitSubtensorExtracts
  match mergeBlocks tileOp forOp bbArgsTranslated with
  | .error a => ⟨.aborted a, rewriter⟩
  | .ok forOp =>
  match forOp.body.getLast? with
  | some (.tileYield _ yieldOperands) =>
      let tileYieldPos := forOp.body.length - 1
      match createInserts
          (implicitSubtensorExtracts.zip (yieldOperands.zip forOp.getRegionIterArgs))
          rewriter forOp [] with
      | .error a => ⟨.aborted a, rewriter⟩
      | .ok (implicitSubtensorInserts, rewriter, forOp) =>
          let (_, rewriter, forOp) :=
            rewriter.createInBody forOp (fun id => .scfYield id implicitSubtensorInserts)
          let forOp := { forOp with body := forOp.body.eraseIdx tileYieldPos }
          ⟨.returned .success, rewriter.replaceOp tileOp forOp⟩
  | _ => ⟨.aborted .castTileYield, rewriter⟩

/-- The method `TileOpToSCFRewriter::matchAndRewrite` (source lines 49-135); its
statements from line 108 on are `spliceAndWriteBack`. -/
def matchAndRewrite (tileOp : TileOp) (rewriter : PatternRewriter) : Outcome :=
  if ¬ (tileOp.getNumResults > 0 ∧ tileOp.outs.length = tileOp.getNumResults) then
    ⟨.aborted .assertResults, rewriter⟩
  else
  match tileOp.outs with
  | [] => ⟨.aborted .emptyOuts, rewriter⟩
  | front :: _ =>
  let (z, rewriter) := rewriter.create (fun id => .constantIndex id 0)
  let zero := resultOf z .index
  let (o, rewriter) := rewriter.create (fun id => .constantIndex id 1)
  let one := resultOf o .index
  let (t, rewriter) := rewriter.create (fun id => .dim id front zero)
  let totalSize := resultOf t .index
  let step := tileOp.tile_sizes
  if ¬ step.getType.isIndex then ⟨.aborted .assertStepType, rewriter⟩
  else
  let (forOp, rewriter) := rewriter.createFor zero totalSize step tileOp.outs
  let (m, rewriter, forOp) :=
    rewriter.createInBody forOp (fun id => .affineApply id .mul forOp.getInductionVar step)
  let offset := resultOf m .index
  let (r, rewriter, forOp) :=
    rewriter.createInBody forOp (fun id => .affineApply id .sub totalSize offset)
  let (s, rewriter, forOp) :=
    rewriter.createInBody forOp (fun id => .affineMin id [resultOf r .index, step])
  let size := resultOf s .index
  match materializeExtracts zero one offset size forOp.getRegionIterArgs rewriter forOp [] with
  | .error a => ⟨.aborted a, rewriter⟩
  | .ok (implicitSubtensorExtracts, rewriter, forOp) =>
      spliceAndWriteBack tileOp rewriter forOp offset size implicitSubtensorExtracts

/-! ## Meaning of the generated index arithmetic and of the generated loop -/

/-- What is known when the emitted operations run: the value of every index-typed
SSA value that is live, and the shape of the tensor every tensor-typed value holds.
Index values are mathematical integers. -/
structure Runtime where
  index : Value → Option Int
  shape : Value → Option (List Int)

/-- The runtime after `v` has been given the value `x`. -/
def Runtime.bind (rt : Runtime) (v : Value) (x : Option Int) : Runtime :=
  { rt with index := fun w => if w = v then x else rt.index w }

/-- The minimum of the values of a non-empty list of operands (`affine.min` over the
identity map). -/
def evalMin (rt : Runtime) : List Value → Option Int
  | [] => none
  | [v] => rt.index v
  | v :: vs =>
      match rt.index v, evalMin rt vs with
      | some a, some b => some (min a b)
      | _, _ => none

/-- The value of the result of `tensor.dim`: the extent of the dimension, when the
shape is known and the dimension exists. -/
def evalDim (rt : Runtime) (source index : Value) : Option Int :=
  match rt.shape source, rt.index index with
  | some shape, some i => if 0 ≤ i then shape[i.toNat]? else none
  | _, _ => none

/-- The value of a product or difference of two operands. -/
def evalAffine (rt : Runtime) (kind : AffineKind) (lhs rhs : Value) : Option Int :=
  match rt.index lhs, rt.index rhs with
  | some a, some b =>
      match kind with
      | .mul => some (a * b)
      | .sub => some (a - b)
  | _, _ => none

/-- One index-computing operation executed: its result gets its value.  Every other
operation leaves the index values as they are. -/
def execIndexOp (rt : Runtime) : Operation → Runtime
  | .constantIndex id v => rt.bind (resultOf id .index) (some v)
  | .dim id source index => rt.bind (resultOf id .index) (evalDim rt source index)
  | .affineApply id kind lhs rhs => rt.bind (resultOf id .index) (evalAffine rt kind lhs rhs)
  | .affineMin id operands => rt.bind (resultOf id .index) (evalMin rt operands)
  | _ => rt

/-- A list of operations executed in order. -/
def execIndexOps (rt : Runtime) (ops : List Operation) : Runtime :=
  ops.foldl execIndexOp rt

/-- The iteration of `scf.for`: starting at `iv`, while `iv < ub`, run the body on the
carried state and advance by `step`.  The result is the list of the values the
induction variable took and the final carried state.  `fuel` bounds the number of
iterations; `(ub - iv).toNat` is enough for a positive step
(`scfForExec_fuel`). -/
def scfForExec {σ : Type} (body : Int → σ → σ) (ub step : Int) :
    Nat → Int → σ → List Int × σ
  | 0, _, s => ([], s)
  | fuel + 1, iv, s =>
      if iv < ub then
        let r := scfForExec body ub step fuel (iv + step) (body iv s)
        (iv :: r.1, r.2)
      else ([], s)

/-- The values named `offset` and `size` in the source (lines 86-91), read off a
generated loop body: the results of the product and of the minimum that open it. -/
def geometryOf : List Operation → Option (Value × Value)
  | .affineApply m .mul _ _ :: .affineApply _ .sub _ _ :: .affineMin s _ :: _ =>
      some (resultOf m .index, resultOf s .index)
  | _ => none

/-- What one iteration of the generated loop computes: the value of the induction
variable and the values of `offset` and `size`. -/
structure Iteration where
  iv : Int
  offset : Option Int
  size : Option Int
  deriving DecidableEq, Repr

/-- The iteration in which the induction variable of the block `blockId` is `iv`:
the three statements that define `offset` and `size` are executed and the two values
read. -/
def iterationOf (rt : Runtime) (blockId : Nat) (body : List Operation) (iv : Int) :
    Iteration :=
  let rt := execIndexOps (rt.bind (.blockArg blockId 0 .index) (some iv)) (body.take 3)
  match geometryOf body with
  | some (offset, size) => ⟨iv, rt.index offset, rt.index size⟩
  | none => ⟨iv, none, none⟩

/-- A run of a loop: its iterations in execution order and its results. -/
structure LoopRun (τ : Type) where
  iterations : List Iteration
  results : List τ

/-- The run of an `scf.for`: the bounds and the step are read from the runtime, the
carried state starts as the values of the initial operands, and the results are the
final carried state.  `bodySem iv state` is the carried state the body yields.  The
behaviour for a step that is not positive is undefined. -/
def runLoop {τ : Type} (bodySem : Int → List τ → List τ) (tensor : Value → τ)
    (rt : Runtime) : Operation → Option (LoopRun τ)
  | .scfFor _ lb ub step initArgs blockId body =>
      match rt.index lb, rt.index ub, rt.index step with
      | some l, some u, some s =>
          if 0 < s then
            let r := scfForExec bodySem u s (u - l).toNat l (initArgs.map tensor)
            some ⟨r.1.map (iterationOf rt blockId body), r.2⟩
          else none
      | _, _, _ => none
  | _ => none

/-- Runs a list of operations up to and including its first loop. -/
def runOps {τ : Type} (bodySem : Int → List τ → List τ) (tensor : Value → τ) :
    Runtime → List Operation → Option (LoopRun τ)
  | _, [] => none
  | rt, op :: ops =>
      match op with
      | .scfFor _ _ _ _ _ _ _ => runLoop bodySem tensor rt op
      | _ => runOps bodySem tensor (execIndexOp rt op) ops

/-- The operations that have taken the place of the matched operation. -/
def replacementOps (rewriter : PatternRewriter) (outcome : Outcome) : List Operation :=
  outcome.rewriter.before.drop rewriter.before.length

/-- The run of the loop generated for `tileOp`, started in the runtime that holds at
the matched operation. -/
def generatedRun {τ : Type} (bodySem : Int → List τ → List τ) (tensor : Value → τ)
    (rt : Runtime) (tileOp : TileOp) (rewriter : PatternRewriter) : Option (LoopRun τ) :=
  runOps bodySem tensor rt (replacementOps rewriter (matchAndRewrite tileOp rewriter))

/-- The operations the run of the pattern has created, in creation order. -/
def newlyCreated (rewriter : PatternRewriter) (outcome : Outcome) : List Operation :=
  outcome.rewriter.created.drop rewriter.created.length

/-! ## A sample construct -/

/-- A step operand of type `index`. -/
def sampleStep : Value := .opResult 1 0 .index

/-- An output operand of type `tensor<?xf32>`. -/
def sampleOut : Value := .opResult 2 0 (.rankedTensor [none] .f32)

/-- A tile operation with one output: its body applies one operation to the sub-view
and yields the result. -/
def sampleTile : TileOp :=
  { id := 5, tile_sizes := sampleStep, outs := [sampleOut]
    resultTypes := [.rankedTensor [none] .f32]
    blockId := 6
    argTypes := [.index, .index, .rankedTensor [none] .f32]
    body :=
      [.other 7 0 [.blockArg 6 2 (.rankedTensor [none] .f32)] [.rankedTensor [none] .f32]
          8 [] [],
        .tileYield 9 [.opResult 7 0 (.rankedTensor [none] .f32)]] }

/-- A rewriter positioned at `sampleTile`, followed by one user of its result. -/
def sampleRewriter : PatternRewriter :=
  { nextId := 10, before := []
    after := [.other 4 1 [.opResult 5 0 (.rankedTensor [none] .f32)] [] 0 [] []]
    created := [] }

/-- The runtime in which the output of `sampleTile` has extent `T` and its step is
`S`. -/
def sampleRuntime (T S : Int) : Runtime :=
  { index := fun v => if v = sampleStep then some S else none
    shape := fun v => if v = sampleOut then some [T] else none }


/-! ## The emitted operations in closed form -/

/-- The rank of a ranked tensor type (0 for any other type). -/
def Ty.rank : Ty → Nat
  | .rankedTensor shape _ => shape.length
  | _ => 0

/-- The element type of a tensor or scalar type. -/
def Ty.elem : Ty → ElemTy
  | .rankedTensor _ elem => elem
  | .unrankedTensor elem => elem
  | .scalar elem => elem
  | .index => .i64

/-- The type is a ranked tensor with a leading dimension. -/
def Ty.hasLeadingDim : Ty → Bool
  | .rankedTensor (_ :: _) _ => true
  | _ => false

/-- The result of an extraction or insertion (of any other operation: its first
result, taken as an index). -/
def Operation.sliceResult : Operation → Value
  | .extractSlice id resultType _ _ _ _ _ _ _ => resultOf id resultType
  | .insertSlice id resultType _ _ _ _ _ _ _ _ => resultOf id resultType
  | op => resultOf op.id .index

/-- The operations `pushDimSizes` creates for the dimensions `dims`, the first with
identity `n`. -/
def dimOps (tensor : Value) : Nat → List Nat → List Operation
  | _, [] => []
  | n, i :: dims =>
      .constantIndex n i :: .dim (n + 1) tensor (resultOf n .index) ::
        dimOps tensor (n + 2) dims

/-- The values `pushDimSizes` appends to the sizes. -/
def dimVals : Nat → List Nat → List Value
  | _, [] => []
  | n, _ :: dims => resultOf (n + 1) .index :: dimVals (n + 2) dims

/-- The extraction `extractSubtensor` creates for `tensor` when `n` is the next
unused identity. -/
def extractOpAt (zero one offset size : Value) (n : Nat) (tensor : Value) : Operation :=
  let rank := tensor.getType.rank
  let sizes := size :: dimVals n (List.range' 1 (rank - 1))
  .extractSlice (n + 2 * (rank - 1)) (inferExtractSliceType tensor.getType.elem sizes) tensor
    (offset :: List.replicate (rank - 1) zero) sizes (List.replicate rank one)
    (List.replicate rank kDynamicStrideOrOffset) (List.replicate rank kDynamicSize)
    (List.replicate rank kDynamicStrideOrOffset)

/-- All operations `extractSubtensor` creates for `tensor`: the dimension queries and
the extraction. -/
def tensorOps (zero one offset size : Value) (n : Nat) (tensor : Value) : List Operation :=
  dimOps tensor n (List.range' 1 (tensor.getType.rank - 1)) ++
    [extractOpAt zero one offset size n tensor]

/-- All operations `materializeExtracts` creates for a list of tensors. -/
def sliceOps (zero one offset size : Value) : Nat → List Value → List Operation
  | _, [] => []
  | n, tensor :: tensors =>
      tensorOps zero one offset size n tensor ++
        sliceOps zero one offset size (n + (2 * (tensor.getType.rank - 1) + 1)) tensors

/-- The extractions among `sliceOps`, one per tensor. -/
def extractOps (zero one offset size : Value) : Nat → List Value → List Operation
  | _, [] => []
  | n, tensor :: tensors =>
      extractOpAt zero one offset size n tensor ::
        extractOps zero one offset size (n + (2 * (tensor.getType.rank - 1) + 1)) tensors

/-- The insertion `createMatchingSubsetInsert` creates with identity `n` from the
extraction `e`, the source `y` and the destination `a`. -/
def insertOpFor (n : Nat) (e : Operation) (y a : Value) : Operation :=
  match e with
  | .extractSlice _ _ source offsets sizes strides so sz st =>
      .insertSlice n source.getType y a offsets sizes strides so sz st
  | _ => .insertSlice n .index y a [] [] [] [] [] []

/-- The insertions `createInserts` creates, the first with identity `n`. -/
def insertOps : Nat → List (Operation × Value × Value) → List Operation
  | _, [] => []
  | n, (e, y, a) :: rest => insertOpFor n e y a :: insertOps (n + 1) rest

/-- The uses of `pairs` replaced in turn in one value. -/
def translate (pairs : List (Value × Value)) (v : Value) : Value :=
  pairs.foldl (fun w p => replaceUse p.1 p.2 w) v

/-- The test that an operation is an extraction. -/
def Operation.isExtractSlice : Operation → Bool
  | .extractSlice _ _ _ _ _ _ _ _ _ => true
  | _ => false

/-- The test that an operation is an insertion. -/
def Operation.isInsertSlice : Operation → Bool
  | .insertSlice _ _ _ _ _ _ _ _ _ _ => true
  | _ => false


/-- The body of the tile operation ends in a `tile_yield`. -/
def TileOp.endsInYield (tileOp : TileOp) : Bool :=
  match tileOp.body.getLast? with
  | some (.tileYield _ _) => true
  | _ => false

/-- The operands of the `tile_yield` that ends the body (none when the body does not
end in one). -/
def TileOp.yieldOperands (tileOp : TileOp) : List Value :=
  match tileOp.body.getLast? with
  | some (.tileYield _ operands) => operands
  | _ => []

/-- The precondition of section 4.1, the two assertions of the source: at least one
result, as many results as output operands, a step of type `index`. -/
def TileOp.Precondition (tileOp : TileOp) : Prop :=
  tileOp.getNumResults > 0 ∧ tileOp.outs.length = tileOp.getNumResults ∧
    tileOp.tile_sizes.getType.isIndex = true

/-- Modelled from the spec: the shape of a tiled construct given in section 3 (the
declaration of the operation, `LinalgExtOps.td`, is not among the sources).  Every
output operand is a ranked tensor with a leading dimension, the entry block declares
the offset, the chunk size and one sub-view per output operand, and the body ends in
a yield of one value per output operand. -/
def TileOp.WellFormed (tileOp : TileOp) : Prop :=
  (∀ v ∈ tileOp.outs, v.getType.hasLeadingDim = true) ∧
    tileOp.argTypes.length = 2 + tileOp.outs.length ∧
    tileOp.endsInYield = true ∧
    tileOp.yieldOperands.length = tileOp.outs.length

/-- The value `zero` of the source. -/
def zeroOf (rewriter : PatternRewriter) : Value := resultOf rewriter.nextId .index

/-- The value `one` of the source. -/
def oneOf (rewriter : PatternRewriter) : Value := resultOf (rewriter.nextId + 1) .index

/-- The value `totalSize` of the source. -/
def totalSizeOf (rewriter : PatternRewriter) : Value := resultOf (rewriter.nextId + 2) .index

/-- The value `offset` of the source. -/
def offsetOf (rewriter : PatternRewriter) : Value := resultOf (rewriter.nextId + 5) .index

/-- The value `size` of the source. -/
def sizeOf (rewriter : PatternRewriter) : Value := resultOf (rewriter.nextId + 7) .index

/-- The three operations created ahead of the loop: the constants 0 and 1 and the
query of the leading dimension of the first output operand. -/
def boundOps (tileOp : TileOp) (rewriter : PatternRewriter) : List Operation :=
  [.constantIndex rewriter.nextId 0, .constantIndex (rewriter.nextId + 1) 1,
    .dim (rewriter.nextId + 2) (tileOp.outs.headD (zeroOf rewriter)) (zeroOf rewriter)]

/-- The loop as created: no operation in its body yet. -/
def shellOf (tileOp : TileOp) (rewriter : PatternRewriter) : ForOp :=
  { id := rewriter.nextId + 3, lb := zeroOf rewriter, ub := totalSizeOf rewriter
    step := tileOp.tile_sizes, initArgs := tileOp.outs, blockId := rewriter.nextId + 4
    body := [] }

/-- The three operations that compute `offset` and `size`. -/
def geometryOps (tileOp : TileOp) (rewriter : PatternRewriter) : List Operation :=
  [.affineApply (rewriter.nextId + 5) .mul (shellOf tileOp rewriter).getInductionVar
      tileOp.tile_sizes,
    .affineApply (rewriter.nextId + 6) .sub (totalSizeOf rewriter) (offsetOf rewriter),
    .affineMin (rewriter.nextId + 7) [resultOf (rewriter.nextId + 6) .index, tileOp.tile_sizes]]

/-- The dimension queries and extractions created for the loop-carried values. -/
def loweredSliceOps (tileOp : TileOp) (rewriter : PatternRewriter) : List Operation :=
  sliceOps (zeroOf rewriter) (oneOf rewriter) (offsetOf rewriter) (sizeOf rewriter)
    (rewriter.nextId + 8) (shellOf tileOp rewriter).getRegionIterArgs

/-- The extractions created for the loop-carried values, in order. -/
def loweredExtracts (tileOp : TileOp) (rewriter : PatternRewriter) : List Operation :=
  extractOps (zeroOf rewriter) (oneOf rewriter) (offsetOf rewriter) (sizeOf rewriter)
    (rewriter.nextId + 8) (shellOf tileOp rewriter).getRegionIterArgs

/-- The list `bbArgsTranslated` of the source. -/
def bbArgsTranslatedOf (tileOp : TileOp) (rewriter : PatternRewriter) : List Value :=
  [offsetOf rewriter, sizeOf rewriter] ++
    (loweredExtracts tileOp rewriter).map Operation.sliceResult

/-- The argument replacements `mergeBlocks` performs. -/
def mergePairs (tileOp : TileOp) (rewriter : PatternRewriter) : List (Value × Value) :=
  tileOp.getArguments.zip (bbArgsTranslatedOf tileOp rewriter)

/-- The body of the tile operation as it stands in the loop after `mergeBlocks`. -/
def mergedBody (tileOp : TileOp) (rewriter : PatternRewriter) : List Operation :=
  replaceAllUsesWith (mergePairs tileOp rewriter) tileOp.body

/-- The operands of the spliced `tile_yield`: the yielded values after the block
arguments have been replaced. -/
def yieldedValues (tileOp : TileOp) (rewriter : PatternRewriter) : List Value :=
  tileOp.yieldOperands.map (translate (mergePairs tileOp rewriter))

/-- The triples the write-back loop runs over. -/
def insertTriples (tileOp : TileOp) (rewriter : PatternRewriter) :
    List (Operation × Value × Value) :=
  (loweredExtracts tileOp rewriter).zip
    ((yieldedValues tileOp rewriter).zip (shellOf tileOp rewriter).getRegionIterArgs)

/-- The insertions created by the write-back loop, in order. -/
def loweredInserts (tileOp : TileOp) (rewriter : PatternRewriter) : List Operation :=
  insertOps (rewriter.nextId + 8 + (loweredSliceOps tileOp rewriter).length)
    (insertTriples tileOp rewriter)

/-- The terminator `scf.yield` of the loop. -/
def loweredYield (tileOp : TileOp) (rewriter : PatternRewriter) : Operation :=
  .scfYield
    (rewriter.nextId + 8 + (loweredSliceOps tileOp rewriter).length +
      (insertTriples tileOp rewriter).length)
    ((loweredInserts tileOp rewriter).map Operation.sliceResult)

/-- The finished body of the loop. -/
def loweredBody (tileOp : TileOp) (rewriter : PatternRewriter) : List Operation :=
  geometryOps tileOp rewriter ++ loweredSliceOps tileOp rewriter ++
    (mergedBody tileOp rewriter).dropLast ++ loweredInserts tileOp rewriter ++
    [loweredYield tileOp rewriter]

/-- The finished loop. -/
def loweredFor (tileOp : TileOp) (rewriter : PatternRewriter) : ForOp :=
  { shellOf tileOp rewriter with body := loweredBody tileOp rewriter }

/-- Every operation a successful run creates, in creation order. -/
def loweredCreated (tileOp : TileOp) (rewriter : PatternRewriter) : List Operation :=
  boundOps tileOp rewriter ++ [(shellOf tileOp rewriter).toOperation] ++
    geometryOps tileOp rewriter ++ loweredSliceOps tileOp rewriter ++
    loweredInserts tileOp rewriter ++ [loweredYield tileOp rewriter]

/-- The rewriter state at the end of a successful run. -/
def loweredRewriter (tileOp : TileOp) (rewriter : PatternRewriter) : PatternRewriter :=
  PatternRewriter.replaceOp
    { nextId :=
        rewriter.nextId + 8 + (loweredSliceOps tileOp rewriter).length +
          (insertTriples tileOp rewriter).length + 1
      before := rewriter.before ++ boundOps tileOp rewriter
      after := rewriter.after
      created := rewriter.created ++ loweredCreated tileOp rewriter }
    tileOp (loweredFor tileOp rewriter)

/-- The replacements `replaceOp` performs: each result of the tile operation with the
matching result of the loop. -/
def resultPairs (tileOp : TileOp) (rewriter : PatternRewriter) : List (Value × Value) :=
  tileOp.getResults.zip (loweredFor tileOp rewriter).getResults

/-- The precondition of section 4.1 can be checked. -/
instance (tileOp : TileOp) : Decidable tileOp.Precondition := by
  unfold TileOp.Precondition
  infer_instance

/-- The shape of section 3 can be checked. -/
instance (tileOp : TileOp) : Decidable tileOp.WellFormed := by
  unfold TileOp.WellFormed
  infer_instance

/-- The sample construct with a step of type `i64` in place of `index`. -/
def sampleTileI64Step : TileOp :=
  { sampleTile with tile_sizes := .opResult 1 0 (.scalar .i64) }

/-- The offsets, sizes and strides of an extraction or insertion: the operand lists
and the static attribute lists. -/
structure SliceDescriptor where
  offsets : List Value
  sizes : List Value
  strides : List Value
  static_offsets : List Int
  static_sizes : List Int
  static_strides : List Int
  deriving DecidableEq, Repr

/-- The descriptor of an extraction or insertion. -/
def Operation.descriptor? : Operation → Option SliceDescriptor
  | .extractSlice _ _ _ offsets sizes strides so sz st =>
      some ⟨offsets, sizes, strides, so, sz, st⟩
  | .insertSlice _ _ _ _ offsets sizes strides so sz st =>
      some ⟨offsets, sizes, strides, so, sz, st⟩
  | _ => none

/-- The source operand of an extraction or insertion. -/
def Operation.sliceSource? : Operation → Option Value
  | .extractSlice _ _ source _ _ _ _ _ _ => some source
  | .insertSlice _ _ source _ _ _ _ _ _ _ => some source
  | _ => none

/-- The destination operand of an insertion. -/
def Operation.sliceDest? : Operation → Option Value
  | .insertSlice _ _ _ dest _ _ _ _ _ _ => some dest
  | _ => none

/-- The extractions a run has created, in creation order. -/
def emittedExtracts (rewriter : PatternRewriter) (outcome : Outcome) : List Operation :=
  (newlyCreated rewriter outcome).filter Operation.isExtractSlice

/-- The insertions a run has created, in creation order. -/
def emittedInserts (rewriter : PatternRewriter) (outcome : Outcome) : List Operation :=
  (newlyCreated rewriter outcome).filter Operation.isInsertSlice

/-- An output operand of type `tensor<?x4xf32>`. -/
def sampleOut2 : Value := .opResult 3 0 (.rankedTensor [none, some 4] .f32)

/-- A tile operation with two outputs, of rank 1 and of rank 2: its body applies one
operation to the first sub-view and yields the result and the second sub-view. -/
def sampleTile2 : TileOp :=
  { id := 5, tile_sizes := sampleStep, outs := [sampleOut, sampleOut2]
    resultTypes := [.rankedTensor [none] .f32, .rankedTensor [none, some 4] .f32]
    blockId := 6
    argTypes :=
      [.index, .index, .rankedTensor [none] .f32, .rankedTensor [none, none] .f32]
    body :=
      [.other 7 0 [.blockArg 6 2 (.rankedTensor [none] .f32)] [.rankedTensor [none] .f32]
          8 [] [],
        .tileYield 9
          [.opResult 7 0 (.rankedTensor [none] .f32),
            .blockArg 6 3 (.rankedTensor [none, none] .f32)]] }

/-- The construct and its operands are in scope where the pattern runs.  Identities
are handed out in increasing order, so the identity of the construct and the identity
of the owner of its step lie below the next unused identity; and no operand of the
construct is one of its own results. -/
def InScope (tileOp : TileOp) (rewriter : PatternRewriter) : Prop :=
  tileOp.id < rewriter.nextId ∧ tileOp.tile_sizes.owner < rewriter.nextId ∧
    ∀ v ∈ tileOp.tile_sizes :: tileOp.outs, v ∉ tileOp.getResults

/-- Being in scope can be checked. -/
instance (tileOp : TileOp) (rewriter : PatternRewriter) :
    Decidable (InScope tileOp rewriter) := by
  unfold InScope
  infer_instance

mutual
/-- Every operand of an operation, at every nesting depth. -/
def Operation.uses : Operation → List Value
  | .constantIndex _ _ => []
  | .dim _ source index => [source, index]
  | .affineApply _ _ lhs rhs => [lhs, rhs]
  | .affineMin _ operands => operands
  | .extractSlice _ _ source offsets sizes strides _ _ _ =>
      source :: (offsets ++ sizes ++ strides)
  | .insertSlice _ _ source dest offsets sizes strides _ _ _ =>
      source :: dest :: (offsets ++ sizes ++ strides)
  | .scfFor _ lb ub step initArgs _ body => lb :: ub :: step :: (initArgs ++ usesIn body)
  | .scfYield _ operands => operands
  | .tile _ tile_sizes outs _ _ _ body => tile_sizes :: (outs ++ usesIn body)
  | .tileYield _ operands => operands
  | .other _ _ operands _ _ _ body => operands ++ usesIn body
/-- Every operand of the operations of a block, at every nesting depth. -/
def usesIn : List Operation → List Value
  | [] => []
  | op :: ops => op.uses ++ usesIn ops
end

mutual
/-- The identity of an operation and of every operation nested in it. -/
def Operation.identities : Operation → List Nat
  | .constantIndex id _ => [id]
  | .dim id _ _ => [id]
  | .affineApply id _ _ _ => [id]
  | .affineMin id _ => [id]
  | .extractSlice id _ _ _ _ _ _ _ _ => [id]
  | .insertSlice id _ _ _ _ _ _ _ _ _ => [id]
  | .scfFor id _ _ _ _ _ body => id :: identitiesIn body
  | .scfYield id _ => [id]
  | .tile id _ _ _ _ _ body => id :: identitiesIn body
  | .tileYield id _ => [id]
  | .other id _ _ _ _ _ body => id :: identitiesIn body
/-- The identities of the operations of a block, at every nesting depth. -/
def identitiesIn : List Operation → List Nat
  | [] => []
  | op :: ops => op.identities ++ identitiesIn ops
end

/-! ## The state between the two halves of the pattern -/

/-- The rewriter state once the bounds, the loop and the statements that compute
`offset` and `size` have been created (source line 91). -/
def geometryRewriter (tileOp : TileOp) (rewriter : PatternRewriter) : PatternRewriter :=
  { nextId := rewriter.nextId + 8
    before := rewriter.before ++ boundOps tileOp rewriter
    after := rewriter.after
    created := rewriter.created ++ boundOps tileOp rewriter ++
      [(shellOf tileOp rewriter).toOperation] ++ geometryOps tileOp rewriter }

/-- The loop at the same point: its body holds the three geometry statements. -/
def geometryFor (tileOp : TileOp) (rewriter : PatternRewriter) : ForOp :=
  { shellOf tileOp rewriter with body := geometryOps tileOp rewriter }

/-! ## Tests on the created operations -/

/-- The test that an operation is the product of two index values, the form in which
the pattern computes `offset`. -/
def Operation.isAffineMul : Operation → Bool
  | .affineApply _ .mul _ _ => true
  | _ => false

/-- The test that an operation is an `affine.min`, the form in which the pattern
computes `size`. -/
def Operation.isAffineMin : Operation → Bool
  | .affineMin _ _ => true
  | _ => false

/-- The rewriter state once the extractions have been created (source line 106). -/
def sliceRewriter (tileOp : TileOp) (rewriter : PatternRewriter) : PatternRewriter :=
  { nextId := rewriter.nextId + 8 + (loweredSliceOps tileOp rewriter).length
    before := rewriter.before ++ boundOps tileOp rewriter
    after := rewriter.after
    created := rewriter.created ++ boundOps tileOp rewriter ++
      [(shellOf tileOp rewriter).toOperation] ++ geometryOps tileOp rewriter ++
      loweredSliceOps tileOp rewriter }

/-- The loop at the same point: its body holds the geometry statements, the dimension
queries and the extractions. -/
def sliceFor (tileOp : TileOp) (rewriter : PatternRewriter) : ForOp :=
  { shellOf tileOp rewriter with
    body := geometryOps tileOp rewriter ++ loweredSliceOps tileOp rewriter }

/-! ## Terminators -/

/-- The test that an operation is a `linalg_ext.tile_yield`. -/
def Operation.isTileYield : Operation → Bool
  | .tileYield _ _ => true
  | _ => false

/-- The test that an operation is an `scf.yield`, the terminator of a loop body. -/
def Operation.isScfYield : Operation → Bool
  | .scfYield _ _ => true
  | _ => false

/-- The invariant of the IR that a terminator stands only at the end of its block,
for the body of the tile operation: no operation ahead of the last one is a
`tile_yield` or an `scf.yield`. -/
def TileOp.TerminatorLast (tileOp : TileOp) : Prop :=
  ∀ op ∈ tileOp.body.dropLast, op.isTileYield = false ∧ op.isScfYield = false

/-- The invariant can be checked. -/
instance (tileOp : TileOp) : Decidable tileOp.TerminatorLast := by
  unfold TileOp.TerminatorLast
  infer_instance

/-! ## The search for tile operations and the pattern driver -/

mutual
/-- The tile operations found in an operation: the operation itself when it is one,
and those in its regions, at every nesting depth, in the order of a walk. -/
def Operation.tileOps : Operation → List TileOp
  | .constantIndex _ _ => []
  | .dim _ _ _ => []
  | .affineApply _ _ _ _ => []
  | .affineMin _ _ => []
  | .extractSlice _ _ _ _ _ _ _ _ _ => []
  | .insertSlice _ _ _ _ _ _ _ _ _ _ => []
  | .scfFor _ _ _ _ _ _ body => tileOpsIn body
  | .scfYield _ _ => []
  | .tile id tile_sizes outs resultTypes blockId argTypes body =>
      ⟨id, tile_sizes, outs, resultTypes, blockId, argTypes, body⟩ :: tileOpsIn body
  | .tileYield _ _ => []
  | .other _ _ _ _ _ _ body => tileOpsIn body
/-- The tile operations found in the operations of a block, at every nesting depth. -/
def tileOpsIn : List Operation → List TileOp
  | [] => []
  | op :: ops => op.tileOps ++ tileOpsIn ops
end

/-- The tile operation with every operand rewritten, at every nesting depth. -/
def TileOp.mapValues (f : Value → Value) (tileOp : TileOp) : TileOp :=
  { tileOp with
    tile_sizes := f tileOp.tile_sizes
    outs := tileOp.outs.map f
    body := mapValuesList f tileOp.body }

/-- The tile operation an operation is, when it is one. -/
def Operation.asTileOp? : Operation → Option TileOp
  | .tile id tile_sizes outs resultTypes blockId argTypes body =>
      some ⟨id, tile_sizes, outs, resultTypes, blockId, argTypes, body⟩
  | _ => none

/-- Modelled from the spec: the types of a tiled construct given in section 3 (the
declaration of the operation, `LinalgExtOps.td`, is not among the sources).  The
first two arguments of the entry block, the offset and the chunk size, are of type
`index`; every further argument, a sub-view, and every result is a ranked tensor
with a leading dimension. -/
def TileOp.WellTyped (tileOp : TileOp) : Prop :=
  tileOp.argTypes.take 2 = [.index, .index] ∧
    (∀ t ∈ tileOp.argTypes.drop 2, t.hasLeadingDim = true) ∧
    ∀ t ∈ tileOp.resultTypes, t.hasLeadingDim = true

/-- The types of section 3 can be checked. -/
instance (tileOp : TileOp) : Decidable tileOp.WellTyped := by
  unfold TileOp.WellTyped
  infer_instance

/-- Every tile operation of a block, at every nesting depth, passes the two
assertions of section 4.1 and has the shape and the types of section 3. -/
def AllLowerable (ops : List Operation) : Prop :=
  ∀ t ∈ tileOpsIn ops, t.Precondition ∧ t.WellFormed ∧ t.WellTyped

/-- The invariant can be checked. -/
instance (ops : List Operation) : Decidable (AllLowerable ops) := by
  unfold AllLowerable
  infer_instance

/-- What one round of the driver gives: no tile operation was found, the pattern
aborted, or the pattern was applied once, with the rewritten IR and the next unused
identity. -/
inductive Applied (α : Type)
  | noMatch
  | aborted (why : Abort)
  | rewritten (result : α) (nextId : Nat)
  deriving Repr

mutual
/-- Modelled from the spec: one round of the external driver (sections 2 and 9)
inside the regions of an operation. -/
def Operation.applyInside (nextId : Nat) : Operation → Applied Operation
  | .constantIndex _ _ => .noMatch
  | .dim _ _ _ => .noMatch
  | .affineApply _ _ _ _ => .noMatch
  | .affineMin _ _ => .noMatch
  | .extractSlice _ _ _ _ _ _ _ _ _ => .noMatch
  | .insertSlice _ _ _ _ _ _ _ _ _ _ => .noMatch
  | .scfFor id lb ub step initArgs blockId body =>
      match applyInBlock nextId [] body with
      | .rewritten body1 n => .rewritten (.scfFor id lb ub step initArgs blockId body1) n
      | .aborted a => .aborted a
      | .noMatch => .noMatch
  | .scfYield _ _ => .noMatch
  | .tile id tile_sizes outs resultTypes blockId argTypes body =>
      match applyInBlock nextId [] body with
      | .rewritten body1 n =>
          .rewritten (.tile id tile_sizes outs resultTypes blockId argTypes body1) n
      | .aborted a => .aborted a
      | .noMatch => .noMatch
  | .tileYield _ _ => .noMatch
  | .other id name operands resultTypes blockId argTypes body =>
      match applyInBlock nextId [] body with
      | .rewritten body1 n =>
          .rewritten (.other id name operands resultTypes blockId argTypes body1) n
      | .aborted a => .aborted a
      | .noMatch => .noMatch
/-- Modelled from the spec: one round of the external driver (sections 2 and 9) over
a block.  The first tile operation of a walk is matched, and `matchAndRewrite` runs
with the insertion point just ahead of it, the operations `before` ahead of it and
those behind it in its block.  A pattern that returns failure leaves the operation
for the rest of the walk. -/
def applyInBlock (nextId : Nat) (before : List Operation) :
    List Operation → Applied (List Operation)
  | [] => .noMatch
  | op :: after =>
      match op.asTileOp? with
      | some tileOp =>
          match matchAndRewrite tileOp ⟨nextId, before, after, []⟩ with
          | ⟨.returned .success, rewriter⟩ =>
              .rewritten (rewriter.before ++ rewriter.after) rewriter.nextId
          | ⟨.returned .failure, _⟩ => applyInBlock nextId (before ++ [op]) after
          | ⟨.aborted a, _⟩ => .aborted a
      | none =>
          match op.applyInside nextId with
          | .rewritten op1 n => .rewritten (before ++ op1 :: after) n
          | .aborted a => .aborted a
          | .noMatch => applyInBlock nextId (before ++ [op]) after
end

/-- Modelled from the spec: the greedy driver that `runOnOperation` calls
(`applyPatternsAndFoldGreedily`, a library routine that is not among the sources),
as sections 2 and 9 describe it, with this pattern alone: rounds are repeated until
no tile operation is found, up to `fuel` applications.  The result is the final IR
and the number of applications; there is none when the pattern aborts or the limit
is reached. -/
def applyPatternsGreedily : Nat → Nat → List Operation → Option (List Operation × Nat)
  | 0, nextId, ops =>
      match applyInBlock nextId [] ops with
      | .noMatch => some (ops, 0)
      | _ => none
  | fuel + 1, nextId, ops =>
      match applyInBlock nextId [] ops with
      | .noMatch => some (ops, 0)
      | .aborted _ => none
      | .rewritten ops1 n =>
          (applyPatternsGreedily fuel n ops1).map (fun r => (r.1, r.2 + 1))

/-- A replacement of values keeps the kind of type the pattern looks at: a value of
type `index` stays of type `index`, a ranked tensor with a leading dimension stays
one. -/
def KindPreserving (f : Value → Value) : Prop :=
  ∀ v, (v.getType.isIndex = true → (f v).getType.isIndex = true) ∧
    (v.getType.hasLeadingDim = true → (f v).getType.hasLeadingDim = true)

/-- A second tile operation, with one output, whose body yields its sub-view. -/
def sampleSibling : TileOp :=
  { id := 20, tile_sizes := sampleStep, outs := [sampleOut]
    resultTypes := [.rankedTensor [none] .f32]
    blockId := 21
    argTypes := [.index, .index, .rankedTensor [none] .f32]
    body := [.tileYield 22 [.blockArg 21 2 (.rankedTensor [none] .f32)]] }

/-- A rewriter positioned at `sampleTile` in a block that holds `sampleSibling`
behind it. -/
def sampleRewriterTwo : PatternRewriter :=
  { nextId := 30, before := []
    after := [sampleSibling.toOperation]
    created := [] }

/-- A function body with two tile operations, `sampleTile` and `sampleSibling`. -/
def sampleFunction : List Operation :=
  [sampleTile.toOperation, sampleSibling.toOperation]

/-! ## Constructs that pass the two assertions without the shape of section 3 -/

/-- A tile operation with two outputs and two results whose body yields one value
only. -/
def sampleTileShortYield : TileOp :=
  { sampleTile2 with body := [.tileYield 9 [.blockArg 6 2 (.rankedTensor [none] .f32)]] }

/-- A tile operation whose one output is a tensor of rank 0. -/
def sampleTileRank0 : TileOp :=
  { sampleTile with outs := [.opResult 2 0 (.rankedTensor [] .f32)] }

/-! ## Lemmas on the embedding -/


theorem mapValuesList_eq_map (f : Value → Value) (ops : List Operation) :
    mapValuesList f ops = ops.map (Operation.mapValues f) := by
  induction ops with
  | nil => rfl
  | cons o os ih => simp [mapValuesList, ih]

mutual
theorem Operation.mapValues_comp (f g : Value → Value) :
    ∀ o : Operation, (o.mapValues g).mapValues f = o.mapValues (f ∘ g)
  | .constantIndex _ _ => rfl
  | .dim _ _ _ => rfl
  | .affineApply _ _ _ _ => rfl
  | .affineMin _ _ => by simp [Operation.mapValues]
  | .extractSlice _ _ _ _ _ _ _ _ _ => by simp [Operation.mapValues]
  | .insertSlice _ _ _ _ _ _ _ _ _ _ => by simp [Operation.mapValues]
  | .scfFor _ _ _ _ _ _ body => by
      simp [Operation.mapValues, mapValuesList_comp f g body]
  | .scfYield _ _ => by simp [Operation.mapValues]
  | .tile _ _ _ _ _ _ body => by
      simp [Operation.mapValues, mapValuesList_comp f g body]
  | .tileYield _ _ => by simp [Operation.mapValues]
  | .other _ _ _ _ _ _ body => by
      simp [Operation.mapValues, mapValuesList_comp f g body]
theorem mapValuesList_comp (f g : Value → Value) :
    ∀ ops : List Operation, mapValuesList f (mapValuesList g ops) = mapValuesList (f ∘ g) ops
  | [] => rfl
  | o :: os => by
      simp [mapValuesList, Operation.mapValues_comp f g o, mapValuesList_comp f g os]
end

mutual
theorem Operation.mapValues_id : ∀ o : Operation, o.mapValues (fun v => v) = o
  | .constantIndex _ _ => rfl
  | .dim _ _ _ => rfl
  | .affineApply _ _ _ _ => rfl
  | .affineMin _ _ => by simp [Operation.mapValues]
  | .extractSlice _ _ _ _ _ _ _ _ _ => by simp [Operation.mapValues]
  | .insertSlice _ _ _ _ _ _ _ _ _ _ => by simp [Operation.mapValues]
  | .scfFor _ _ _ _ _ _ body => by simp [Operation.mapValues, mapValuesList_id body]
  | .scfYield _ _ => by simp [Operation.mapValues]
  | .tile _ _ _ _ _ _ body => by simp [Operation.mapValues, mapValuesList_id body]
  | .tileYield _ _ => by simp [Operation.mapValues]
  | .other _ _ _ _ _ _ body => by simp [Operation.mapValues, mapValuesList_id body]
theorem mapValuesList_id : ∀ ops : List Operation, mapValuesList (fun v => v) ops = ops
  | [] => rfl
  | o :: os => by simp [mapValuesList, Operation.mapValues_id o, mapValuesList_id os]
end

theorem Operation.id_mapValues (f : Value → Value) (o : Operation) :
    (o.mapValues f).id = o.id := by
  cases o <;> rfl

theorem translate_cons (p : Value × Value) (ps : List (Value × Value)) :
    translate (p :: ps) = translate ps ∘ replaceUse p.1 p.2 := by
  funext v
  simp [translate]

theorem replaceAllUsesWith_eq (pairs : List (Value × Value)) (ops : List Operation) :
    replaceAllUsesWith pairs ops = mapValuesList (translate pairs) ops := by
  induction pairs generalizing ops with
  | nil =>
      have h : translate [] = fun v => v := by funext v; rfl
      simp [replaceAllUsesWith, h, mapValuesList_id]
  | cons p ps ih =>
      have := ih (mapValuesList (replaceUse p.1 p.2) ops)
      simp only [replaceAllUsesWith, List.foldl_cons] at this ⊢
      rw [this, mapValuesList_comp, translate_cons]

theorem replaceAllUsesWith_append (pairs : List (Value × Value)) (xs ys : List Operation) :
    replaceAllUsesWith pairs (xs ++ ys) =
      replaceAllUsesWith pairs xs ++ replaceAllUsesWith pairs ys := by
  simp [replaceAllUsesWith_eq, mapValuesList_eq_map]

theorem pushDimSizes_eq (tensor : Value) (dims : List Nat) (rewriter : PatternRewriter)
    (forOp : ForOp) (sizes : List Value) :
    pushDimSizes tensor dims rewriter forOp sizes =
      (sizes ++ dimVals rewriter.nextId dims,
        { rewriter with
          nextId := rewriter.nextId + 2 * dims.length
          created := rewriter.created ++ dimOps tensor rewriter.nextId dims },
        { forOp with body := forOp.body ++ dimOps tensor rewriter.nextId dims }) := by
  induction dims generalizing rewriter forOp sizes with
  | nil => simp [pushDimSizes, dimVals, dimOps]
  | cons i dims ih =>
      simp only [pushDimSizes, createDimOp, PatternRewriter.createInBody, ih, dimVals, dimOps,
        List.length_cons]
      simp [Nat.mul_add, Nat.add_assoc]
      omega

theorem length_dimOps (tensor : Value) (n : Nat) (dims : List Nat) :
    (dimOps tensor n dims).length = 2 * dims.length := by
  induction dims generalizing n with
  | nil => rfl
  | cons i dims ih => simp [dimOps, ih]; omega

theorem length_dimVals (n : Nat) (dims : List Nat) : (dimVals n dims).length = dims.length := by
  induction dims generalizing n with
  | nil => rfl
  | cons i dims ih => simp [dimVals, ih]

theorem length_tensorOps (zero one offset size : Value) (n : Nat) (tensor : Value) :
    (tensorOps zero one offset size n tensor).length = 2 * (tensor.getType.rank - 1) + 1 := by
  simp [tensorOps, length_dimOps]

theorem extractSubtensor_eq (zero one offset size : Value) (rewriter : PatternRewriter)
    (forOp : ForOp) (tensor : Value) (h : tensor.getType.hasLeadingDim = true) :
    extractSubtensor zero one offset size rewriter forOp tensor =
      .ok ((extractOpAt zero one offset size rewriter.nextId tensor).sliceResult,
        { rewriter with
          nextId := rewriter.nextId + (2 * (tensor.getType.rank - 1) + 1)
          created := rewriter.created ++ tensorOps zero one offset size rewriter.nextId tensor },
        { forOp with
          body := forOp.body ++ tensorOps zero one offset size rewriter.nextId tensor }) := by
  unfold extractSubtensor
  cases hty : tensor.getType with
  | rankedTensor shape elem =>
      cases shape with
      | nil => simp [hty, Ty.hasLeadingDim] at h
      | cons d ds =>
          simp only [List.length_cons, List.replicate_succ, pushDimSizes_eq,
            PatternRewriter.createInBody, tensorOps, extractOpAt, hty, Ty.rank, Ty.elem,
            Operation.sliceResult, Nat.add_sub_cancel, List.length_range', List.length_replicate,
            length_dimVals]
          simp [Nat.add_assoc, Nat.add_comm]
          refine ⟨by omega, ?_⟩
          rw [length_dimVals, List.length_range', Nat.add_comm, List.replicate_succ]
  | index => simp [hty, Ty.hasLeadingDim] at h
  | unrankedTensor e => simp [hty, Ty.hasLeadingDim] at h
  | scalar e => simp [hty, Ty.hasLeadingDim] at h


theorem length_sliceOps_cons (zero one offset size : Value) (n : Nat) (t : Value)
    (ts : List Value) :
    (sliceOps zero one offset size n (t :: ts)).length =
      (2 * (t.getType.rank - 1) + 1) +
        (sliceOps zero one offset size (n + (2 * (t.getType.rank - 1) + 1)) ts).length := by
  simp [sliceOps, length_tensorOps]

theorem materializeExtracts_eq (zero one offset size : Value) (tensors : List Value)
    (h : ∀ t ∈ tensors, t.getType.hasLeadingDim = true) (rewriter : PatternRewriter)
    (forOp : ForOp) (acc : List Value) :
    materializeExtracts zero one offset size tensors rewriter forOp acc =
      .ok (acc ++ (extractOps zero one offset size rewriter.nextId tensors).map
            Operation.sliceResult,
        { rewriter with
          nextId := rewriter.nextId +
            (sliceOps zero one offset size rewriter.nextId tensors).length
          created := rewriter.created ++ sliceOps zero one offset size rewriter.nextId tensors },
        { forOp with
          body := forOp.body ++ sliceOps zero one offset size rewriter.nextId tensors }) := by
  induction tensors generalizing rewriter forOp acc with
  | nil => simp [materializeExtracts, extractOps, sliceOps]
  | cons t ts ih =>
      have ht := h t (List.mem_cons_self _ _)
      have hts : ∀ t' ∈ ts, t'.getType.hasLeadingDim = true :=
        fun t' ht' => h t' (List.mem_cons_of_mem _ ht')
      simp only [materializeExtracts, extractSubtensor_eq _ _ _ _ _ _ _ ht, ih hts]
      simp [extractOps, sliceOps, length_tensorOps, Nat.add_assoc]

theorem ids_dimOps (tensor : Value) (n : Nat) (dims : List Nat) :
    (dimOps tensor n dims).map Operation.id = List.range' n (2 * dims.length) := by
  induction dims generalizing n with
  | nil => rfl
  | cons i dims ih =>
      simp only [dimOps, List.map_cons, ih, Operation.id, List.length_cons]
      rw [show 2 * (dims.length + 1) = (2 * dims.length + 1) + 1 by omega, List.range'_succ,
        List.range'_succ]

theorem ids_tensorOps (zero one offset size : Value) (n : Nat) (tensor : Value) :
    (tensorOps zero one offset size n tensor).map Operation.id =
      List.range' n (2 * (tensor.getType.rank - 1) + 1) := by
  simp only [tensorOps, List.map_append, ids_dimOps, List.length_range', List.map_cons,
    List.map_nil, extractOpAt, Operation.id]
  rw [List.range'_concat]
  simp

theorem ids_sliceOps (zero one offset size : Value) (n : Nat) (tensors : List Value) :
    (sliceOps zero one offset size n tensors).map Operation.id =
      List.range' n (sliceOps zero one offset size n tensors).length := by
  induction tensors generalizing n with
  | nil => rfl
  | cons t ts ih =>
      rw [length_sliceOps_cons, sliceOps, List.map_append, ids_tensorOps, ih,
        List.range'_append_1]
      congr 1
      omega

theorem length_extractOps (zero one offset size : Value) (n : Nat) (tensors : List Value) :
    (extractOps zero one offset size n tensors).length = tensors.length := by
  induction tensors generalizing n with
  | nil => rfl
  | cons t ts ih => simp [extractOps, ih]

theorem filter_dimOps (tensor : Value) (n : Nat) (dims : List Nat) :
    (dimOps tensor n dims).filter Operation.isExtractSlice = [] := by
  induction dims generalizing n with
  | nil => rfl
  | cons i dims ih => simp [dimOps, Operation.isExtractSlice, ih]

theorem filter_sliceOps (zero one offset size : Value) (n : Nat) (tensors : List Value) :
    (sliceOps zero one offset size n tensors).filter Operation.isExtractSlice =
      extractOps zero one offset size n tensors := by
  induction tensors generalizing n with
  | nil => rfl
  | cons t ts ih =>
      simp [sliceOps, tensorOps, extractOps, filter_dimOps, ih, extractOpAt,
        Operation.isExtractSlice]

theorem extractOps_subset (zero one offset size : Value) (n : Nat) (tensors : List Value)
    (e : Operation) (he : e ∈ extractOps zero one offset size n tensors) :
    e ∈ sliceOps zero one offset size n tensors := by
  rw [← filter_sliceOps] at he
  exact (List.mem_filter.mp he).1

theorem find_of_mem_nodup (P R : List Operation) (hP : (P.map Operation.id).Nodup)
    (e : Operation) (he : e ∈ P) :
    (P ++ R).find? (fun o => o.id == e.id) = some e := by
  induction P with
  | nil => simp at he
  | cons p ps ih =>
      simp only [List.map_cons, List.nodup_cons] at hP
      rcases List.mem_cons.mp he with rfl | hmem
      · simp
      · have hne : p.id ≠ e.id := by
          intro heq
          exact hP.1 (heq ▸ List.mem_map_of_mem _ hmem)
        have hb : (p.id == e.id) = false := by simp [hne]
        simp only [List.cons_append, List.find?, hb]
        exact ih hP.2 hmem


theorem createMatchingSubsetInsert_eq (rewriter : PatternRewriter) (forOp : ForOp)
    (P R : List Operation) (hbody : forOp.body = P ++ R)
    (hP : (P.map Operation.id).Nodup) (e : Operation) (he : e ∈ P)
    (hx : e.isExtractSlice = true) (y a : Value) :
    createMatchingSubsetInsert rewriter forOp e.sliceResult y a =
      .ok ((insertOpFor rewriter.nextId e y a).sliceResult,
        { rewriter with
          nextId := rewriter.nextId + 1
          created := rewriter.created ++ [insertOpFor rewriter.nextId e y a] },
        { forOp with body := forOp.body ++ [insertOpFor rewriter.nextId e y a] }) := by
  have hfind := find_of_mem_nodup P R hP e he
  cases e with
  | extractSlice id rt src os ss sts so sz st =>
      have hfind' : forOp.body.find? (fun o => o.id == id) =
          some (.extractSlice id rt src os ss sts so sz st) := by
        rw [hbody]; exact hfind
      simp only [createMatchingSubsetInsert, getDefiningOp, Operation.sliceResult, resultOf,
        hfind']
      simp [insertOpFor, PatternRewriter.createInBody, Operation.sliceResult, resultOf]
  | _ => simp [Operation.isExtractSlice] at hx

theorem length_insertOps (n : Nat) (triples : List (Operation × Value × Value)) :
    (insertOps n triples).length = triples.length := by
  induction triples generalizing n with
  | nil => rfl
  | cons t ts ih => obtain ⟨e, y, a⟩ := t; simp [insertOps, ih]

theorem createInserts_eq (P : List Operation) (hP : (P.map Operation.id).Nodup)
    (triples : List (Operation × Value × Value))
    (h : ∀ t ∈ triples, t.1 ∈ P ∧ t.1.isExtractSlice = true)
    (rewriter : PatternRewriter) (forOp : ForOp) (R : List Operation)
    (hbody : forOp.body = P ++ R) (acc : List Value) :
    createInserts (triples.map (fun t => (t.1.sliceResult, t.2.1, t.2.2))) rewriter forOp acc =
      .ok (acc ++ (insertOps rewriter.nextId triples).map Operation.sliceResult,
        { rewriter with
          nextId := rewriter.nextId + triples.length
          created := rewriter.created ++ insertOps rewriter.nextId triples },
        { forOp with body := forOp.body ++ insertOps rewriter.nextId triples }) := by
  induction triples generalizing rewriter forOp R acc with
  | nil => simp [createInserts, insertOps]
  | cons t ts ih =>
      obtain ⟨e, y, a⟩ := t
      have ht := h (e, y, a) (List.mem_cons_self _ _)
      have hts : ∀ t ∈ ts, t.1 ∈ P ∧ t.1.isExtractSlice = true :=
        fun t' ht' => h t' (List.mem_cons_of_mem _ ht')
      simp only [List.map_cons, createInserts,
        createMatchingSubsetInsert_eq rewriter forOp P R hbody hP e ht.1 ht.2 y a]
      rw [ih hts _ _ (R ++ [insertOpFor rewriter.nextId e y a]) (by simp [hbody])]
      simp [insertOps, Nat.add_assoc, Nat.add_comm 1]


theorem length_numbered (mk : Nat → Ty → Value) (k : Nat) (tys : List Ty) :
    (numbered mk k tys).length = tys.length := by
  induction tys generalizing k with
  | nil => rfl
  | cons t ts ih => simp [numbered, ih]

theorem getType_of_mem_numbered (mk : Nat → Ty → Value)
    (hmk : ∀ k t, (mk k t).getType = t) (k : Nat) (tys : List Ty) (v : Value)
    (hv : v ∈ numbered mk k tys) : v.getType ∈ tys := by
  induction tys generalizing k with
  | nil => simp [numbered] at hv
  | cons t ts ih =>
      simp only [numbered, List.mem_cons] at hv
      rcases hv with rfl | hv
      · simp [hmk]
      · exact List.mem_cons_of_mem _ (ih _ hv)

theorem iterArgs_hasLeadingDim (tileOp : TileOp) (rewriter : PatternRewriter)
    (h : ∀ v ∈ tileOp.outs, v.getType.hasLeadingDim = true) :
    ∀ t ∈ (shellOf tileOp rewriter).getRegionIterArgs, t.getType.hasLeadingDim = true := by
  intro t ht
  have := getType_of_mem_numbered (fun k t => Value.blockArg _ k t) (fun _ _ => rfl) _ _ t ht
  obtain ⟨v, hv, hvt⟩ := List.mem_map.mp this
  rw [← hvt]
  exact h v hv

theorem length_iterArgs (tileOp : TileOp) (rewriter : PatternRewriter) :
    (shellOf tileOp rewriter).getRegionIterArgs.length = tileOp.outs.length := by
  simp [ForOp.getRegionIterArgs, length_numbered, shellOf]

theorem length_loweredExtracts (tileOp : TileOp) (rewriter : PatternRewriter) :
    (loweredExtracts tileOp rewriter).length = tileOp.outs.length := by
  simp [loweredExtracts, length_extractOps, length_iterArgs]

theorem ids_geometry_slice (tileOp : TileOp) (rewriter : PatternRewriter) :
    ((geometryOps tileOp rewriter ++ loweredSliceOps tileOp rewriter).map Operation.id).Nodup := by
  have : (geometryOps tileOp rewriter ++ loweredSliceOps tileOp rewriter).map Operation.id =
      List.range' (rewriter.nextId + 5) ((loweredSliceOps tileOp rewriter).length + 3) := by
    rw [List.map_append, loweredSliceOps, ids_sliceOps, ← List.range'_append_1]
    rfl
  rw [this]
  exact List.nodup_range' _ _

theorem getLast?_mapValuesList (f : Value → Value) (ops : List Operation) :
    (mapValuesList f ops).getLast? = ops.getLast?.map (Operation.mapValues f) := by
  rw [mapValuesList_eq_map, List.getLast?_map]

theorem mergedBody_getLast? (tileOp : TileOp) (rewriter : PatternRewriter)
    (hy : tileOp.endsInYield = true) :
    ∃ yid, (mergedBody tileOp rewriter).getLast? =
      some (.tileYield yid (yieldedValues tileOp rewriter)) := by
  unfold TileOp.endsInYield at hy
  unfold mergedBody yieldedValues TileOp.yieldOperands
  rw [replaceAllUsesWith_eq, getLast?_mapValuesList]
  cases hl : tileOp.body.getLast? with
  | none => simp [hl] at hy
  | some op =>
      cases op with
      | tileYield id ops => exact ⟨id, by simp [Operation.mapValues]⟩
      | _ => simp [hl] at hy

theorem eraseIdx_last_of_front (A init : List Operation) (x : Operation) (B : List Operation) :
    ((A ++ (init ++ [x])) ++ B).eraseIdx ((A ++ (init ++ [x])).length - 1) =
      A ++ init ++ B := by
  have h1 : (A ++ (init ++ [x])).length - 1 = (A ++ init).length := by simp
  rw [h1, ← List.append_assoc A init [x], List.append_assoc (A ++ init) [x] B,
    List.eraseIdx_append_of_length_le (Nat.le_refl _), Nat.sub_self]
  rfl


theorem getLast?_replaceAllUsesWith (tileOp : TileOp) (pairs : List (Value × Value))
    (hy : tileOp.endsInYield = true) :
    ∃ yid, (replaceAllUsesWith pairs tileOp.body).getLast? =
      some (.tileYield yid (tileOp.yieldOperands.map (translate pairs))) := by
  unfold TileOp.endsInYield at hy
  unfold TileOp.yieldOperands
  rw [replaceAllUsesWith_eq, getLast?_mapValuesList]
  cases hl : tileOp.body.getLast? with
  | none => simp [hl] at hy
  | some op =>
      cases op with
      | tileYield id ops => exact ⟨id, by simp [Operation.mapValues]⟩
      | _ => simp [hl] at hy

theorem zip_map_sliceResult (exOps : List Operation) (L : List (Value × Value)) :
    (exOps.map Operation.sliceResult).zip L =
      (exOps.zip L).map (fun t => (t.1.sliceResult, t.2.1, t.2.2)) := by
  induction exOps generalizing L with
  | nil => simp
  | cons e es ih =>
      cases L with
      | nil => simp
      | cons l ls => simp [ih]

theorem eraseIdx_mid (A M B : List Operation) (hM : M ≠ []) :
    (A ++ (M ++ B)).eraseIdx (A.length + M.length - 1) = A ++ (M.dropLast ++ B) := by
  have hsplit := List.dropLast_append_getLast hM
  have h := eraseIdx_last_of_front A M.dropLast (M.getLast hM) B
  rw [hsplit] at h
  simpa [List.append_assoc] using h

theorem spliceAndWriteBack_eq (tileOp : TileOp) (rewriter : PatternRewriter) (forOp : ForOp)
    (offset size : Value) (exOps : List Operation)
    (hP : (forOp.body.map Operation.id).Nodup)
    (hex : ∀ e ∈ exOps, e ∈ forOp.body ∧ e.isExtractSlice = true)
    (hargs : exOps.length + 2 = tileOp.argTypes.length)
    (hy : tileOp.endsInYield = true)
    (pairs : List (Value × Value))
    (hpairs : pairs = tileOp.getArguments.zip ([offset, size] ++ exOps.map Operation.sliceResult))
    (triples : List (Operation × Value × Value))
    (htriples : triples = exOps.zip
      ((tileOp.yieldOperands.map (translate pairs)).zip forOp.getRegionIterArgs)) :
    spliceAndWriteBack tileOp rewriter forOp offset size (exOps.map Operation.sliceResult) =
      ⟨.returned .success,
        PatternRewriter.replaceOp
          { rewriter with
            nextId := rewriter.nextId + triples.length + 1
            created := rewriter.created ++ insertOps rewriter.nextId triples ++
              [.scfYield (rewriter.nextId + triples.length)
                ((insertOps rewriter.nextId triples).map Operation.sliceResult)] }
          tileOp
          { forOp with
            body := forOp.body ++ (replaceAllUsesWith pairs tileOp.body).dropLast ++
              insertOps rewriter.nextId triples ++
              [.scfYield (rewriter.nextId + triples.length)
                ((insertOps rewriter.nextId triples).map Operation.sliceResult)] }⟩ := by
  obtain ⟨yid, hlast⟩ := getLast?_replaceAllUsesWith tileOp pairs hy
  have hsplit : (replaceAllUsesWith pairs tileOp.body).dropLast ++
      [.tileYield yid (tileOp.yieldOperands.map (translate pairs))] =
      replaceAllUsesWith pairs tileOp.body :=
    List.dropLast_append_getLast? _ (by rw [hlast]; rfl)
  have hlen : ([offset, size] ++ exOps.map Operation.sliceResult).length =
      tileOp.argTypes.length := by simp; omega
  have hlast' : (forOp.body ++ replaceAllUsesWith pairs tileOp.body).getLast? =
      some (.tileYield yid (tileOp.yieldOperands.map (translate pairs))) := by
    rw [List.getLast?_append, hlast]; rfl
  have htr : ∀ t ∈ triples, t.1 ∈ forOp.body ∧ t.1.isExtractSlice = true := by
    intro t ht
    obtain ⟨e, y, a⟩ := t
    rw [htriples] at ht
    exact hex e (List.of_mem_zip ht).1
  have hins := createInserts_eq forOp.body hP triples htr rewriter
    { forOp with body := forOp.body ++ replaceAllUsesWith pairs tileOp.body }
    (replaceAllUsesWith pairs tileOp.body) rfl []
  unfold spliceAndWriteBack
  simp only [mergeBlocks, hlen, if_true, ← hpairs]
  simp only [hlast', zip_map_sliceResult]
  have hia : ForOp.getRegionIterArgs
      { forOp with body := forOp.body ++ replaceAllUsesWith pairs tileOp.body } =
      forOp.getRegionIterArgs := rfl
  rw [hia, ← htriples]
  change (match createInserts (triples.map (fun t => (t.1.sliceResult, t.2.1, t.2.2))) rewriter
      { forOp with body := forOp.body ++ replaceAllUsesWith pairs tileOp.body } [] with
    | .error a => _
    | .ok (implicitSubtensorInserts, rewriter, forOp) => _) = _
  rw [hins]
  simp only [PatternRewriter.createInBody, List.nil_append]
  congr 2
  simp [length_insertOps, Nat.add_assoc]
  refine eraseIdx_mid _ _ _ ?_
  intro hnil
  rw [hnil] at hlast
  simp at hlast


theorem matchAndRewrite_eq (tileOp : TileOp) (rewriter : PatternRewriter)
    (hpre : tileOp.Precondition)
    (houts : ∀ v ∈ tileOp.outs, v.getType.hasLeadingDim = true)
    (hargs : tileOp.argTypes.length = 2 + tileOp.outs.length)
    (hy : tileOp.endsInYield = true) :
    matchAndRewrite tileOp rewriter = ⟨.returned .success, loweredRewriter tileOp rewriter⟩ := by
  obtain ⟨hres, hlen, hstep⟩ := hpre
  have hiter := iterArgs_hasLeadingDim tileOp rewriter houts
  have hP := ids_geometry_slice tileOp rewriter
  have hlenE := length_loweredExtracts tileOp rewriter
  have hex : ∀ e ∈ loweredExtracts tileOp rewriter,
      e ∈ geometryOps tileOp rewriter ++ loweredSliceOps tileOp rewriter ∧
        e.isExtractSlice = true := by
    intro e he
    have hf : e ∈ (loweredSliceOps tileOp rewriter).filter Operation.isExtractSlice := by
      rw [loweredSliceOps, filter_sliceOps]; exact he
    exact ⟨List.mem_append_right _ (List.mem_filter.mp hf).1, (List.mem_filter.mp hf).2⟩
  cases ho : tileOp.outs with
  | nil => rw [ho] at hlen; simp at hlen; omega
  | cons front rest =>
    unfold matchAndRewrite
    simp only [hres, hlen, hstep, and_self, not_true_eq_false, if_false, ho,
      PatternRewriter.create, PatternRewriter.createFor, PatternRewriter.createInBody]
    rw [← ho]
    rw [materializeExtracts_eq _ _ _ _ _ ?_]
    rotate_left
    · exact hiter
    simp only [hlen, not_true_eq_false, if_false, and_self, List.nil_append]
    rw [spliceAndWriteBack_eq _ _ _ _ _ _ ?_ ?_ ?_ hy _ rfl _ rfl]
    rotate_left
    · exact hP
    · exact hex
    · show (loweredExtracts tileOp rewriter).length + 2 = _
      omega
    have hfront : ∀ d, tileOp.outs.headD d = front := fun d => by rw [ho]; rfl
    congr 1
    simp only [loweredRewriter, loweredCreated, loweredFor, loweredBody, loweredYield,
      loweredInserts, insertTriples, yieldedValues, mergedBody, mergePairs, bbArgsTranslatedOf,
      loweredExtracts, loweredSliceOps, geometryOps, shellOf, boundOps, hfront, zeroOf, oneOf,
      totalSizeOf, offsetOf, sizeOf, ForOp.getRegionIterArgs, ForOp.getInductionVar,
      ForOp.toOperation, Nat.add_assoc, List.append_assoc, List.cons_append, List.nil_append,
      Nat.reduceAdd]

/-! ## What a successful run has created -/

theorem matchAndRewrite_of_wellFormed (tileOp : TileOp) (rewriter : PatternRewriter)
    (hpre : tileOp.Precondition) (hwf : tileOp.WellFormed) :
    matchAndRewrite tileOp rewriter = ⟨.returned .success, loweredRewriter tileOp rewriter⟩ :=
  matchAndRewrite_eq tileOp rewriter hpre hwf.1 hwf.2.1 hwf.2.2.1

theorem newlyCreated_eq (tileOp : TileOp) (rewriter : PatternRewriter)
    (hpre : tileOp.Precondition) (hwf : tileOp.WellFormed) :
    newlyCreated rewriter (matchAndRewrite tileOp rewriter) = loweredCreated tileOp rewriter := by
  rw [matchAndRewrite_of_wellFormed tileOp rewriter hpre hwf]
  simp [newlyCreated, loweredRewriter, PatternRewriter.replaceOp]

theorem filter_extract_insertOps (n : Nat) (triples : List (Operation × Value × Value)) :
    (insertOps n triples).filter Operation.isExtractSlice = [] := by
  induction triples generalizing n with
  | nil => rfl
  | cons t ts ih =>
      obtain ⟨e, y, a⟩ := t
      cases e <;> simp [insertOps, insertOpFor, Operation.isExtractSlice, ih]

theorem filter_insert_insertOps (n : Nat) (triples : List (Operation × Value × Value)) :
    (insertOps n triples).filter Operation.isInsertSlice = insertOps n triples := by
  induction triples generalizing n with
  | nil => rfl
  | cons t ts ih =>
      obtain ⟨e, y, a⟩ := t
      cases e <;> simp [insertOps, insertOpFor, Operation.isInsertSlice, ih]

theorem filter_insert_dimOps (tensor : Value) (n : Nat) (dims : List Nat) :
    (dimOps tensor n dims).filter Operation.isInsertSlice = [] := by
  induction dims generalizing n with
  | nil => rfl
  | cons i dims ih => simp [dimOps, Operation.isInsertSlice, ih]

theorem filter_insert_sliceOps (zero one offset size : Value) (n : Nat)
    (tensors : List Value) :
    (sliceOps zero one offset size n tensors).filter Operation.isInsertSlice = [] := by
  induction tensors generalizing n with
  | nil => rfl
  | cons t ts ih =>
      simp [sliceOps, tensorOps, filter_insert_dimOps, ih, extractOpAt,
        Operation.isInsertSlice]

theorem emittedExtracts_eq (tileOp : TileOp) (rewriter : PatternRewriter)
    (hpre : tileOp.Precondition) (hwf : tileOp.WellFormed) :
    emittedExtracts rewriter (matchAndRewrite tileOp rewriter) =
      loweredExtracts tileOp rewriter := by
  rw [emittedExtracts, newlyCreated_eq tileOp rewriter hpre hwf]
  simp [loweredCreated, boundOps, geometryOps, loweredSliceOps, loweredInserts, loweredYield,
    loweredExtracts, ForOp.toOperation, Operation.isExtractSlice, filter_sliceOps,
    filter_extract_insertOps]

theorem emittedInserts_eq (tileOp : TileOp) (rewriter : PatternRewriter)
    (hpre : tileOp.Precondition) (hwf : tileOp.WellFormed) :
    emittedInserts rewriter (matchAndRewrite tileOp rewriter) =
      loweredInserts tileOp rewriter := by
  rw [emittedInserts, newlyCreated_eq tileOp rewriter hpre hwf]
  simp [loweredCreated, boundOps, geometryOps, loweredSliceOps, loweredInserts, loweredYield,
    ForOp.toOperation, Operation.isInsertSlice, filter_insert_sliceOps,
    filter_insert_insertOps]

theorem getElem?_insertOps (n : Nat) (triples : List (Operation × Value × Value)) (k : Nat) :
    (insertOps n triples)[k]? =
      triples[k]?.map (fun t => insertOpFor (n + k) t.1 t.2.1 t.2.2) := by
  induction triples generalizing n k with
  | nil => simp [insertOps]
  | cons t ts ih =>
      obtain ⟨e, y, a⟩ := t
      cases k with
      | zero => simp [insertOps]
      | succ k =>
          simp only [insertOps, List.getElem?_cons_succ, ih]
          rw [show n + 1 + k = n + (k + 1) by omega]

theorem getElem?_numbered (mk : Nat → Ty → Value) (j : Nat) (tys : List Ty) (k : Nat) :
    (numbered mk j tys)[k]? = tys[k]?.map (mk (j + k)) := by
  induction tys generalizing j k with
  | nil => simp [numbered]
  | cons t ts ih =>
      cases k with
      | zero => simp [numbered]
      | succ k =>
          simp only [numbered, List.getElem?_cons_succ, ih]
          rw [show j + 1 + k = j + (k + 1) by omega]

theorem getElem?_extractOps (zero one offset size : Value) (n : Nat) (tensors : List Value)
    (k : Nat) (t : Value) (ht : tensors[k]? = some t) :
    ∃ m, (extractOps zero one offset size n tensors)[k]? =
        some (extractOpAt zero one offset size m t) ∧
      ∀ op ∈ tensorOps zero one offset size m t, op ∈ sliceOps zero one offset size n tensors := by
  induction tensors generalizing n k with
  | nil => simp at ht
  | cons t' ts ih =>
      cases k with
      | zero =>
          simp only [List.getElem?_cons_zero, Option.some.injEq] at ht
          subst ht
          exact ⟨n, by simp [extractOps], fun op hop => by
            simp only [sliceOps]; exact List.mem_append_left _ hop⟩
      | succ k =>
          simp only [List.getElem?_cons_succ] at ht
          obtain ⟨m, hm, hsub⟩ := ih (n + (2 * (t'.getType.rank - 1) + 1)) k ht
          exact ⟨m, by simpa [extractOps] using hm, fun op hop => by
            simp only [sliceOps]; exact List.mem_append_right _ (hsub op hop)⟩

theorem length_yieldedValues (tileOp : TileOp) (rewriter : PatternRewriter)
    (hwf : tileOp.WellFormed) :
    (yieldedValues tileOp rewriter).length = tileOp.outs.length := by
  simp [yieldedValues, hwf.2.2.2]

/-- The `k`-th extraction, yielded value, loop-carried argument and insertion of a
successful run. -/
theorem kth_extract_insert (tileOp : TileOp) (rewriter : PatternRewriter)
    (hwf : tileOp.WellFormed) (k : Nat) (hk : k < tileOp.outs.length) :
    ∃ m y a, (shellOf tileOp rewriter).getRegionIterArgs[k]? = some a ∧
      (yieldedValues tileOp rewriter)[k]? = some y ∧
      (loweredExtracts tileOp rewriter)[k]? =
        some (extractOpAt (zeroOf rewriter) (oneOf rewriter) (offsetOf rewriter)
          (sizeOf rewriter) m a) ∧
      (∀ op ∈ tensorOps (zeroOf rewriter) (oneOf rewriter) (offsetOf rewriter)
          (sizeOf rewriter) m a, op ∈ loweredSliceOps tileOp rewriter) ∧
      (loweredInserts tileOp rewriter)[k]? =
        some (insertOpFor
          (rewriter.nextId + 8 + (loweredSliceOps tileOp rewriter).length + k)
          (extractOpAt (zeroOf rewriter) (oneOf rewriter) (offsetOf rewriter)
            (sizeOf rewriter) m a) y a) := by
  have hka : k < (shellOf tileOp rewriter).getRegionIterArgs.length := by
    rw [length_iterArgs]; exact hk
  have hky : k < (yieldedValues tileOp rewriter).length := by
    rw [length_yieldedValues tileOp rewriter hwf]; exact hk
  have ha := List.getElem?_eq_getElem hka
  have hy := List.getElem?_eq_getElem hky
  obtain ⟨m, hm, hsub⟩ := getElem?_extractOps (zeroOf rewriter) (oneOf rewriter)
    (offsetOf rewriter) (sizeOf rewriter) (rewriter.nextId + 8) _ k _ ha
  refine ⟨m, _, _, ha, hy, hm, hsub, ?_⟩
  have htr : (insertTriples tileOp rewriter)[k]? =
      some (extractOpAt (zeroOf rewriter) (oneOf rewriter) (offsetOf rewriter)
        (sizeOf rewriter) m ((shellOf tileOp rewriter).getRegionIterArgs[k]),
        (yieldedValues tileOp rewriter)[k], (shellOf tileOp rewriter).getRegionIterArgs[k]) := by
    rw [insertTriples, List.getElem?_zip_eq_some]
    refine ⟨hm, ?_⟩
    rw [List.getElem?_zip_eq_some]
    exact ⟨hy, ha⟩
  rw [loweredInserts, getElem?_insertOps, htr]
  rfl

theorem getElem?_dimVals (m : Nat) (dims : List Nat) (j : Nat) (hj : j < dims.length) :
    (dimVals m dims)[j]? = some (resultOf (m + 2 * j + 1) .index) := by
  induction dims generalizing m j with
  | nil => simp at hj
  | cons i dims ih =>
      cases j with
      | zero => simp [dimVals]
      | succ j =>
          simp only [dimVals, List.getElem?_cons_succ]
          rw [ih (m + 2) j (by simpa using hj)]
          congr 2
          omega

theorem mem_dimOps (tensor : Value) (m : Nat) (dims : List Nat) (j i : Nat)
    (hj : dims[j]? = some i) :
    Operation.constantIndex (m + 2 * j) i ∈ dimOps tensor m dims ∧
      Operation.dim (m + 2 * j + 1) tensor (resultOf (m + 2 * j) .index) ∈
        dimOps tensor m dims := by
  induction dims generalizing m j with
  | nil => simp at hj
  | cons i' dims ih =>
      cases j with
      | zero =>
          simp only [List.getElem?_cons_zero, Option.some.injEq] at hj
          subst hj
          simp [dimOps]
      | succ j =>
          simp only [List.getElem?_cons_succ] at hj
          obtain ⟨h1, h2⟩ := ih (m + 2) j hj
          rw [show m + 2 + 2 * j = m + 2 * (j + 1) by omega] at h1 h2
          simp only [dimOps, List.mem_cons]
          exact ⟨Or.inr (Or.inr h1), Or.inr (Or.inr h2)⟩

theorem rank_pos_of_hasLeadingDim (ty : Ty) (h : ty.hasLeadingDim = true) : 1 ≤ ty.rank := by
  cases ty with
  | rankedTensor shape elem =>
      cases shape with
      | nil => simp [Ty.hasLeadingDim] at h
      | cons d ds => simp [Ty.rank]
  | _ => simp [Ty.hasLeadingDim] at h

theorem mem_loweredCreated_of_mem_sliceOps (tileOp : TileOp) (rewriter : PatternRewriter)
    (op : Operation) (h : op ∈ loweredSliceOps tileOp rewriter) :
    op ∈ loweredCreated tileOp rewriter := by
  simp only [loweredCreated, List.mem_append]
  exact Or.inl (Or.inl (Or.inr h))

/-! ## The block after a successful run -/

theorem replacementOps_eq (tileOp : TileOp) (rewriter : PatternRewriter)
    (hpre : tileOp.Precondition) (hwf : tileOp.WellFormed) :
    replacementOps rewriter (matchAndRewrite tileOp rewriter) =
      mapValuesList (translate (resultPairs tileOp rewriter))
        (boundOps tileOp rewriter ++ [(loweredFor tileOp rewriter).toOperation]) := by
  rw [matchAndRewrite_of_wellFormed tileOp rewriter hpre hwf]
  simp only [replacementOps, loweredRewriter, PatternRewriter.replaceOp, replaceAllUsesWith_eq,
    mapValuesList_eq_map, resultPairs, List.append_assoc, List.map_append]
  rw [← List.length_map rewriter.before
    (Operation.mapValues (translate (tileOp.getResults.zip (loweredFor tileOp rewriter).getResults))),
    List.drop_left]

theorem after_eq (tileOp : TileOp) (rewriter : PatternRewriter)
    (hpre : tileOp.Precondition) (hwf : tileOp.WellFormed) :
    (matchAndRewrite tileOp rewriter).rewriter.after =
      mapValuesList (translate (resultPairs tileOp rewriter)) rewriter.after := by
  rw [matchAndRewrite_of_wellFormed tileOp rewriter hpre hwf]
  simp only [loweredRewriter, PatternRewriter.replaceOp, replaceAllUsesWith_eq, resultPairs]

theorem before_eq (tileOp : TileOp) (rewriter : PatternRewriter)
    (hpre : tileOp.Precondition) (hwf : tileOp.WellFormed) :
    (matchAndRewrite tileOp rewriter).rewriter.before =
      mapValuesList (translate (resultPairs tileOp rewriter))
        (rewriter.before ++ boundOps tileOp rewriter ++
          [(loweredFor tileOp rewriter).toOperation]) := by
  rw [matchAndRewrite_of_wellFormed tileOp rewriter hpre hwf]
  simp only [loweredRewriter, PatternRewriter.replaceOp, replaceAllUsesWith_eq, resultPairs]

theorem length_loweredInserts (tileOp : TileOp) (rewriter : PatternRewriter)
    (hwf : tileOp.WellFormed) :
    (loweredInserts tileOp rewriter).length = tileOp.outs.length := by
  simp [loweredInserts, length_insertOps, insertTriples, length_loweredExtracts,
    length_yieldedValues tileOp rewriter hwf, length_iterArgs]

/-! ## Replacement of the results -/

theorem translate_eq_self (pairs : List (Value × Value)) (v : Value)
    (h : ∀ p ∈ pairs, v ≠ p.1) : translate pairs v = v := by
  induction pairs with
  | nil => rfl
  | cons p ps ih =>
      rw [translate_cons]
      have hp := h p (List.mem_cons_self _ _)
      simp only [Function.comp, replaceUse, if_neg hp]
      exact ih (fun q hq => h q (List.mem_cons_of_mem _ hq))

theorem mem_numbered (mk : Nat → Ty → Value) (j : Nat) (tys : List Ty) (v : Value)
    (hv : v ∈ numbered mk j tys) : ∃ i t, j ≤ i ∧ v = mk i t := by
  induction tys generalizing j with
  | nil => simp [numbered] at hv
  | cons t ts ih =>
      simp only [numbered, List.mem_cons] at hv
      rcases hv with rfl | hv
      · exact ⟨j, t, Nat.le_refl _, rfl⟩
      · obtain ⟨i, t', hi, rfl⟩ := ih (j + 1) hv
        exact ⟨i, t', by omega, rfl⟩

theorem owner_of_mem_getResults (tileOp : TileOp) (v : Value)
    (hv : v ∈ tileOp.getResults) : ∃ i t, v = .opResult tileOp.id i t := by
  obtain ⟨i, t, -, rfl⟩ := mem_numbered _ _ _ v hv
  exact ⟨i, t, rfl⟩

theorem translate_resultPairs_of_not_mem (tileOp : TileOp) (rewriter : PatternRewriter)
    (v : Value) (h : v ∉ tileOp.getResults) :
    translate (resultPairs tileOp rewriter) v = v := by
  apply translate_eq_self
  intro p hp heq
  obtain ⟨p1, p2⟩ := p
  exact h (heq ▸ (List.of_mem_zip hp).1)

theorem translate_resultPairs_fresh (tileOp : TileOp) (rewriter : PatternRewriter)
    (hfresh : tileOp.id < rewriter.nextId) (k i : Nat) (ty : Ty) :
    translate (resultPairs tileOp rewriter) (.opResult (rewriter.nextId + k) i ty) =
      .opResult (rewriter.nextId + k) i ty := by
  apply translate_resultPairs_of_not_mem
  intro hmem
  obtain ⟨i', t', h⟩ := owner_of_mem_getResults tileOp _ hmem
  simp only [Value.opResult.injEq] at h
  omega

theorem translate_resultPairs_blockArg (tileOp : TileOp) (rewriter : PatternRewriter)
    (b i : Nat) (ty : Ty) :
    translate (resultPairs tileOp rewriter) (.blockArg b i ty) = .blockArg b i ty := by
  apply translate_resultPairs_of_not_mem
  intro hmem
  obtain ⟨i', t', h⟩ := owner_of_mem_getResults tileOp _ hmem
  simp at h

theorem map_translate_outs (tileOp : TileOp) (rewriter : PatternRewriter)
    (hscope : InScope tileOp rewriter) :
    tileOp.outs.map (translate (resultPairs tileOp rewriter)) = tileOp.outs := by
  have : ∀ v ∈ tileOp.outs, translate (resultPairs tileOp rewriter) v = v := fun v hv =>
    translate_resultPairs_of_not_mem tileOp rewriter v
      (hscope.2.2 v (List.mem_cons_of_mem _ hv))
  calc tileOp.outs.map (translate (resultPairs tileOp rewriter))
      = tileOp.outs.map id := List.map_congr_left this
    _ = tileOp.outs := List.map_id _

/-- The operations that have replaced a construct in scope: the uses of its results
do not occur in the bounds or in the statements that compute `offset` and `size`. -/
theorem replacementOps_inScope (tileOp : TileOp) (rewriter : PatternRewriter)
    (hpre : tileOp.Precondition) (hwf : tileOp.WellFormed) (hscope : InScope tileOp rewriter) :
    ∃ rest, replacementOps rewriter (matchAndRewrite tileOp rewriter) =
      boundOps tileOp rewriter ++
        [.scfFor (rewriter.nextId + 3) (zeroOf rewriter) (totalSizeOf rewriter)
          tileOp.tile_sizes tileOp.outs (rewriter.nextId + 4)
          (geometryOps tileOp rewriter ++ rest)] := by
  obtain ⟨hfresh, hstepfresh, hres⟩ := hscope
  have hstep : translate (resultPairs tileOp rewriter) tileOp.tile_sizes = tileOp.tile_sizes :=
    translate_resultPairs_of_not_mem _ _ _ (hres _ (List.mem_cons_self _ _))
  have hfront : ∀ d, translate (resultPairs tileOp rewriter) (tileOp.outs.headD d) =
      tileOp.outs.headD d := by
    intro d
    cases ho : tileOp.outs with
    | nil =>
        have := hpre.2.1
        have := hpre.1
        rw [ho] at *
        simp at *
        omega
    | cons front rest =>
        exact translate_resultPairs_of_not_mem _ _ _
          (hres _ (List.mem_cons_of_mem _ (by rw [ho]; exact List.mem_cons_self _ _)))
  have hf := fun k i ty => translate_resultPairs_fresh tileOp rewriter hfresh k i ty
  have hf0 := hf 0
  simp only [Nat.add_zero] at hf0
  rw [replacementOps_eq tileOp rewriter hpre hwf]
  refine ⟨mapValuesList (translate (resultPairs tileOp rewriter))
    (loweredSliceOps tileOp rewriter ++ (mergedBody tileOp rewriter).dropLast ++
      loweredInserts tileOp rewriter ++ [loweredYield tileOp rewriter]), ?_⟩
  simp only [mapValuesList_eq_map, List.map_append, List.map_cons, List.map_nil, boundOps,
    ForOp.toOperation, loweredFor, shellOf, loweredBody, geometryOps, Operation.mapValues,
    zeroOf, totalSizeOf, offsetOf, resultOf, ForOp.getInductionVar, hstep, hfront, hf, hf0,
    translate_resultPairs_blockArg, map_translate_outs tileOp rewriter ⟨hfresh, hstepfresh, hres⟩,
    List.append_assoc, List.cons_append, List.nil_append]

/-! ## The run of the generated loop -/

theorem index_bind (rt : Runtime) (v w : Value) (x : Option Int) :
    (rt.bind v x).index w = if w = v then x else rt.index w := rfl

theorem shape_bind (rt : Runtime) (v : Value) (x : Option Int) :
    (rt.bind v x).shape = rt.shape := rfl

theorem ne_opResult_of_owner_lt (v : Value) (n k i : Nat) (ty : Ty) (h : v.owner < n) :
    v ≠ .opResult (n + k) i ty := by
  intro heq
  rw [heq] at h
  simp [Value.owner] at h

theorem ne_blockArg_of_owner_lt (v : Value) (n k i : Nat) (ty : Ty) (h : v.owner < n) :
    v ≠ .blockArg (n + k) i ty := by
  intro heq
  rw [heq] at h
  simp [Value.owner] at h

/-- The geometry one iteration of the generated loop computes, for a runtime in which
the bounds have been evaluated. -/
theorem iterationOf_generated (rt : Runtime) (tileOp : TileOp) (rewriter : PatternRewriter)
    (rest : List Operation) (T S iv : Int)
    (hstep : tileOp.tile_sizes.owner < rewriter.nextId)
    (hT : rt.index (totalSizeOf rewriter) = some T)
    (hS : rt.index tileOp.tile_sizes = some S) :
    iterationOf rt (rewriter.nextId + 4) (geometryOps tileOp rewriter ++ rest) iv =
      ⟨iv, some (iv * S), some (min (T - iv * S) S)⟩ := by
  have h1 := ne_opResult_of_owner_lt tileOp.tile_sizes rewriter.nextId 5 0 .index hstep
  have h2 := ne_opResult_of_owner_lt tileOp.tile_sizes rewriter.nextId 6 0 .index hstep
  have h3 := ne_blockArg_of_owner_lt tileOp.tile_sizes rewriter.nextId 4 0 .index hstep
  simp only [iterationOf, geometryOps, List.cons_append, List.nil_append, List.take_succ_cons,
    List.take_zero, execIndexOps, List.foldl_cons, List.foldl_nil, execIndexOp, geometryOf,
    index_bind, evalAffine, evalMin, shellOf, ForOp.getInductionVar, totalSizeOf, offsetOf,
    resultOf] at *
  simp [h1, h2, h3, hT, hS]

theorem runOps_boundOps {τ : Type} (bodySem : Int → List τ → List τ) (tensor : Value → τ)
    (rt : Runtime) (tileOp : TileOp) (rewriter : PatternRewriter) (id : Nat)
    (lb ub step : Value) (inits : List Value) (bid : Nat) (body : List Operation) :
    runOps bodySem tensor rt
        (boundOps tileOp rewriter ++ [.scfFor id lb ub step inits bid body]) =
      runLoop bodySem tensor (execIndexOps rt (boundOps tileOp rewriter))
        (.scfFor id lb ub step inits bid body) := rfl

/-- The runtime after the three operations ahead of the loop: `zero` is 0, `totalSize`
is the leading extent of the first output operand, and the step keeps its value. -/
theorem runtime_after_boundOps (rt : Runtime) (tileOp : TileOp) (rewriter : PatternRewriter)
    (hstep : tileOp.tile_sizes.owner < rewriter.nextId) (T S : Int) (dims : List Int)
    (hT : tileOp.outs.head?.bind rt.shape = some (T :: dims))
    (hS : rt.index tileOp.tile_sizes = some S) :
    (execIndexOps rt (boundOps tileOp rewriter)).index (zeroOf rewriter) = some 0 ∧
      (execIndexOps rt (boundOps tileOp rewriter)).index (totalSizeOf rewriter) = some T ∧
      (execIndexOps rt (boundOps tileOp rewriter)).index tileOp.tile_sizes = some S := by
  have h0 : tileOp.tile_sizes ≠ .opResult rewriter.nextId 0 .index :=
    ne_opResult_of_owner_lt tileOp.tile_sizes rewriter.nextId 0 0 .index hstep
  have h1 := ne_opResult_of_owner_lt tileOp.tile_sizes rewriter.nextId 1 0 .index hstep
  have h2 := ne_opResult_of_owner_lt tileOp.tile_sizes rewriter.nextId 2 0 .index hstep
  cases ho : tileOp.outs with
  | nil => rw [ho] at hT; simp at hT
  | cons front others =>
      rw [ho] at hT
      simp only [List.head?_cons, Option.some_bind] at hT
      simp only [boundOps, ho, List.headD_cons, execIndexOps, List.foldl_cons, List.foldl_nil,
        execIndexOp, index_bind, shape_bind, evalDim, zeroOf, totalSizeOf, resultOf]
      simp [h0, h1, h2, hT, hS]

/-- The run of the loop generated for a construct in scope whose first output operand
has leading extent `T` and whose step is `S > 0`: the loop of `scf.for` from 0 to `T`
by `S`, each iteration computing the offset `iv * S` and the size
`min (T - iv * S) S`. -/
theorem generatedRun_eq {τ : Type} (bodySem : Int → List τ → List τ) (tensor : Value → τ)
    (rt : Runtime) (tileOp : TileOp) (rewriter : PatternRewriter)
    (hpre : tileOp.Precondition) (hwf : tileOp.WellFormed) (hscope : InScope tileOp rewriter)
    (T S : Int) (dims : List Int)
    (hT : tileOp.outs.head?.bind rt.shape = some (T :: dims))
    (hS : rt.index tileOp.tile_sizes = some S) (hpos : 0 < S) :
    generatedRun bodySem tensor rt tileOp rewriter =
      some ⟨(scfForExec bodySem T S T.toNat 0 (tileOp.outs.map tensor)).1.map
          (fun iv => ⟨iv, some (iv * S), some (min (T - iv * S) S)⟩),
        (scfForExec bodySem T S T.toNat 0 (tileOp.outs.map tensor)).2⟩ := by
  obtain ⟨rest, hops⟩ := replacementOps_inScope tileOp rewriter hpre hwf hscope
  obtain ⟨h0, hT', hS'⟩ := runtime_after_boundOps rt tileOp rewriter hscope.2.1 T S dims hT hS
  unfold generatedRun
  rw [hops, runOps_boundOps]
  simp only [runLoop, h0, hT', hS', hpos, if_true, Int.sub_zero]
  congr 2
  apply List.map_congr_left
  intro iv _
  exact iterationOf_generated _ tileOp rewriter rest T S iv hscope.2.1 hT' hS'

theorem scfForExec_of_le {σ : Type} (body : Int → σ → σ) (ub step : Int) (fuel : Nat)
    (iv : Int) (s : σ) (h : ub ≤ iv) : scfForExec body ub step fuel iv s = ([], s) := by
  cases fuel with
  | zero => rfl
  | succ n => simp [scfForExec, Int.not_lt.mpr h]

theorem scfForExec_succ_fuel {σ : Type} (body : Int → σ → σ) (ub step : Int)
    (hstep : 0 < step) (fuel : Nat) (iv : Int) (s : σ) (h : (ub - iv).toNat ≤ fuel) :
    scfForExec body ub step (fuel + 1) iv s = scfForExec body ub step fuel iv s := by
  induction fuel generalizing iv s with
  | zero =>
      have hle : ub ≤ iv := by omega
      rw [scfForExec_of_le body ub step _ iv s hle, scfForExec_of_le body ub step _ iv s hle]
  | succ n ih =>
      by_cases hlt : iv < ub
      · have hn : (ub - (iv + step)).toNat ≤ n := by omega
        rw [scfForExec, if_pos hlt, ih (iv + step) (body iv s) hn]
        conv_rhs => rw [scfForExec, if_pos hlt]
      · have hle : ub ≤ iv := Int.not_lt.mp hlt
        rw [scfForExec_of_le body ub step _ iv s hle, scfForExec_of_le body ub step _ iv s hle]

/-- For a positive step the fuel `(ub - iv).toNat` is enough: more fuel gives the same
run, which therefore ends because the induction variable has reached the bound. -/
theorem scfForExec_fuel {σ : Type} (body : Int → σ → σ) (ub step : Int) (hstep : 0 < step)
    (iv : Int) (s : σ) (extra : Nat) :
    scfForExec body ub step ((ub - iv).toNat + extra) iv s =
      scfForExec body ub step (ub - iv).toNat iv s := by
  induction extra with
  | zero => rfl
  | succ k ih =>
      rw [← Nat.add_assoc, scfForExec_succ_fuel body ub step hstep _ iv s (by omega), ih]

/-! ## Uses and identities -/

mutual
theorem Operation.uses_mapValues (f : Value → Value) :
    ∀ o : Operation, (o.mapValues f).uses = o.uses.map f
  | .constantIndex _ _ => rfl
  | .dim _ _ _ => rfl
  | .affineApply _ _ _ _ => rfl
  | .affineMin _ _ => rfl
  | .extractSlice _ _ _ _ _ _ _ _ _ => by simp [Operation.mapValues, Operation.uses]
  | .insertSlice _ _ _ _ _ _ _ _ _ _ => by simp [Operation.mapValues, Operation.uses]
  | .scfFor _ _ _ _ _ _ body => by
      simp [Operation.mapValues, Operation.uses, usesIn_mapValuesList f body]
  | .scfYield _ _ => rfl
  | .tile _ _ _ _ _ _ body => by
      simp [Operation.mapValues, Operation.uses, usesIn_mapValuesList f body]
  | .tileYield _ _ => rfl
  | .other _ _ _ _ _ _ body => by
      simp [Operation.mapValues, Operation.uses, usesIn_mapValuesList f body]
theorem usesIn_mapValuesList (f : Value → Value) :
    ∀ ops : List Operation, usesIn (mapValuesList f ops) = (usesIn ops).map f
  | [] => rfl
  | o :: os => by
      simp [mapValuesList, usesIn, Operation.uses_mapValues f o, usesIn_mapValuesList f os]
end

mutual
theorem Operation.identities_mapValues (f : Value → Value) :
    ∀ o : Operation, (o.mapValues f).identities = o.identities
  | .constantIndex _ _ => rfl
  | .dim _ _ _ => rfl
  | .affineApply _ _ _ _ => rfl
  | .affineMin _ _ => rfl
  | .extractSlice _ _ _ _ _ _ _ _ _ => rfl
  | .insertSlice _ _ _ _ _ _ _ _ _ _ => rfl
  | .scfFor _ _ _ _ _ _ body => by
      simp [Operation.mapValues, Operation.identities, identitiesIn_mapValuesList f body]
  | .scfYield _ _ => rfl
  | .tile _ _ _ _ _ _ body => by
      simp [Operation.mapValues, Operation.identities, identitiesIn_mapValuesList f body]
  | .tileYield _ _ => rfl
  | .other _ _ _ _ _ _ body => by
      simp [Operation.mapValues, Operation.identities, identitiesIn_mapValuesList f body]
theorem identitiesIn_mapValuesList (f : Value → Value) :
    ∀ ops : List Operation, identitiesIn (mapValuesList f ops) = identitiesIn ops
  | [] => rfl
  | o :: os => by
      simp [mapValuesList, identitiesIn, Operation.identities_mapValues f o,
        identitiesIn_mapValuesList f os]
end

theorem identitiesIn_append (xs ys : List Operation) :
    identitiesIn (xs ++ ys) = identitiesIn xs ++ identitiesIn ys := by
  induction xs with
  | nil => rfl
  | cons x xs ih => simp [identitiesIn, ih]

theorem usesIn_append (xs ys : List Operation) :
    usesIn (xs ++ ys) = usesIn xs ++ usesIn ys := by
  induction xs with
  | nil => rfl
  | cons x xs ih => simp [usesIn, ih]

theorem le_of_mem_identitiesIn_dimOps (tensor : Value) (n : Nat) (dims : List Nat) (x : Nat)
    (hx : x ∈ identitiesIn (dimOps tensor n dims)) : n ≤ x := by
  induction dims generalizing n with
  | nil => simp [dimOps, identitiesIn] at hx
  | cons i dims ih =>
      simp only [dimOps, identitiesIn, Operation.identities, List.cons_append,
        List.nil_append, List.mem_cons] at hx
      rcases hx with rfl | rfl | hx
      · exact Nat.le_refl _
      · omega
      · have := ih (n + 2) hx
        omega

theorem le_of_mem_identitiesIn_sliceOps (zero one offset size : Value) (n : Nat)
    (tensors : List Value) (x : Nat)
    (hx : x ∈ identitiesIn (sliceOps zero one offset size n tensors)) : n ≤ x := by
  induction tensors generalizing n with
  | nil => simp [sliceOps, identitiesIn] at hx
  | cons t ts ih =>
      simp only [sliceOps, tensorOps, identitiesIn_append, List.mem_append, identitiesIn,
        extractOpAt, Operation.identities, List.append_nil, List.mem_singleton] at hx
      rcases hx with (hx | rfl) | hx
      · exact le_of_mem_identitiesIn_dimOps _ _ _ _ hx
      · omega
      · have := ih _ hx
        omega

theorem le_of_mem_identitiesIn_insertOps (n : Nat) (triples : List (Operation × Value × Value))
    (x : Nat) (hx : x ∈ identitiesIn (insertOps n triples)) : n ≤ x := by
  induction triples generalizing n with
  | nil => simp [insertOps, identitiesIn] at hx
  | cons t ts ih =>
      obtain ⟨e, y, a⟩ := t
      simp only [insertOps, identitiesIn, List.mem_append] at hx
      rcases hx with hx | hx
      · cases e <;> simp [insertOpFor, Operation.identities] at hx <;> omega
      · have := ih _ hx
        omega

theorem mem_identitiesIn_of_dropLast (ops : List Operation) (x : Nat)
    (hx : x ∈ identitiesIn ops.dropLast) : x ∈ identitiesIn ops := by
  cases hops : ops.getLast? with
  | none =>
      rw [List.getLast?_eq_none_iff] at hops
      subst hops
      simpa using hx
  | some l =>
      have := List.dropLast_append_getLast? l (by rw [hops]; rfl)
      rw [← this, identitiesIn_append]
      exact List.mem_append_left _ hx

theorem nodup_numbered (mk : Nat → Ty → Value)
    (hmk : ∀ i j t t', mk i t = mk j t' → i = j) (j : Nat) (tys : List Ty) :
    (numbered mk j tys).Nodup := by
  induction tys generalizing j with
  | nil => simp [numbered]
  | cons t ts ih =>
      simp only [numbered, List.nodup_cons]
      refine ⟨?_, ih (j + 1)⟩
      intro hmem
      obtain ⟨i, t', hi, heq⟩ := mem_numbered mk (j + 1) ts _ hmem
      have := hmk _ _ _ _ heq
      omega

theorem translate_zip_getElem (olds news : List Value) (hnd : olds.Nodup)
    (hdisj : ∀ n ∈ news, n ∉ olds) (k : Nat) (o n : Value)
    (ho : olds[k]? = some o) (hn : news[k]? = some n) :
    translate (olds.zip news) o = n := by
  induction olds generalizing news k with
  | nil => simp at ho
  | cons o0 os ih =>
      cases news with
      | nil => simp at hn
      | cons n0 ns =>
          rw [List.zip_cons_cons, translate_cons]
          simp only [List.nodup_cons] at hnd
          cases k with
          | zero =>
              simp only [List.getElem?_cons_zero, Option.some.injEq] at ho hn
              subst ho hn
              simp only [Function.comp, replaceUse, if_true]
              apply translate_eq_self
              intro p hp heq
              obtain ⟨p1, p2⟩ := p
              have h1 : p1 ∈ os := (List.of_mem_zip hp).1
              exact hdisj n0 (List.mem_cons_self _ _) (heq ▸ List.mem_cons_of_mem _ h1)
          | succ k =>
              simp only [List.getElem?_cons_succ] at ho hn
              have hmem : o ∈ os := List.mem_iff_getElem?.mpr ⟨k, ho⟩
              have hne : o ≠ o0 := fun h => hnd.1 (h ▸ hmem)
              simp only [Function.comp, replaceUse, if_neg hne]
              exact ih ns hnd.2
                (fun n' hn' hmem' =>
                  hdisj n' (List.mem_cons_of_mem _ hn') (List.mem_cons_of_mem _ hmem'))
                k ho hn

theorem length_getResults (tileOp : TileOp) :
    tileOp.getResults.length = tileOp.getNumResults := by
  simp [TileOp.getResults, length_numbered, TileOp.getNumResults]

theorem length_loweredFor_getResults (tileOp : TileOp) (rewriter : PatternRewriter) :
    (loweredFor tileOp rewriter).getResults.length = tileOp.outs.length := by
  simp [ForOp.getResults, length_numbered, loweredFor, shellOf]

theorem loweredFor_getResults_not_mem (tileOp : TileOp) (rewriter : PatternRewriter)
    (hfresh : tileOp.id < rewriter.nextId) :
    ∀ n ∈ (loweredFor tileOp rewriter).getResults, n ∉ tileOp.getResults := by
  intro n hn hmem
  obtain ⟨i, t, -, rfl⟩ := mem_numbered _ _ _ n hn
  obtain ⟨i', t', h⟩ := owner_of_mem_getResults tileOp _ hmem
  simp only [Value.opResult.injEq, loweredFor, shellOf] at h
  omega

/-- The replacement maps the `k`-th result of the construct to the `k`-th result of
the loop. -/
theorem translate_kth_result (tileOp : TileOp) (rewriter : PatternRewriter)
    (hpre : tileOp.Precondition) (hfresh : tileOp.id < rewriter.nextId) (k : Nat) (r : Value)
    (hr : tileOp.getResults[k]? = some r) :
    ∃ r', (loweredFor tileOp rewriter).getResults[k]? = some r' ∧
      translate (resultPairs tileOp rewriter) r = r' := by
  have hk : k < (loweredFor tileOp rewriter).getResults.length := by
    rw [length_loweredFor_getResults, hpre.2.1, ← length_getResults]
    exact (List.getElem?_eq_some.mp hr).1
  refine ⟨_, List.getElem?_eq_getElem hk, ?_⟩
  exact translate_zip_getElem _ _
    (nodup_numbered _ (fun i j t t' h => (by simpa using h : i = j ∧ t = t').1) _ _)
    (loweredFor_getResults_not_mem tileOp rewriter hfresh) k r _ hr
    (List.getElem?_eq_getElem hk)

/-- After the replacement no value is a result of the construct. -/
theorem translate_not_mem_getResults (tileOp : TileOp) (rewriter : PatternRewriter)
    (hpre : tileOp.Precondition) (hfresh : tileOp.id < rewriter.nextId) (v : Value) :
    translate (resultPairs tileOp rewriter) v ∉ tileOp.getResults := by
  by_cases hv : v ∈ tileOp.getResults
  · obtain ⟨k, hk⟩ := List.mem_iff_getElem?.mp hv
    obtain ⟨r', hr', heq⟩ := translate_kth_result tileOp rewriter hpre hfresh k v hk
    rw [heq]
    exact loweredFor_getResults_not_mem tileOp rewriter hfresh r'
      (List.mem_iff_getElem?.mpr ⟨k, hr'⟩)
  · rw [translate_resultPairs_of_not_mem tileOp rewriter v hv]
    exact hv

/-- The identity of a construct in scope is not the identity of any operation of the
loop built for it, given that it is not the identity of an operation of its body. -/
theorem id_not_mem_identities_loweredFor (tileOp : TileOp) (rewriter : PatternRewriter)
    (hfresh : tileOp.id < rewriter.nextId) (hbody : tileOp.id ∉ identitiesIn tileOp.body) :
    tileOp.id ∉ identitiesIn
      (boundOps tileOp rewriter ++ [(loweredFor tileOp rewriter).toOperation]) := by
  intro hmem
  rw [identitiesIn_append] at hmem
  rcases List.mem_append.mp hmem with h | h
  · simp [boundOps, identitiesIn, Operation.identities] at h
    omega
  · have hfor : identitiesIn [(loweredFor tileOp rewriter).toOperation] =
        (rewriter.nextId + 3) :: identitiesIn (loweredBody tileOp rewriter) := by
      simp [identitiesIn, ForOp.toOperation, Operation.identities, loweredFor, shellOf]
    rw [hfor, List.mem_cons] at h
    rcases h with h | h
    · omega
    · rw [loweredBody] at h
      simp only [identitiesIn_append, List.mem_append] at h
      rcases h with (((h | h) | h) | h) | h
      · simp [geometryOps, identitiesIn, Operation.identities] at h
        omega
      · have := le_of_mem_identitiesIn_sliceOps _ _ _ _ _ _ _ h
        omega
      · refine hbody ?_
        have := mem_identitiesIn_of_dropLast _ _ h
        rwa [mergedBody, replaceAllUsesWith_eq, identitiesIn_mapValuesList] at this
      · have := le_of_mem_identitiesIn_insertOps _ _ _ h
        omega
      · simp [loweredYield, identitiesIn, Operation.identities] at h
        omega

/-! ## The log of created operations only grows -/

theorem extractSubtensor_created (zero one offset size : Value) (rewriter : PatternRewriter)
    (forOp : ForOp) (tensor : Value) (r : Value × PatternRewriter × ForOp)
    (h : extractSubtensor zero one offset size rewriter forOp tensor = .ok r) :
    ∃ ops, r.2.1.created = rewriter.created ++ ops := by
  by_cases hl : tensor.getType.hasLeadingDim = true
  · rw [extractSubtensor_eq _ _ _ _ _ _ _ hl] at h
    simp only [Except.ok.injEq] at h
    rw [← h]
    exact ⟨_, rfl⟩
  · unfold extractSubtensor at h
    cases hty : tensor.getType with
    | rankedTensor shape elem =>
        cases shape with
        | nil => simp [hty] at h
        | cons d ds => simp [hty, Ty.hasLeadingDim] at hl
    | index => simp [hty] at h
    | unrankedTensor e => simp [hty] at h
    | scalar e => simp [hty] at h

theorem materializeExtracts_created (zero one offset size : Value) (tensors : List Value)
    (rewriter : PatternRewriter) (forOp : ForOp) (acc : List Value)
    (r : List Value × PatternRewriter × ForOp)
    (h : materializeExtracts zero one offset size tensors rewriter forOp acc = .ok r) :
    ∃ ops, r.2.1.created = rewriter.created ++ ops := by
  induction tensors generalizing rewriter forOp acc with
  | nil =>
      simp only [materializeExtracts, Except.ok.injEq] at h
      rw [← h]
      exact ⟨[], by simp⟩
  | cons t ts ih =>
      simp only [materializeExtracts] at h
      cases he : extractSubtensor zero one offset size rewriter forOp t with
      | error a => simp [he] at h
      | ok r1 =>
          obtain ⟨e, rw1, f1⟩ := r1
          simp only [he] at h
          obtain ⟨ops1, h1⟩ := extractSubtensor_created _ _ _ _ _ _ _ _ he
          obtain ⟨ops2, h2⟩ := ih rw1 f1 _ h
          exact ⟨ops1 ++ ops2, by rw [h2, h1, List.append_assoc]⟩

theorem createMatchingSubsetInsert_created (rewriter : PatternRewriter) (forOp : ForOp)
    (e y a : Value) (r : Value × PatternRewriter × ForOp)
    (h : createMatchingSubsetInsert rewriter forOp e y a = .ok r) :
    ∃ ops, r.2.1.created = rewriter.created ++ ops := by
  unfold createMatchingSubsetInsert at h
  split at h
  · simp only [PatternRewriter.createInBody, Except.ok.injEq] at h
    rw [← h]
    exact ⟨_, rfl⟩
  · simp at h

theorem createInserts_created (triples : List (Value × Value × Value))
    (rewriter : PatternRewriter) (forOp : ForOp) (acc : List Value)
    (r : List Value × PatternRewriter × ForOp)
    (h : createInserts triples rewriter forOp acc = .ok r) :
    ∃ ops, r.2.1.created = rewriter.created ++ ops := by
  induction triples generalizing rewriter forOp acc with
  | nil =>
      simp only [createInserts, Except.ok.injEq] at h
      rw [← h]
      exact ⟨[], by simp⟩
  | cons t ts ih =>
      obtain ⟨e, y, a⟩ := t
      simp only [createInserts] at h
      cases he : createMatchingSubsetInsert rewriter forOp e y a with
      | error w => simp [he] at h
      | ok r1 =>
          obtain ⟨i, rw1, f1⟩ := r1
          simp only [he] at h
          obtain ⟨ops1, h1⟩ := createMatchingSubsetInsert_created _ _ _ _ _ _ he
          obtain ⟨ops2, h2⟩ := ih rw1 f1 _ h
          exact ⟨ops1 ++ ops2, by rw [h2, h1, List.append_assoc]⟩

/-- The second half of the pattern never takes anything out of the log, and it never
returns failure. -/
theorem spliceAndWriteBack_created (tileOp : TileOp) (rewriter : PatternRewriter)
    (forOp : ForOp) (offset size : Value) (extracts : List Value) :
    (∃ ops, (spliceAndWriteBack tileOp rewriter forOp offset size extracts).rewriter.created =
      rewriter.created ++ ops) ∧
    (spliceAndWriteBack tileOp rewriter forOp offset size extracts).completion ≠
      .returned .failure := by
  unfold spliceAndWriteBack
  simp only
  split
  · exact ⟨⟨[], by simp⟩, by simp⟩
  · split
    · split
      · exact ⟨⟨[], by simp⟩, by simp⟩
      · rename_i hins
        obtain ⟨ops, hops⟩ := createInserts_created _ _ _ _ _ hins
        simp only [PatternRewriter.createInBody, PatternRewriter.replaceOp]
        simp only at hops
        exact ⟨⟨_, by rw [hops, List.append_assoc]⟩, by simp⟩
    · exact ⟨⟨[], by simp⟩, by simp⟩

/-- The first half of the pattern in closed form: once the two assertions pass, the
bounds, the loop and the geometry are created, whatever follows. -/
theorem matchAndRewrite_geometry (tileOp : TileOp) (rewriter : PatternRewriter)
    (hpre : tileOp.Precondition) :
    matchAndRewrite tileOp rewriter =
      match materializeExtracts (zeroOf rewriter) (oneOf rewriter) (offsetOf rewriter)
          (sizeOf rewriter) (shellOf tileOp rewriter).getRegionIterArgs
          (geometryRewriter tileOp rewriter) (geometryFor tileOp rewriter) [] with
      | .error a => ⟨.aborted a, geometryRewriter tileOp rewriter⟩
      | .ok (implicitSubtensorExtracts, rewriter1, forOp) =>
          spliceAndWriteBack tileOp rewriter1 forOp (offsetOf rewriter) (sizeOf rewriter)
            implicitSubtensorExtracts := by
  obtain ⟨hres, hlen, hstep⟩ := hpre
  cases ho : tileOp.outs with
  | nil => rw [ho] at hlen; simp at hlen; omega
  | cons front rest =>
    have hfront : ∀ d, tileOp.outs.headD d = front := fun d => by rw [ho]; rfl
    unfold matchAndRewrite
    simp only [hres, hlen, hstep, and_self, not_true_eq_false, if_false, ho,
      PatternRewriter.create, PatternRewriter.createFor, PatternRewriter.createInBody]
    rw [← ho]
    simp only [geometryRewriter, geometryFor, geometryOps, shellOf, boundOps, hfront, zeroOf,
      oneOf, totalSizeOf, offsetOf, sizeOf, ForOp.getRegionIterArgs, ForOp.getInductionVar,
      ForOp.toOperation, Nat.add_assoc, List.append_assoc, List.cons_append, List.nil_append,
      Nat.reduceAdd, hlen, not_true_eq_false, if_false, and_self, true_and]

/-- Once the two assertions pass, the creation log starts with the bounds, the loop
shell and the geometry, however the run ends. -/
theorem created_of_precondition (tileOp : TileOp) (rewriter : PatternRewriter)
    (hpre : tileOp.Precondition) :
    ∃ rest, (matchAndRewrite tileOp rewriter).rewriter.created =
      rewriter.created ++ (boundOps tileOp rewriter ++ [(shellOf tileOp rewriter).toOperation] ++
        geometryOps tileOp rewriter ++ rest) := by
  rw [matchAndRewrite_geometry tileOp rewriter hpre]
  cases hm : materializeExtracts (zeroOf rewriter) (oneOf rewriter) (offsetOf rewriter)
      (sizeOf rewriter) (shellOf tileOp rewriter).getRegionIterArgs
      (geometryRewriter tileOp rewriter) (geometryFor tileOp rewriter) [] with
  | error a => exact ⟨[], by simp [geometryRewriter]⟩
  | ok r =>
      obtain ⟨ex, R, F⟩ := r
      obtain ⟨ops1, h1⟩ := materializeExtracts_created _ _ _ _ _ _ _ _ _ hm
      obtain ⟨ops2, h2⟩ :=
        (spliceAndWriteBack_created tileOp R F (offsetOf rewriter) (sizeOf rewriter) ex).1
      simp only at h1
      exact ⟨ops1 ++ ops2, by simp only [h2, h1, geometryRewriter, List.append_assoc]⟩

/-- No run of the pattern returns failure. -/
theorem completion_ne_failure (tileOp : TileOp) (rewriter : PatternRewriter) :
    (matchAndRewrite tileOp rewriter).completion ≠ .returned .failure := by
  unfold matchAndRewrite
  split
  · simp
  · split
    · simp
    · simp only
      split
      · simp
      · split
        · simp
        · exact (spliceAndWriteBack_created _ _ _ _ _ _).2

/-! ## Types of the loop-carried state -/

theorem getElem?_iterArgs (tileOp : TileOp) (rewriter : PatternRewriter) (k : Nat) :
    (shellOf tileOp rewriter).getRegionIterArgs[k]? =
      tileOp.outs[k]?.map (fun out => Value.blockArg (rewriter.nextId + 4) (1 + k) out.getType) := by
  simp [ForOp.getRegionIterArgs, shellOf, getElem?_numbered, List.getElem?_map, Option.map_map,
    Function.comp_def]

theorem map_getType_numbered (mk : Nat → Ty → Value) (hmk : ∀ k t, (mk k t).getType = t)
    (j : Nat) (tys : List Ty) : (numbered mk j tys).map Value.getType = tys := by
  induction tys generalizing j with
  | nil => rfl
  | cons t ts ih => simp [numbered, hmk, ih]

theorem map_getType_getResults (forOp : ForOp) :
    forOp.getResults.map Value.getType = forOp.initArgs.map Value.getType :=
  map_getType_numbered (fun k t => Value.opResult forOp.id k t) (fun _ _ => rfl) _ _

theorem map_getType_iterArgs (forOp : ForOp) :
    forOp.getRegionIterArgs.map Value.getType = forOp.initArgs.map Value.getType :=
  map_getType_numbered (fun k t => Value.blockArg forOp.blockId k t) (fun _ _ => rfl) _ _

/-- The result type of the `k`-th insertion is the type of the `k`-th output
operand. -/
theorem kth_insert_type (tileOp : TileOp) (rewriter : PatternRewriter)
    (hwf : tileOp.WellFormed) (k : Nat) (hk : k < tileOp.outs.length) :
    ∃ i a out, (loweredInserts tileOp rewriter)[k]? = some i ∧
      (shellOf tileOp rewriter).getRegionIterArgs[k]? = some a ∧
      tileOp.outs[k]? = some out ∧
      i.isInsertSlice = true ∧ i.sliceDest? = some a ∧
      i.sliceResult.getType = a.getType ∧ a.getType = out.getType := by
  obtain ⟨m, y, a, ha, -, -, -, hi⟩ := kth_extract_insert tileOp rewriter hwf k hk
  have ho := List.getElem?_eq_getElem hk
  refine ⟨_, a, _, hi, ha, ho, rfl, rfl, rfl, ?_⟩
  rw [getElem?_iterArgs, ho] at ha
  simp only [Option.map_some', Option.some.injEq] at ha
  rw [← ha]
  rfl

theorem map_getType_loweredInserts (tileOp : TileOp) (rewriter : PatternRewriter)
    (hwf : tileOp.WellFormed) :
    ((loweredInserts tileOp rewriter).map Operation.sliceResult).map Value.getType =
      tileOp.outs.map Value.getType := by
  apply List.ext_getElem?
  intro k
  by_cases hk : k < tileOp.outs.length
  · obtain ⟨i, a, out, hi, -, ho, -, -, h1, h2⟩ := kth_insert_type tileOp rewriter hwf k hk
    simp [List.getElem?_map, hi, ho, h1, h2]
  · have hlen := length_loweredInserts tileOp rewriter hwf
    rw [List.getElem?_eq_none (by simp; omega), List.getElem?_eq_none (by simp; omega)]

/-! ## Filters over the created operations -/

theorem filter_dimOps_nil (p : Operation → Bool)
    (hc : ∀ id v, p (.constantIndex id v) = false) (hd : ∀ id s i, p (.dim id s i) = false)
    (tensor : Value) (n : Nat) (dims : List Nat) :
    (dimOps tensor n dims).filter p = [] := by
  induction dims generalizing n with
  | nil => rfl
  | cons i dims ih => simp [dimOps, hc, hd, ih]

theorem filter_sliceOps_nil (p : Operation → Bool)
    (hc : ∀ id v, p (.constantIndex id v) = false) (hd : ∀ id s i, p (.dim id s i) = false)
    (he : ∀ id ty s os ss ts so sz st, p (.extractSlice id ty s os ss ts so sz st) = false)
    (zero one offset size : Value) (n : Nat) (tensors : List Value) :
    (sliceOps zero one offset size n tensors).filter p = [] := by
  induction tensors generalizing n with
  | nil => rfl
  | cons t ts ih =>
      simp [sliceOps, tensorOps, filter_dimOps_nil p hc hd, ih, extractOpAt, he]

theorem filter_insertOps_nil (p : Operation → Bool)
    (hi : ∀ id ty s d os ss ts so sz st, p (.insertSlice id ty s d os ss ts so sz st) = false)
    (n : Nat) (triples : List (Operation × Value × Value)) :
    (insertOps n triples).filter p = [] := by
  induction triples generalizing n with
  | nil => rfl
  | cons t ts ih =>
      obtain ⟨e, y, a⟩ := t
      cases e <;> simp [insertOps, insertOpFor, hi, ih]

theorem filter_mul_loweredCreated (tileOp : TileOp) (rewriter : PatternRewriter) :
    (loweredCreated tileOp rewriter).filter Operation.isAffineMul =
      [.affineApply (rewriter.nextId + 5) .mul (shellOf tileOp rewriter).getInductionVar
        tileOp.tile_sizes] := by
  have hs := filter_sliceOps_nil Operation.isAffineMul (fun _ _ => rfl) (fun _ _ _ => rfl)
    (fun _ _ _ _ _ _ _ _ _ => rfl)
  have hi := filter_insertOps_nil Operation.isAffineMul (fun _ _ _ _ _ _ _ _ _ _ => rfl)
  simp [loweredCreated, boundOps, geometryOps, loweredSliceOps, loweredInserts, loweredYield,
    ForOp.toOperation, Operation.isAffineMul, hs, hi]

theorem filter_min_loweredCreated (tileOp : TileOp) (rewriter : PatternRewriter) :
    (loweredCreated tileOp rewriter).filter Operation.isAffineMin =
      [.affineMin (rewriter.nextId + 7)
        [resultOf (rewriter.nextId + 6) .index, tileOp.tile_sizes]] := by
  have hs := filter_sliceOps_nil Operation.isAffineMin (fun _ _ => rfl) (fun _ _ _ => rfl)
    (fun _ _ _ _ _ _ _ _ _ => rfl)
  have hi := filter_insertOps_nil Operation.isAffineMin (fun _ _ _ _ _ _ _ _ _ _ => rfl)
  simp [loweredCreated, boundOps, geometryOps, loweredSliceOps, loweredInserts, loweredYield,
    ForOp.toOperation, Operation.isAffineMin, hs, hi]

/-! ## The splice of the body -/

/-- The first half of the pattern hands the second half the loop with the geometry
and the extractions in its body, and the results of the extractions. -/
theorem matchAndRewrite_splice (tileOp : TileOp) (rewriter : PatternRewriter)
    (hpre : tileOp.Precondition)
    (houts : ∀ v ∈ tileOp.outs, v.getType.hasLeadingDim = true) :
    matchAndRewrite tileOp rewriter =
      spliceAndWriteBack tileOp (sliceRewriter tileOp rewriter) (sliceFor tileOp rewriter)
        (offsetOf rewriter) (sizeOf rewriter)
        ((loweredExtracts tileOp rewriter).map Operation.sliceResult) := by
  rw [matchAndRewrite_geometry tileOp rewriter hpre,
    materializeExtracts_eq _ _ _ _ _ (iterArgs_hasLeadingDim tileOp rewriter houts)]
  simp only [List.nil_append]
  rfl

theorem translate_mergePairs_of_not_mem (tileOp : TileOp) (rewriter : PatternRewriter)
    (v : Value) (h : v ∉ tileOp.getArguments) :
    translate (mergePairs tileOp rewriter) v = v := by
  apply translate_eq_self
  intro p hp heq
  obtain ⟨p1, p2⟩ := p
  exact h (heq ▸ (List.of_mem_zip hp).1)

theorem bbArgsTranslated_not_mem (tileOp : TileOp) (rewriter : PatternRewriter) :
    ∀ n ∈ bbArgsTranslatedOf tileOp rewriter, n ∉ tileOp.getArguments := by
  intro n hn hmem
  obtain ⟨i, t, -, rfl⟩ := mem_numbered _ _ _ n hmem
  simp only [bbArgsTranslatedOf, List.cons_append, List.nil_append, List.mem_cons,
    List.mem_map] at hn
  rcases hn with h | h | ⟨e, -, h⟩
  · simp [offsetOf, resultOf] at h
  · simp [sizeOf, resultOf] at h
  · cases e <;> simp [Operation.sliceResult, resultOf] at h

/-- The merge maps the `j`-th block argument of the construct to the `j`-th entry
of `bbArgsTranslated`. -/
theorem translate_mergePairs_arg (tileOp : TileOp) (rewriter : PatternRewriter)
    (j : Nat) (arg new : Value) (harg : tileOp.getArguments[j]? = some arg)
    (hnew : (bbArgsTranslatedOf tileOp rewriter)[j]? = some new) :
    translate (mergePairs tileOp rewriter) arg = new :=
  translate_zip_getElem _ _
    (nodup_numbered _ (fun i j t t' h => (by simpa using h : i = j ∧ t = t').1) _ _)
    (bbArgsTranslated_not_mem tileOp rewriter) j arg new harg hnew

theorem length_bbArgsTranslated (tileOp : TileOp) (rewriter : PatternRewriter) :
    (bbArgsTranslatedOf tileOp rewriter).length = 2 + tileOp.outs.length := by
  simp [bbArgsTranslatedOf, length_loweredExtracts]
  omega

theorem map_dimVals_fixed (f : Value → Value) (n : Nat)
    (hres : ∀ k, n ≤ k → f (resultOf k .index) = resultOf k .index) (dims : List Nat) :
    (dimVals n dims).map f = dimVals n dims := by
  induction dims generalizing n with
  | nil => rfl
  | cons i dims ih =>
      simp only [dimVals, List.map_cons, hres (n + 1) (by omega)]
      rw [ih (n + 2) (fun k hk => hres k (by omega))]

theorem map_dimOps_fixed (f : Value → Value) (tensor : Value) (hf : f tensor = tensor) (n : Nat)
    (hres : ∀ k, n ≤ k → f (resultOf k .index) = resultOf k .index) (dims : List Nat) :
    mapValuesList f (dimOps tensor n dims) = dimOps tensor n dims := by
  induction dims generalizing n with
  | nil => rfl
  | cons i dims ih =>
      simp only [dimOps, mapValuesList, Operation.mapValues, hf, hres n (Nat.le_refl _)]
      rw [ih (n + 2) (fun k hk => hres k (by omega))]

theorem mapValuesList_append (f : Value → Value) (xs ys : List Operation) :
    mapValuesList f (xs ++ ys) = mapValuesList f xs ++ mapValuesList f ys := by
  simp [mapValuesList_eq_map]

theorem map_sliceOps_fixed (f : Value → Value) (zero one offset size : Value)
    (hz : f zero = zero) (ho : f one = one) (hoff : f offset = offset) (hsz : f size = size)
    (n : Nat) (hres : ∀ k, n ≤ k → f (resultOf k .index) = resultOf k .index)
    (tensors : List Value) (ht : ∀ t ∈ tensors, f t = t) :
    mapValuesList f (sliceOps zero one offset size n tensors) =
      sliceOps zero one offset size n tensors := by
  induction tensors generalizing n with
  | nil => rfl
  | cons t ts ih =>
      have hft := ht t (List.mem_cons_self _ _)
      simp only [sliceOps, tensorOps, mapValuesList_append, map_dimOps_fixed f t hft n hres]
      rw [ih _ (fun k hk => hres k (by omega)) (fun t' ht' => ht t' (List.mem_cons_of_mem _ ht'))]
      simp [mapValuesList, Operation.mapValues, extractOpAt, hft, hoff, hsz, hz, ho,
        map_dimVals_fixed f n hres]

theorem mapValuesList_loweredSliceOps (tileOp : TileOp) (rewriter : PatternRewriter)
    (hfresh : tileOp.id < rewriter.nextId) :
    mapValuesList (translate (resultPairs tileOp rewriter)) (loweredSliceOps tileOp rewriter) =
      loweredSliceOps tileOp rewriter := by
  have hf := fun k i ty => translate_resultPairs_fresh tileOp rewriter hfresh k i ty
  have hf0 := hf 0
  simp only [Nat.add_zero] at hf0
  apply map_sliceOps_fixed
  · exact hf0 _ _
  · exact hf _ _ _
  · exact hf _ _ _
  · exact hf _ _ _
  · intro k hk
    obtain ⟨d, rfl⟩ : ∃ d, k = rewriter.nextId + d := ⟨k - rewriter.nextId, by omega⟩
    exact hf _ _ _
  · intro t ht
    obtain ⟨i, ty, -, rfl⟩ := mem_numbered _ _ _ t ht
    exact translate_resultPairs_blockArg _ _ _ _ _

theorem mapValuesList_geometryOps (tileOp : TileOp) (rewriter : PatternRewriter)
    (hscope : InScope tileOp rewriter) :
    mapValuesList (translate (resultPairs tileOp rewriter)) (geometryOps tileOp rewriter) =
      geometryOps tileOp rewriter := by
  obtain ⟨hfresh, -, hres⟩ := hscope
  have hstep : translate (resultPairs tileOp rewriter) tileOp.tile_sizes = tileOp.tile_sizes :=
    translate_resultPairs_of_not_mem _ _ _ (hres _ (List.mem_cons_self _ _))
  have hf := fun k i ty => translate_resultPairs_fresh tileOp rewriter hfresh k i ty
  simp only [geometryOps, mapValuesList, Operation.mapValues, ForOp.getInductionVar, shellOf,
    totalSizeOf, offsetOf, resultOf, hstep, hf, translate_resultPairs_blockArg, List.map_cons,
    List.map_nil]

theorem mapValuesList_boundOps (tileOp : TileOp) (rewriter : PatternRewriter)
    (hpre : tileOp.Precondition) (hscope : InScope tileOp rewriter) :
    mapValuesList (translate (resultPairs tileOp rewriter)) (boundOps tileOp rewriter) =
      boundOps tileOp rewriter := by
  obtain ⟨hfresh, -, hres⟩ := hscope
  have hf := fun k i ty => translate_resultPairs_fresh tileOp rewriter hfresh k i ty
  have hf0 := hf 0
  simp only [Nat.add_zero] at hf0
  have hfront : ∀ d, translate (resultPairs tileOp rewriter) (tileOp.outs.headD d) =
      tileOp.outs.headD d := by
    intro d
    cases ho : tileOp.outs with
    | nil =>
        have h1 := hpre.2.1
        have h2 := hpre.1
        rw [ho] at h1
        simp at h1
        omega
    | cons front rest =>
        exact translate_resultPairs_of_not_mem _ _ _
          (hres _ (List.mem_cons_of_mem _ (by rw [ho]; exact List.mem_cons_self _ _)))
  simp only [boundOps, mapValuesList, Operation.mapValues, zeroOf, resultOf, hf0, hfront]

theorem dropLast_mapValuesList (f : Value → Value) (ops : List Operation) :
    (mapValuesList f ops).dropLast = mapValuesList f ops.dropLast := by
  simp [mapValuesList_eq_map]

/-- The block after the rewrite of a construct in scope: the bounds and the loop,
whose body is the geometry, the dimension queries and extractions, the statements of
the construct ahead of its yield with their operands replaced, and the insertions
and the terminator. -/
theorem replacementOps_spliced (tileOp : TileOp) (rewriter : PatternRewriter)
    (hpre : tileOp.Precondition) (hwf : tileOp.WellFormed) (hscope : InScope tileOp rewriter) :
    replacementOps rewriter (matchAndRewrite tileOp rewriter) =
      boundOps tileOp rewriter ++
        [.scfFor (rewriter.nextId + 3) (zeroOf rewriter) (totalSizeOf rewriter)
          tileOp.tile_sizes tileOp.outs (rewriter.nextId + 4)
          (geometryOps tileOp rewriter ++ loweredSliceOps tileOp rewriter ++
            mapValuesList
              (translate (resultPairs tileOp rewriter) ∘ translate (mergePairs tileOp rewriter))
              tileOp.body.dropLast ++
            mapValuesList (translate (resultPairs tileOp rewriter))
              (loweredInserts tileOp rewriter ++ [loweredYield tileOp rewriter]))] := by
  have hfresh := hscope.1
  have hstep : translate (resultPairs tileOp rewriter) tileOp.tile_sizes = tileOp.tile_sizes :=
    translate_resultPairs_of_not_mem _ _ _ (hscope.2.2 _ (List.mem_cons_self _ _))
  have hf := fun k i ty => translate_resultPairs_fresh tileOp rewriter hfresh k i ty
  have hf0 := hf 0
  simp only [Nat.add_zero] at hf0
  have hbody : mapValuesList (translate (resultPairs tileOp rewriter))
      (loweredBody tileOp rewriter) =
      geometryOps tileOp rewriter ++ loweredSliceOps tileOp rewriter ++
        mapValuesList
          (translate (resultPairs tileOp rewriter) ∘ translate (mergePairs tileOp rewriter))
          tileOp.body.dropLast ++
        mapValuesList (translate (resultPairs tileOp rewriter))
          (loweredInserts tileOp rewriter ++ [loweredYield tileOp rewriter]) := by
    rw [loweredBody, List.append_assoc, mapValuesList_append, mapValuesList_append,
      mapValuesList_append, mapValuesList_geometryOps tileOp rewriter hscope,
      mapValuesList_loweredSliceOps tileOp rewriter hfresh, mergedBody, replaceAllUsesWith_eq,
      dropLast_mapValuesList, mapValuesList_comp]
  rw [replacementOps_eq tileOp rewriter hpre hwf, mapValuesList_append,
    mapValuesList_boundOps tileOp rewriter hpre hscope]
  have hfor : mapValuesList (translate (resultPairs tileOp rewriter))
      [(loweredFor tileOp rewriter).toOperation] =
      [.scfFor (rewriter.nextId + 3) (translate (resultPairs tileOp rewriter) (zeroOf rewriter))
        (translate (resultPairs tileOp rewriter) (totalSizeOf rewriter))
        (translate (resultPairs tileOp rewriter) tileOp.tile_sizes)
        (tileOp.outs.map (translate (resultPairs tileOp rewriter))) (rewriter.nextId + 4)
        (mapValuesList (translate (resultPairs tileOp rewriter))
          (loweredBody tileOp rewriter))] := rfl
  rw [hfor, hbody, hstep, map_translate_outs tileOp rewriter hscope]
  simp only [zeroOf, totalSizeOf, resultOf, hf, hf0]

/-! ## Terminators in the loop body -/

theorem Operation.isTileYield_mapValues (f : Value → Value) (op : Operation) :
    (op.mapValues f).isTileYield = op.isTileYield := by
  cases op <;> rfl

theorem Operation.isScfYield_mapValues (f : Value → Value) (op : Operation) :
    (op.mapValues f).isScfYield = op.isScfYield := by
  cases op <;> rfl

theorem Operation.isInsertSlice_mapValues (f : Value → Value) (op : Operation) :
    (op.mapValues f).isInsertSlice = op.isInsertSlice := by
  cases op <;> rfl

theorem filter_mapValuesList_nil (p : Operation → Bool)
    (hp : ∀ (f : Value → Value) (op : Operation), p (op.mapValues f) = p op)
    (f : Value → Value) (ops : List Operation) (h : ops.filter p = []) :
    (mapValuesList f ops).filter p = [] := by
  rw [List.filter_eq_nil_iff] at h ⊢
  intro op hop
  rw [mapValuesList_eq_map, List.mem_map] at hop
  obtain ⟨o, ho, rfl⟩ := hop
  rw [hp]
  exact h o ho

theorem filter_loweredSliceOps_nil (p : Operation → Bool)
    (hc : ∀ id v, p (.constantIndex id v) = false) (hd : ∀ id s i, p (.dim id s i) = false)
    (he : ∀ id ty s os ss ts so sz st, p (.extractSlice id ty s os ss ts so sz st) = false)
    (tileOp : TileOp) (rewriter : PatternRewriter) :
    (loweredSliceOps tileOp rewriter).filter p = [] :=
  filter_sliceOps_nil p hc hd he _ _ _ _ _ _

theorem filter_loweredInserts_nil (p : Operation → Bool)
    (hi : ∀ id ty s d os ss ts so sz st, p (.insertSlice id ty s d os ss ts so sz st) = false)
    (tileOp : TileOp) (rewriter : PatternRewriter) :
    (loweredInserts tileOp rewriter).filter p = [] :=
  filter_insertOps_nil p hi _ _

theorem sliceResult_mapValues_of_insert (f : Value → Value) (op : Operation)
    (h : op.isInsertSlice = true) : (op.mapValues f).sliceResult = op.sliceResult := by
  cases op <;> simp [Operation.isInsertSlice] at h
  rfl

theorem isInsertSlice_of_mem_insertOps (n : Nat) (triples : List (Operation × Value × Value))
    (op : Operation) (h : op ∈ insertOps n triples) : op.isInsertSlice = true := by
  rw [← filter_insert_insertOps] at h
  exact (List.mem_filter.mp h).2

theorem sliceResult_of_mem_insertOps (n : Nat) (triples : List (Operation × Value × Value))
    (op : Operation) (h : op ∈ insertOps n triples) :
    ∃ m ty, n ≤ m ∧ op.sliceResult = resultOf m ty := by
  induction triples generalizing n with
  | nil => simp [insertOps] at h
  | cons t ts ih =>
      obtain ⟨e, y, a⟩ := t
      simp only [insertOps, List.mem_cons] at h
      rcases h with rfl | h
      · cases e <;> exact ⟨n, _, Nat.le_refl _, rfl⟩
      · obtain ⟨m, ty, hm, heq⟩ := ih (n + 1) h
        exact ⟨m, ty, by omega, heq⟩

/-- The replacement of the results leaves the results of the insertions alone. -/
theorem map_translate_insertResults (tileOp : TileOp) (rewriter : PatternRewriter)
    (hfresh : tileOp.id < rewriter.nextId) :
    ((loweredInserts tileOp rewriter).map Operation.sliceResult).map
        (translate (resultPairs tileOp rewriter)) =
      (mapValuesList (translate (resultPairs tileOp rewriter))
        (loweredInserts tileOp rewriter)).map Operation.sliceResult := by
  rw [mapValuesList_eq_map, List.map_map, List.map_map]
  apply List.map_congr_left
  intro op hop
  obtain ⟨m, ty, hm, heq⟩ := sliceResult_of_mem_insertOps _ _ op hop
  have hins := isInsertSlice_of_mem_insertOps _ _ op hop
  simp only [Function.comp, sliceResult_mapValues_of_insert _ op hins, heq]
  obtain ⟨d, rfl⟩ : ∃ d, m = rewriter.nextId + d := ⟨m - rewriter.nextId, by omega⟩
  exact translate_resultPairs_fresh tileOp rewriter hfresh _ _ _

theorem map_id_mapValuesList (f : Value → Value) (ops : List Operation) :
    (mapValuesList f ops).map Operation.id = ops.map Operation.id := by
  rw [mapValuesList_eq_map, List.map_map]
  apply List.map_congr_left
  intro op _
  exact Operation.id_mapValues f op

/-! ## The tile operations of a block -/

theorem tileOpsIn_append (xs ys : List Operation) :
    tileOpsIn (xs ++ ys) = tileOpsIn xs ++ tileOpsIn ys := by
  induction xs with
  | nil => rfl
  | cons x xs ih => simp [tileOpsIn, ih]

mutual
theorem Operation.tileOps_mapValues (f : Value → Value) :
    ∀ o : Operation, (o.mapValues f).tileOps = o.tileOps.map (TileOp.mapValues f)
  | .constantIndex _ _ => rfl
  | .dim _ _ _ => rfl
  | .affineApply _ _ _ _ => rfl
  | .affineMin _ _ => rfl
  | .extractSlice _ _ _ _ _ _ _ _ _ => rfl
  | .insertSlice _ _ _ _ _ _ _ _ _ _ => rfl
  | .scfFor _ _ _ _ _ _ body => by
      simp [Operation.mapValues, Operation.tileOps, tileOpsIn_mapValuesList f body]
  | .scfYield _ _ => rfl
  | .tile _ _ _ _ _ _ body => by
      simp [Operation.mapValues, Operation.tileOps, tileOpsIn_mapValuesList f body,
        TileOp.mapValues]
  | .tileYield _ _ => rfl
  | .other _ _ _ _ _ _ body => by
      simp [Operation.mapValues, Operation.tileOps, tileOpsIn_mapValuesList f body]
theorem tileOpsIn_mapValuesList (f : Value → Value) :
    ∀ ops : List Operation,
      tileOpsIn (mapValuesList f ops) = (tileOpsIn ops).map (TileOp.mapValues f)
  | [] => rfl
  | o :: os => by
      simp [mapValuesList, tileOpsIn, Operation.tileOps_mapValues f o,
        tileOpsIn_mapValuesList f os]
end

theorem tileOpsIn_eq_nil (ops : List Operation) (h : ∀ op ∈ ops, op.tileOps = []) :
    tileOpsIn ops = [] := by
  induction ops with
  | nil => rfl
  | cons o os ih =>
      simp [tileOpsIn, h o (List.mem_cons_self _ _),
        ih (fun op hop => h op (List.mem_cons_of_mem _ hop))]

theorem tileOpsIn_sliceOps (zero one offset size : Value) (n : Nat) (tensors : List Value) :
    tileOpsIn (sliceOps zero one offset size n tensors) = [] := by
  apply tileOpsIn_eq_nil
  have h := filter_sliceOps_nil (fun op => !op.tileOps.isEmpty) (fun _ _ => rfl)
    (fun _ _ _ => rfl) (fun _ _ _ _ _ _ _ _ _ => rfl) zero one offset size n tensors
  rw [List.filter_eq_nil_iff] at h
  intro op hop
  simpa using h op hop

theorem tileOpsIn_insertOps (n : Nat) (triples : List (Operation × Value × Value)) :
    tileOpsIn (insertOps n triples) = [] := by
  apply tileOpsIn_eq_nil
  have h := filter_insertOps_nil (fun op => !op.tileOps.isEmpty)
    (fun _ _ _ _ _ _ _ _ _ _ => rfl) n triples
  rw [List.filter_eq_nil_iff] at h
  intro op hop
  simpa using h op hop

theorem tileOpsIn_dropLast (ops : List Operation) (id : Nat) (operands : List Value)
    (h : ops.getLast? = some (.tileYield id operands)) :
    tileOpsIn ops.dropLast = tileOpsIn ops := by
  have := List.dropLast_append_getLast? _ (by rw [h]; rfl : Operation.tileYield id operands ∈ ops.getLast?)
  conv_rhs => rw [← this]
  rw [tileOpsIn_append]
  simp [tileOpsIn, Operation.tileOps]

theorem tileOpsIn_toOperation (tileOp : TileOp) :
    tileOpsIn [tileOp.toOperation] = tileOp :: tileOpsIn tileOp.body := by
  simp [tileOpsIn, TileOp.toOperation, Operation.tileOps]

theorem tileOpsIn_loweredBody (tileOp : TileOp) (rewriter : PatternRewriter)
    (hy : tileOp.endsInYield = true) :
    tileOpsIn (loweredBody tileOp rewriter) =
      (tileOpsIn tileOp.body).map
        (TileOp.mapValues (translate (mergePairs tileOp rewriter))) := by
  obtain ⟨yid, hlast⟩ := getLast?_replaceAllUsesWith tileOp (mergePairs tileOp rewriter) hy
  have hG : tileOpsIn (geometryOps tileOp rewriter) = [] := by
    simp [geometryOps, tileOpsIn, Operation.tileOps]
  have hY : tileOpsIn [loweredYield tileOp rewriter] = [] := by
    simp [loweredYield, tileOpsIn, Operation.tileOps]
  rw [loweredBody, tileOpsIn_append, tileOpsIn_append, tileOpsIn_append, tileOpsIn_append, hG, hY,
    loweredSliceOps, tileOpsIn_sliceOps, loweredInserts, tileOpsIn_insertOps, mergedBody,
    tileOpsIn_dropLast _ _ _ hlast, replaceAllUsesWith_eq, tileOpsIn_mapValuesList]
  simp

/-- The tile operations of the block after a successful run: those ahead of the
construct, those of its body and those behind it, with their operands replaced. -/
theorem tileOpsIn_rewritten (tileOp : TileOp) (rewriter : PatternRewriter)
    (hpre : tileOp.Precondition)
    (houts : ∀ v ∈ tileOp.outs, v.getType.hasLeadingDim = true)
    (hargs : tileOp.argTypes.length = 2 + tileOp.outs.length)
    (hy : tileOp.endsInYield = true) :
    tileOpsIn ((matchAndRewrite tileOp rewriter).rewriter.before ++
        (matchAndRewrite tileOp rewriter).rewriter.after) =
      (tileOpsIn rewriter.before ++
        (tileOpsIn tileOp.body).map (TileOp.mapValues (translate (mergePairs tileOp rewriter))) ++
        tileOpsIn rewriter.after).map
          (TileOp.mapValues (translate (resultPairs tileOp rewriter))) := by
  have hB : tileOpsIn (boundOps tileOp rewriter) = [] := by
    simp [boundOps, tileOpsIn, Operation.tileOps]
  have hF : tileOpsIn [(loweredFor tileOp rewriter).toOperation] =
      tileOpsIn (loweredBody tileOp rewriter) := by
    simp [tileOpsIn, ForOp.toOperation, Operation.tileOps, loweredFor]
  rw [matchAndRewrite_eq tileOp rewriter hpre houts hargs hy]
  simp only [loweredRewriter, PatternRewriter.replaceOp, replaceAllUsesWith_eq]
  rw [tileOpsIn_append, tileOpsIn_mapValuesList, tileOpsIn_mapValuesList, tileOpsIn_append,
    tileOpsIn_append, hB, hF, tileOpsIn_loweredBody tileOp rewriter hy]
  simp [resultPairs]

/-! ## What a successful run tells about the construct -/

theorem extractSubtensor_ok_hasLeadingDim (zero one offset size : Value)
    (rewriter : PatternRewriter) (forOp : ForOp) (tensor : Value)
    (r : Value × PatternRewriter × ForOp)
    (h : extractSubtensor zero one offset size rewriter forOp tensor = .ok r) :
    tensor.getType.hasLeadingDim = true := by
  by_contra hl
  unfold extractSubtensor at h
  cases hty : tensor.getType with
  | rankedTensor shape elem =>
      cases shape with
      | nil => simp [hty] at h
      | cons d ds => simp [hty, Ty.hasLeadingDim] at hl
  | index => simp [hty] at h
  | unrankedTensor e => simp [hty] at h
  | scalar e => simp [hty] at h

theorem materializeExtracts_ok_hasLeadingDim (zero one offset size : Value)
    (tensors : List Value) (rewriter : PatternRewriter) (forOp : ForOp) (acc : List Value)
    (r : List Value × PatternRewriter × ForOp)
    (h : materializeExtracts zero one offset size tensors rewriter forOp acc = .ok r) :
    ∀ t ∈ tensors, t.getType.hasLeadingDim = true := by
  induction tensors generalizing rewriter forOp acc with
  | nil => simp
  | cons t ts ih =>
      simp only [materializeExtracts] at h
      cases he : extractSubtensor zero one offset size rewriter forOp t with
      | error a => simp [he] at h
      | ok r1 =>
          obtain ⟨e, rw1, f1⟩ := r1
          simp only [he] at h
          intro t' ht'
          rcases List.mem_cons.mp ht' with rfl | ht'
          · exact extractSubtensor_ok_hasLeadingDim _ _ _ _ _ _ _ _ he
          · exact ih rw1 f1 _ h t' ht'

theorem outs_hasLeadingDim_of_iterArgs (tileOp : TileOp) (rewriter : PatternRewriter)
    (h : ∀ a ∈ (shellOf tileOp rewriter).getRegionIterArgs, a.getType.hasLeadingDim = true) :
    ∀ v ∈ tileOp.outs, v.getType.hasLeadingDim = true := by
  intro v hv
  have hmem : v.getType ∈ (shellOf tileOp rewriter).getRegionIterArgs.map Value.getType := by
    rw [map_getType_iterArgs]
    exact List.mem_map_of_mem _ hv
  obtain ⟨a, ha, heq⟩ := List.mem_map.mp hmem
  rw [← heq]
  exact h a ha

theorem precondition_of_success (tileOp : TileOp) (rewriter : PatternRewriter)
    (h : (matchAndRewrite tileOp rewriter).completion = .returned .success) :
    tileOp.Precondition := by
  unfold matchAndRewrite at h
  split at h
  · simp at h
  · rename_i hres
    split at h
    · simp at h
    · simp only at h
      split at h
      · simp at h
      · rename_i hstep
        simp only [not_not] at hres hstep
        exact ⟨hres.1, hres.2, hstep⟩

theorem spliceAndWriteBack_success (tileOp : TileOp) (rewriter : PatternRewriter)
    (forOp : ForOp) (offset size : Value) (exs : List Value)
    (h : (spliceAndWriteBack tileOp rewriter forOp offset size exs).completion =
      .returned .success) :
    ([offset, size] ++ exs).length = tileOp.argTypes.length ∧
    ∃ yid operands,
      (forOp.body ++
        replaceAllUsesWith (tileOp.getArguments.zip ([offset, size] ++ exs))
          tileOp.body).getLast? = some (.tileYield yid operands) := by
  unfold spliceAndWriteBack at h
  simp only [mergeBlocks] at h
  by_cases hc : ([offset, size] ++ exs).length = tileOp.argTypes.length
  · refine ⟨hc, ?_⟩
    rw [if_pos hc] at h
    simp only at h
    split at h
    · rename_i yid operands heq
      exact ⟨yid, operands, heq⟩
    · simp at h
  · rw [if_neg hc] at h
    simp at h

/-- A run that returns success has passed the two assertions, every cast and the
argument count of the merge: the output operands are ranked tensors with a leading
dimension, the entry block has two arguments more than there are output operands,
and the body ends in a yield. -/
theorem shape_of_success (tileOp : TileOp) (rewriter : PatternRewriter)
    (h : (matchAndRewrite tileOp rewriter).completion = .returned .success) :
    tileOp.Precondition ∧ (∀ v ∈ tileOp.outs, v.getType.hasLeadingDim = true) ∧
      tileOp.argTypes.length = 2 + tileOp.outs.length ∧ tileOp.endsInYield = true := by
  have hpre := precondition_of_success tileOp rewriter h
  have houts : ∀ v ∈ tileOp.outs, v.getType.hasLeadingDim = true := by
    have h2 := h
    rw [matchAndRewrite_geometry tileOp rewriter hpre] at h2
    cases hm : materializeExtracts (zeroOf rewriter) (oneOf rewriter) (offsetOf rewriter)
        (sizeOf rewriter) (shellOf tileOp rewriter).getRegionIterArgs
        (geometryRewriter tileOp rewriter) (geometryFor tileOp rewriter) [] with
    | error a => simp [hm] at h2
    | ok r =>
        exact outs_hasLeadingDim_of_iterArgs tileOp rewriter
          (materializeExtracts_ok_hasLeadingDim _ _ _ _ _ _ _ _ _ hm)
  rw [matchAndRewrite_splice tileOp rewriter hpre houts] at h
  obtain ⟨hlen, yid, operands, hlast⟩ := spliceAndWriteBack_success _ _ _ _ _ _ h
  refine ⟨hpre, houts, ?_, ?_⟩
  · have := length_bbArgsTranslated tileOp rewriter
    rw [bbArgsTranslatedOf] at this
    omega
  · unfold TileOp.endsInYield
    cases hb : tileOp.body.getLast? with
    | none =>
        rw [List.getLast?_eq_none_iff] at hb
        rw [hb] at hlast
        have hnil : replaceAllUsesWith
            (tileOp.getArguments.zip ([offsetOf rewriter, sizeOf rewriter] ++
              (loweredExtracts tileOp rewriter).map Operation.sliceResult)) [] = [] := by
          rw [replaceAllUsesWith_eq]; rfl
        rw [hnil, List.append_nil] at hlast
        have hmem := List.mem_of_getLast?_eq_some hlast
        have hS := filter_loweredSliceOps_nil Operation.isTileYield (fun _ _ => rfl)
          (fun _ _ _ => rfl) (fun _ _ _ _ _ _ _ _ _ => rfl) tileOp rewriter
        rw [List.filter_eq_nil_iff] at hS
        simp only [sliceFor, List.mem_append] at hmem
        rcases hmem with hmem | hmem
        · simp [geometryOps] at hmem
        · have := hS _ hmem
          simp [Operation.isTileYield] at this
    | some op =>
        rw [replaceAllUsesWith_eq, List.getLast?_append, getLast?_mapValuesList, hb] at hlast
        simp only [Option.map_some', Option.or_some, Option.some.injEq] at hlast
        cases op <;> simp [Operation.mapValues] at hlast ⊢

/-! ## Replacements that keep the kind of type -/

theorem isIndex_eq_false_of_hasLeadingDim (t : Ty) (h : t.hasLeadingDim = true) :
    t.isIndex = false := by
  cases t <;> first | rfl | simp [Ty.hasLeadingDim] at h

theorem KindPreserving.comp {f g : Value → Value} (hf : KindPreserving f)
    (hg : KindPreserving g) : KindPreserving (f ∘ g) :=
  fun v => ⟨fun h => (hf (g v)).1 ((hg v).1 h), fun h => (hf (g v)).2 ((hg v).2 h)⟩

theorem kindPreserving_replaceUse (old new : Value)
    (h1 : old.getType.isIndex = true → new.getType.isIndex = true)
    (h2 : old.getType.hasLeadingDim = true → new.getType.hasLeadingDim = true) :
    KindPreserving (replaceUse old new) := by
  intro v
  unfold replaceUse
  by_cases hv : v = old
  · subst hv
    simp only [if_true]
    exact ⟨h1, h2⟩
  · simp only [if_neg hv]
    exact ⟨id, id⟩

theorem kindPreserving_translate (pairs : List (Value × Value))
    (h : ∀ p ∈ pairs, (p.1.getType.isIndex = true → p.2.getType.isIndex = true) ∧
      (p.1.getType.hasLeadingDim = true → p.2.getType.hasLeadingDim = true)) :
    KindPreserving (translate pairs) := by
  induction pairs with
  | nil => exact fun v => ⟨id, id⟩
  | cons p ps ih =>
      rw [translate_cons]
      exact (ih (fun q hq => h q (List.mem_cons_of_mem _ hq))).comp
        (kindPreserving_replaceUse _ _ (h p (List.mem_cons_self _ _)).1
          (h p (List.mem_cons_self _ _)).2)

theorem getType_mem_of_mem_numbered (mk : Nat → Ty → Value)
    (hmk : ∀ k t, (mk k t).getType = t) (j : Nat) (tys : List Ty) (v : Value)
    (hv : v ∈ numbered mk j tys) : v.getType ∈ tys := by
  have := List.mem_map_of_mem Value.getType hv
  rwa [map_getType_numbered mk hmk] at this

theorem hasLeadingDim_sliceResult_extractOps (zero one offset size : Value) (n : Nat)
    (tensors : List Value) (e : Operation) (he : e ∈ extractOps zero one offset size n tensors) :
    e.sliceResult.getType.hasLeadingDim = true := by
  induction tensors generalizing n with
  | nil => simp [extractOps] at he
  | cons t ts ih =>
      simp only [extractOps, List.mem_cons] at he
      rcases he with rfl | he
      · simp [extractOpAt, Operation.sliceResult, resultOf, Value.getType,
          inferExtractSliceType, List.replicate, Ty.hasLeadingDim]
      · exact ih _ he

theorem kindPreserving_mergePairs (tileOp : TileOp) (rewriter : PatternRewriter)
    (hwt : tileOp.WellTyped) : KindPreserving (translate (mergePairs tileOp rewriter)) := by
  apply kindPreserving_translate
  intro p hp
  obtain ⟨old, new⟩ := p
  obtain ⟨j, hj⟩ := List.mem_iff_getElem?.mp hp
  rw [mergePairs, List.getElem?_zip_eq_some] at hj
  obtain ⟨hold, hnew⟩ := hj
  rw [TileOp.getArguments, getElem?_numbered] at hold
  obtain ⟨t, ht, rfl⟩ := Option.map_eq_some'.mp hold
  obtain ⟨h2, hrest, -⟩ := hwt
  show (t.isIndex = true → new.getType.isIndex = true) ∧
    (t.hasLeadingDim = true → new.getType.hasLeadingDim = true)
  match j, ht, hnew with
  | 0, ht, hnew =>
      have h0 : (tileOp.argTypes.take 2)[0]? = some t := by
        rw [List.getElem?_take_of_lt (by omega)]; exact ht
      rw [h2] at h0
      simp only [List.getElem?_cons_zero, Option.some.injEq] at h0
      subst h0
      simp only [bbArgsTranslatedOf, List.cons_append, List.getElem?_cons_zero,
        Option.some.injEq] at hnew
      subst hnew
      exact ⟨fun _ => rfl, fun h => by simp [Ty.hasLeadingDim] at h⟩
  | 1, ht, hnew =>
      have h1 : (tileOp.argTypes.take 2)[1]? = some t := by
        rw [List.getElem?_take_of_lt (by omega)]; exact ht
      rw [h2] at h1
      simp only [List.getElem?_cons_succ, List.getElem?_cons_zero, Option.some.injEq] at h1
      subst h1
      simp only [bbArgsTranslatedOf, List.cons_append, List.getElem?_cons_succ,
        List.getElem?_cons_zero, Option.some.injEq] at hnew
      subst hnew
      exact ⟨fun _ => rfl, fun h => by simp [Ty.hasLeadingDim] at h⟩
  | j + 2, ht, hnew =>
      have hmem : t ∈ tileOp.argTypes.drop 2 :=
        List.mem_iff_getElem?.mpr ⟨j, by rw [List.getElem?_drop, Nat.add_comm]; exact ht⟩
      have ht' := hrest t hmem
      simp only [bbArgsTranslatedOf, List.cons_append, List.nil_append,
        List.getElem?_cons_succ] at hnew
      have hn := List.mem_iff_getElem?.mpr ⟨j, hnew⟩
      obtain ⟨e, he, rfl⟩ := List.mem_map.mp hn
      refine ⟨fun h => ?_, fun _ => hasLeadingDim_sliceResult_extractOps _ _ _ _ _ _ e he⟩
      rw [isIndex_eq_false_of_hasLeadingDim t ht'] at h
      simp at h

theorem kindPreserving_resultPairs (tileOp : TileOp) (rewriter : PatternRewriter)
    (houts : ∀ v ∈ tileOp.outs, v.getType.hasLeadingDim = true) (hwt : tileOp.WellTyped) :
    KindPreserving (translate (resultPairs tileOp rewriter)) := by
  apply kindPreserving_translate
  intro p hp
  obtain ⟨old, new⟩ := p
  have hold := (List.of_mem_zip hp).1
  have hnew := (List.of_mem_zip hp).2
  have h1 : old.getType.hasLeadingDim = true :=
    hwt.2.2 _ (getType_mem_of_mem_numbered (fun k t => Value.opResult tileOp.id k t)
      (fun _ _ => rfl) _ _ _ hold)
  have h2 : new.getType.hasLeadingDim = true := by
    have := getType_mem_of_mem_numbered (fun k t => Value.opResult (loweredFor tileOp rewriter).id k t)
      (fun _ _ => rfl) _ _ _ hnew
    obtain ⟨v, hv, heq⟩ := List.mem_map.mp this
    rw [← heq]
    exact houts v hv
  refine ⟨fun h => ?_, fun _ => h2⟩
  rw [isIndex_eq_false_of_hasLeadingDim _ h1] at h
  simp at h

/-! ## The invariant of the driver -/

theorem TileOp.precondition_mapValues (f : Value → Value) (hf : KindPreserving f)
    (tileOp : TileOp) (h : tileOp.Precondition) : (tileOp.mapValues f).Precondition := by
  obtain ⟨h1, h2, h3⟩ := h
  refine ⟨h1, ?_, (hf _).1 h3⟩
  simpa [TileOp.mapValues, TileOp.getNumResults] using h2

theorem TileOp.wellFormed_mapValues (f : Value → Value) (hf : KindPreserving f)
    (tileOp : TileOp) (h : tileOp.WellFormed) : (tileOp.mapValues f).WellFormed := by
  obtain ⟨h1, h2, h3, h4⟩ := h
  unfold TileOp.endsInYield at h3
  unfold TileOp.yieldOperands at h4
  refine ⟨?_, ?_, ?_, ?_⟩
  · intro v hv
    simp only [TileOp.mapValues, List.mem_map] at hv
    obtain ⟨w, hw, rfl⟩ := hv
    exact (hf w).2 (h1 w hw)
  · simpa [TileOp.mapValues] using h2
  · unfold TileOp.endsInYield
    simp only [TileOp.mapValues, getLast?_mapValuesList]
    cases hl : tileOp.body.getLast? with
    | none => simp [hl] at h3
    | some op => cases op <;> simp [hl, Operation.mapValues] at h3 ⊢
  · unfold TileOp.yieldOperands
    simp only [TileOp.mapValues, getLast?_mapValuesList, List.length_map]
    cases hl : tileOp.body.getLast? with
    | none => simp [hl] at h3
    | some op =>
        cases op <;> simp [hl, Operation.mapValues] at h3 h4 ⊢
        exact h4

theorem TileOp.lowerable_mapValues (f : Value → Value) (hf : KindPreserving f)
    (tileOp : TileOp) (h : tileOp.Precondition ∧ tileOp.WellFormed ∧ tileOp.WellTyped) :
    (tileOp.mapValues f).Precondition ∧ (tileOp.mapValues f).WellFormed ∧
      (tileOp.mapValues f).WellTyped :=
  ⟨TileOp.precondition_mapValues f hf tileOp h.1, TileOp.wellFormed_mapValues f hf tileOp h.2.1,
    h.2.2⟩

theorem allLowerable_append (xs ys : List Operation) :
    AllLowerable (xs ++ ys) ↔ AllLowerable xs ∧ AllLowerable ys := by
  unfold AllLowerable
  rw [tileOpsIn_append]
  constructor
  · intro h
    exact ⟨fun t ht => h t (List.mem_append_left _ ht),
      fun t ht => h t (List.mem_append_right _ ht)⟩
  · rintro ⟨h1, h2⟩ t ht
    rcases List.mem_append.mp ht with ht | ht
    · exact h1 t ht
    · exact h2 t ht

theorem allLowerable_mapValuesList (f : Value → Value) (hf : KindPreserving f)
    (ops : List Operation) (h : AllLowerable ops) : AllLowerable (mapValuesList f ops) := by
  intro t ht
  rw [tileOpsIn_mapValuesList] at ht
  obtain ⟨t0, ht0, rfl⟩ := List.mem_map.mp ht
  exact TileOp.lowerable_mapValues f hf t0 (h t0 ht0)

/-- The invariant survives a run of the pattern. -/
theorem allLowerable_rewritten (tileOp : TileOp) (rewriter : PatternRewriter)
    (ht : tileOp.Precondition ∧ tileOp.WellFormed ∧ tileOp.WellTyped)
    (hbefore : AllLowerable rewriter.before) (hbody : AllLowerable tileOp.body)
    (hafter : AllLowerable rewriter.after) :
    AllLowerable ((matchAndRewrite tileOp rewriter).rewriter.before ++
      (matchAndRewrite tileOp rewriter).rewriter.after) := by
  obtain ⟨hpre, hwf, hwt⟩ := ht
  have hσ := kindPreserving_mergePairs tileOp rewriter hwt
  have hu := kindPreserving_resultPairs tileOp rewriter hwf.1 hwt
  intro t hmem
  rw [tileOpsIn_rewritten tileOp rewriter hpre hwf.1 hwf.2.1 hwf.2.2.1] at hmem
  obtain ⟨t1, ht1, rfl⟩ := List.mem_map.mp hmem
  apply TileOp.lowerable_mapValues _ hu
  simp only [List.mem_append, List.mem_map] at ht1
  rcases ht1 with (h | ⟨t2, h, rfl⟩) | h
  · exact hbefore t1 h
  · exact TileOp.lowerable_mapValues _ hσ t2 (hbody t2 h)
  · exact hafter t1 h

theorem toOperation_of_asTileOp? (op : Operation) (tileOp : TileOp)
    (h : op.asTileOp? = some tileOp) : op = tileOp.toOperation := by
  cases op <;> simp [Operation.asTileOp?] at h
  subst h
  rfl

theorem tileOps_toOperation (tileOp : TileOp) :
    tileOp.toOperation.tileOps = tileOp :: tileOpsIn tileOp.body := rfl

theorem applyInBlock_cons_tile (nextId : Nat) (before after : List Operation) (tileOp : TileOp)
    (hpre : tileOp.Precondition) (hwf : tileOp.WellFormed) :
    applyInBlock nextId before (tileOp.toOperation :: after) =
      .rewritten
        ((matchAndRewrite tileOp ⟨nextId, before, after, []⟩).rewriter.before ++
          (matchAndRewrite tileOp ⟨nextId, before, after, []⟩).rewriter.after)
        (matchAndRewrite tileOp ⟨nextId, before, after, []⟩).rewriter.nextId := by
  have h := matchAndRewrite_of_wellFormed tileOp ⟨nextId, before, after, []⟩ hpre hwf
  simp only [applyInBlock, TileOp.toOperation, Operation.asTileOp?]
  rw [h]

theorem applyInBlock_cons_other (nextId : Nat) (before after : List Operation) (op : Operation)
    (h : op.asTileOp? = none) :
    applyInBlock nextId before (op :: after) =
      match op.applyInside nextId with
      | .rewritten op1 n => .rewritten (before ++ op1 :: after) n
      | .aborted a => .aborted a
      | .noMatch => applyInBlock nextId (before ++ [op]) after := by
  simp only [applyInBlock, h]

theorem allLowerable_nil : AllLowerable [] := by
  intro t ht
  simp [tileOpsIn] at ht

theorem allLowerable_cons (op : Operation) (ops : List Operation) :
    AllLowerable (op :: ops) ↔
      (∀ t ∈ op.tileOps, t.Precondition ∧ t.WellFormed ∧ t.WellTyped) ∧ AllLowerable ops := by
  unfold AllLowerable
  simp only [tileOpsIn, List.mem_append]
  constructor
  · intro h
    exact ⟨fun t ht => h t (Or.inl ht), fun t ht => h t (Or.inr ht)⟩
  · rintro ⟨h1, h2⟩ t (ht | ht)
    · exact h1 t ht
    · exact h2 t ht

mutual
/-- One round of the driver inside an operation whose tile operations all pass the
assertions: either it holds none, or the pattern is applied, the invariant survives
and there is exactly one tile operation less. -/
theorem Operation.applyInside_spec (nextId : Nat) :
    ∀ op : Operation, op.asTileOp? = none →
      (∀ t ∈ op.tileOps, t.Precondition ∧ t.WellFormed ∧ t.WellTyped) →
      (op.applyInside nextId = .noMatch ∧ op.tileOps = []) ∨
      ∃ op1 n, op.applyInside nextId = .rewritten op1 n ∧
        (∀ t ∈ op1.tileOps, t.Precondition ∧ t.WellFormed ∧ t.WellTyped) ∧
        op1.tileOps.length + 1 = op.tileOps.length
  | .constantIndex _ _ => fun _ _ => Or.inl ⟨rfl, rfl⟩
  | .dim _ _ _ => fun _ _ => Or.inl ⟨rfl, rfl⟩
  | .affineApply _ _ _ _ => fun _ _ => Or.inl ⟨rfl, rfl⟩
  | .affineMin _ _ => fun _ _ => Or.inl ⟨rfl, rfl⟩
  | .extractSlice _ _ _ _ _ _ _ _ _ => fun _ _ => Or.inl ⟨rfl, rfl⟩
  | .insertSlice _ _ _ _ _ _ _ _ _ _ => fun _ _ => Or.inl ⟨rfl, rfl⟩
  | .scfFor id lb ub step initArgs blockId body => fun _ hall => by
      rcases applyInBlock_spec nextId body [] allLowerable_nil hall with
        ⟨h1, h2⟩ | ⟨b1, n1, h1, h2, h3⟩
      · left
        simp only [Operation.applyInside, h1, Operation.tileOps, h2, and_self]
      · right
        refine ⟨.scfFor id lb ub step initArgs blockId b1, n1, ?_, h2, ?_⟩
        · simp only [Operation.applyInside, h1]
        · simpa [Operation.tileOps] using h3
  | .scfYield _ _ => fun _ _ => Or.inl ⟨rfl, rfl⟩
  | .tile _ _ _ _ _ _ _ => fun h _ => by simp [Operation.asTileOp?] at h
  | .tileYield _ _ => fun _ _ => Or.inl ⟨rfl, rfl⟩
  | .other id name operands resultTypes blockId argTypes body => fun _ hall => by
      rcases applyInBlock_spec nextId body [] allLowerable_nil hall with
        ⟨h1, h2⟩ | ⟨b1, n1, h1, h2, h3⟩
      · left
        simp only [Operation.applyInside, h1, Operation.tileOps, h2, and_self]
      · right
        refine ⟨.other id name operands resultTypes blockId argTypes b1, n1, ?_, h2, ?_⟩
        · simp only [Operation.applyInside, h1]
        · simpa [Operation.tileOps] using h3
/-- One round of the driver over a block whose tile operations all pass the
assertions: either the block holds none, or the pattern is applied, the invariant
survives and there is exactly one tile operation less. -/
theorem applyInBlock_spec (nextId : Nat) :
    ∀ (ops before : List Operation), AllLowerable before → AllLowerable ops →
      (applyInBlock nextId before ops = .noMatch ∧ tileOpsIn ops = []) ∨
      ∃ ops1 n, applyInBlock nextId before ops = .rewritten ops1 n ∧ AllLowerable ops1 ∧
        (tileOpsIn ops1).length + 1 = (tileOpsIn (before ++ ops)).length
  | [], _, _, _ => Or.inl ⟨rfl, rfl⟩
  | op :: after, before, hbefore, hall => by
      obtain ⟨hop, hafter⟩ := (allLowerable_cons op after).mp hall
      cases hk : op.asTileOp? with
      | some tileOp =>
          have heq := toOperation_of_asTileOp? op tileOp hk
          subst heq
          rw [tileOps_toOperation] at hop
          have ht := hop tileOp (List.mem_cons_self _ _)
          have hbody : AllLowerable tileOp.body :=
            fun t h => hop t (List.mem_cons_of_mem _ h)
          right
          refine ⟨_, _, applyInBlock_cons_tile nextId before after tileOp ht.1 ht.2.1, ?_, ?_⟩
          · exact allLowerable_rewritten tileOp ⟨nextId, before, after, []⟩ ht hbefore hbody
              hafter
          · rw [tileOpsIn_rewritten tileOp ⟨nextId, before, after, []⟩ ht.1 ht.2.1.1
              ht.2.1.2.1 ht.2.1.2.2.1, tileOpsIn_append]
            simp [tileOpsIn, tileOps_toOperation]
            omega
      | none =>
          rw [applyInBlock_cons_other nextId before after op hk]
          rcases Operation.applyInside_spec nextId op hk hop with
            ⟨h1, h2⟩ | ⟨op1, n1, h1, h2, h3⟩
          · have hb : AllLowerable (before ++ [op]) :=
              (allLowerable_append _ _).mpr
                ⟨hbefore, (allLowerable_cons op []).mpr ⟨hop, allLowerable_nil⟩⟩
            rcases applyInBlock_spec nextId after (before ++ [op]) hb hafter with
              ⟨h3, h4⟩ | ⟨ops1, n1, h3, h4, h5⟩
            · left
              simp only [h1, h3, tileOpsIn, h2, h4, List.append_nil, and_self]
            · right
              refine ⟨ops1, n1, by simp only [h1, h3], h4, ?_⟩
              rw [h5, List.append_assoc]
              rfl
          · right
            refine ⟨before ++ op1 :: after, n1, by simp only [h1], ?_, ?_⟩
            · exact (allLowerable_append _ _).mpr
                ⟨hbefore, (allLowerable_cons op1 after).mpr ⟨h2, hafter⟩⟩
            · simp only [tileOpsIn_append, tileOpsIn, List.length_append]
              omega
end

/-- The identities of the tile operations of the block after a successful run. -/
theorem tileIds_rewritten (tileOp : TileOp) (rewriter : PatternRewriter)
    (h : (matchAndRewrite tileOp rewriter).completion = .returned .success) :
    (tileOpsIn ((matchAndRewrite tileOp rewriter).rewriter.before ++
        (matchAndRewrite tileOp rewriter).rewriter.after)).map TileOp.id =
      (tileOpsIn rewriter.before ++ tileOpsIn tileOp.body ++ tileOpsIn rewriter.after).map
        TileOp.id := by
  obtain ⟨hpre, houts, hargs, hy⟩ := shape_of_success tileOp rewriter h
  rw [tileOpsIn_rewritten tileOp rewriter hpre houts hargs hy]
  simp only [List.map_append, List.map_map]
  rfl

/-- The driver on a function whose tile operations all pass the assertions: with
fuel for one application per tile operation it applies the pattern exactly that many
times and ends with a function that holds no tile operation. -/
theorem applyPatternsGreedily_spec (fuel : Nat) :
    ∀ (nextId : Nat) (ops : List Operation), AllLowerable ops →
      (tileOpsIn ops).length ≤ fuel →
      ∃ ops1, applyPatternsGreedily fuel nextId ops = some (ops1, (tileOpsIn ops).length) ∧
        tileOpsIn ops1 = [] := by
  induction fuel with
  | zero =>
      intro nextId ops hall hfuel
      rcases applyInBlock_spec nextId ops [] allLowerable_nil hall with
        ⟨h1, h2⟩ | ⟨ops1, n1, -, -, h3⟩
      · exact ⟨ops, by simp [applyPatternsGreedily, h1, h2], h2⟩
      · simp only [List.nil_append] at h3
        omega
  | succ fuel ih =>
      intro nextId ops hall hfuel
      rcases applyInBlock_spec nextId ops [] allLowerable_nil hall with
        ⟨h1, h2⟩ | ⟨ops1, n1, h1, h2, h3⟩
      · exact ⟨ops, by simp [applyPatternsGreedily, h1, h2], h2⟩
      · simp only [List.nil_append] at h3
        obtain ⟨ops2, h4, h5⟩ := ih n1 ops1 h2 (by omega)
        refine ⟨ops2, ?_, h5⟩
        simp only [applyPatternsGreedily, h1, h4, Option.map_some', h3]

/-! ## Runs that return success -/

/-- A construct that passes the two assertions makes the run return success exactly
when every cast and the argument count of the merge pass. -/
theorem success_iff_shape (tileOp : TileOp) (rewriter : PatternRewriter)
    (hpre : tileOp.Precondition) :
    (matchAndRewrite tileOp rewriter).completion = .returned .success ↔
      (∀ v ∈ tileOp.outs, v.getType.hasLeadingDim = true) ∧
        tileOp.argTypes.length = 2 + tileOp.outs.length ∧ tileOp.endsInYield = true := by
  constructor
  · intro h
    exact (shape_of_success tileOp rewriter h).2
  · rintro ⟨houts, hargs, hy⟩
    rw [matchAndRewrite_eq tileOp rewriter hpre houts hargs hy]

theorem newlyCreated_of_shape (tileOp : TileOp) (rewriter : PatternRewriter)
    (hpre : tileOp.Precondition)
    (houts : ∀ v ∈ tileOp.outs, v.getType.hasLeadingDim = true)
    (hargs : tileOp.argTypes.length = 2 + tileOp.outs.length)
    (hy : tileOp.endsInYield = true) :
    newlyCreated rewriter (matchAndRewrite tileOp rewriter) = loweredCreated tileOp rewriter := by
  rw [matchAndRewrite_eq tileOp rewriter hpre houts hargs hy]
  simp [newlyCreated, loweredRewriter, PatternRewriter.replaceOp]

theorem filter_extract_loweredCreated (tileOp : TileOp) (rewriter : PatternRewriter) :
    (loweredCreated tileOp rewriter).filter Operation.isExtractSlice =
      loweredExtracts tileOp rewriter := by
  simp [loweredCreated, boundOps, geometryOps, loweredSliceOps, loweredInserts, loweredYield,
    loweredExtracts, ForOp.toOperation, Operation.isExtractSlice, filter_sliceOps,
    filter_extract_insertOps]

theorem filter_insert_loweredCreated (tileOp : TileOp) (rewriter : PatternRewriter) :
    (loweredCreated tileOp rewriter).filter Operation.isInsertSlice =
      loweredInserts tileOp rewriter := by
  simp [loweredCreated, boundOps, geometryOps, loweredSliceOps, loweredInserts, loweredYield,
    ForOp.toOperation, Operation.isInsertSlice, filter_insert_sliceOps,
    filter_insert_insertOps]

theorem length_loweredInserts_min (tileOp : TileOp) (rewriter : PatternRewriter) :
    (loweredInserts tileOp rewriter).length =
      min tileOp.outs.length tileOp.yieldOperands.length := by
  simp [loweredInserts, length_insertOps, insertTriples, length_loweredExtracts, yieldedValues,
    length_iterArgs]
  omega

/-- The run on the construct with two outputs and a yield of one value. -/
theorem sampleTileShortYield_run :
    newlyCreated sampleRewriter (matchAndRewrite sampleTileShortYield sampleRewriter) =
      loweredCreated sampleTileShortYield sampleRewriter ∧
    (loweredInserts sampleTileShortYield sampleRewriter).length = 1 :=
  ⟨newlyCreated_of_shape sampleTileShortYield sampleRewriter (by decide) (by decide) (by decide)
      (by decide),
    by rw [length_loweredInserts_min]; decide⟩

/-! ## The sample construct, lowered -/

/-- The operations that replace `sampleTile`: the two constants, the query of the
leading dimension, and the loop. -/
theorem sample_replacementOps :
    replacementOps sampleRewriter (matchAndRewrite sampleTile sampleRewriter) =
      [.constantIndex 10 0, .constantIndex 11 1, .dim 12 sampleOut (resultOf 10 .index),
        .scfFor 13 (resultOf 10 .index) (resultOf 12 .index) sampleStep [sampleOut] 14
          [.affineApply 15 .mul (.blockArg 14 0 .index) sampleStep,
            .affineApply 16 .sub (resultOf 12 .index) (resultOf 15 .index),
            .affineMin 17 [resultOf 16 .index, sampleStep],
            .extractSlice 18 (.rankedTensor [none] .f32)
              (.blockArg 14 1 (.rankedTensor [none] .f32))
              [resultOf 15 .index] [resultOf 17 .index] [resultOf 11 .index]
              [kDynamicStrideOrOffset] [kDynamicSize] [kDynamicStrideOrOffset],
            .other 7 0 [resultOf 18 (.rankedTensor [none] .f32)] [.rankedTensor [none] .f32]
              8 [] [],
            .insertSlice 19 (.rankedTensor [none] .f32)
              (.opResult 7 0 (.rankedTensor [none] .f32))
              (.blockArg 14 1 (.rankedTensor [none] .f32))
              [resultOf 15 .index] [resultOf 17 .index] [resultOf 11 .index]
              [kDynamicStrideOrOffset] [kDynamicSize] [kDynamicStrideOrOffset],
            .scfYield 20 [resultOf 19 (.rankedTensor [none] .f32)]]] := by
  simp [replacementOps, matchAndRewrite, spliceAndWriteBack, sampleTile, sampleRewriter,
    TileOp.getNumResults, PatternRewriter.create, PatternRewriter.createFor,
    PatternRewriter.createInBody, resultOf, Ty.isIndex, Value.getType, sampleStep, sampleOut,
    materializeExtracts, ForOp.getRegionIterArgs, numbered, extractSubtensor, pushDimSizes,
    List.replicate, List.range', mergeBlocks, TileOp.getArguments, replaceAllUsesWith,
    mapValuesList, Operation.mapValues, replaceUse, createInserts, createMatchingSubsetInsert,
    getDefiningOp, Operation.id, ForOp.getInductionVar, inferExtractSliceType,
    PatternRewriter.replaceOp, TileOp.getResults, ForOp.getResults, ForOp.toOperation]

/-! ## C1, C2, C3: offsets and sizes of the generated loop -/

/-- C1 (the code departs from the claim).  For the sample construct with total extent
`T = 10` and step `S = 3` the generated loop runs four iterations, the induction
variable being 0, 3, 6, 9.  The computed offsets are 0, 9, 18, 27 (induction variable
times step) and the computed sizes 3, 1, -8, -17, where the claim gives offsets
`i * S = 0, 3, 6, 9` and sizes `min(S, T - i * S) = 3, 3, 3, 1`. -/
theorem generated_offsets_T10_S3 :
    (generatedRun (fun _ s => s) (fun _ => ()) (sampleRuntime 10 3) sampleTile
        sampleRewriter).map (fun run => run.iterations) =
      some [⟨0, some 0, some 3⟩, ⟨3, some 9, some 1⟩, ⟨6, some 18, some (-8)⟩,
        ⟨9, some 27, some (-17)⟩] := by
  unfold generatedRun
  rw [sample_replacementOps]
  rfl

/-- C2 (the code departs from the claim).  For the sample construct with `T = 10` and
`S = 3` the generated loop runs `4 = ⌈10 / 3⌉` iterations, and the sizes computed in
them add up to -21, where the claim gives the sum `T = 10`. -/
theorem generated_size_sum_T10_S3 :
    (generatedRun (fun _ s => s) (fun _ => ()) (sampleRuntime 10 3) sampleTile
        sampleRewriter).map
        (fun run => (run.iterations.length,
          (run.iterations.map (fun it => it.size.getD 0)).sum)) =
      some (4, -21) := by
  unfold generatedRun
  rw [sample_replacementOps]
  rfl

/-- C3 (the code departs from the claim).  For the sample construct with `T = 7` and
`S = 2` the generated loop computes, in its third iteration, the offset 8 and the
size -1, and in its fourth the offset 12 and the size -5: the size is below 1 and the
offset lies beyond `T`, where the claim gives `1 <= size` and `offset + size <= T`
with the range inside `[0, T)`. -/
theorem generated_ranges_T7_S2 :
    (generatedRun (fun _ s => s) (fun _ => ()) (sampleRuntime 7 2) sampleTile
        sampleRewriter).map (fun run => run.iterations) =
      some [⟨0, some 0, some 2⟩, ⟨2, some 4, some 2⟩, ⟨4, some 8, some (-1)⟩,
        ⟨6, some 12, some (-5)⟩] := by
  unfold generatedRun
  rw [sample_replacementOps]
  rfl

/-! ## C4: the insertion matches its extraction -/

/-- C4.  For a construct with `n` output operands whose body yields `n` values (the
shape of section 3, under the precondition of section 4.1), and for every `k < n`,
the run succeeds and its `k`-th created insertion has the descriptor of its `k`-th
created extraction: the same offset, size and stride operands and the same static
offset, size and stride attributes.  Its source is the `k`-th operand of the spliced
`tile_yield` (the yielded value after the block arguments have been replaced) and its
destination is the `k`-th loop-carried block argument. -/
theorem insertion_matches_extraction (tileOp : TileOp) (rewriter : PatternRewriter)
    (hpre : tileOp.Precondition) (hwf : tileOp.WellFormed) (k : Nat)
    (hk : k < tileOp.outs.length) :
    (matchAndRewrite tileOp rewriter).completion = .returned .success ∧
    ∃ e i y a,
      (emittedExtracts rewriter (matchAndRewrite tileOp rewriter))[k]? = some e ∧
      (emittedInserts rewriter (matchAndRewrite tileOp rewriter))[k]? = some i ∧
      (yieldedValues tileOp rewriter)[k]? = some y ∧
      (shellOf tileOp rewriter).getRegionIterArgs[k]? = some a ∧
      e.isExtractSlice = true ∧ i.isInsertSlice = true ∧
      e.descriptor?.isSome = true ∧ i.descriptor? = e.descriptor? ∧
      i.sliceSource? = some y ∧ i.sliceDest? = some a := by
  refine ⟨by rw [matchAndRewrite_of_wellFormed tileOp rewriter hpre hwf], ?_⟩
  obtain ⟨m, y, a, ha, hy, he, -, hi⟩ := kth_extract_insert tileOp rewriter hwf k hk
  rw [emittedExtracts_eq tileOp rewriter hpre hwf, emittedInserts_eq tileOp rewriter hpre hwf]
  exact ⟨_, _, y, a, he, hi, hy, ha, rfl, rfl, rfl, rfl, rfl, rfl⟩

/-- C4, at the sample construct and `k = 0`. -/
theorem insertion_matches_extraction_witness :
    sampleTile.Precondition ∧ sampleTile.WellFormed ∧ 0 < sampleTile.outs.length ∧
    ((matchAndRewrite sampleTile sampleRewriter).completion = .returned .success ∧
    ∃ e i y a,
      (emittedExtracts sampleRewriter (matchAndRewrite sampleTile sampleRewriter))[0]? =
        some e ∧
      (emittedInserts sampleRewriter (matchAndRewrite sampleTile sampleRewriter))[0]? =
        some i ∧
      (yieldedValues sampleTile sampleRewriter)[0]? = some y ∧
      (shellOf sampleTile sampleRewriter).getRegionIterArgs[0]? = some a ∧
      e.isExtractSlice = true ∧ i.isInsertSlice = true ∧
      e.descriptor?.isSome = true ∧ i.descriptor? = e.descriptor? ∧
      i.sliceSource? = some y ∧ i.sliceDest? = some a) :=
  ⟨by decide, by decide, by decide,
    insertion_matches_extraction sampleTile sampleRewriter (by decide) (by decide) 0
      (by decide)⟩

/-! ## C5: the extraction descriptor -/

/-- C5.  For a construct of the shape of section 3 under the precondition of section
4.1, and for every `k` below the number of output operands, the `k`-th created
extraction reads the `k`-th loop-carried block argument `a`, of rank `R >= 1`, with a
descriptor of exactly `R` offsets, `R` sizes and `R` strides.  Offset 0 is the value
`offset` and every further offset is the value `zero`; size 0 is the value `size` and
size `d`, for `1 <= d < R`, is the result of a created `tensor.dim` on `a` whose
index is a created constant `d`; every stride is the value `one`.  Here `zero` and
`one` are the results of the created constants 0 and 1, `offset` is the result of the
created product of the induction variable and the step, and `size` is the result of
the created minimum of `totalSize - offset` and the step. -/
theorem extraction_descriptor_rank (tileOp : TileOp) (rewriter : PatternRewriter)
    (hpre : tileOp.Precondition) (hwf : tileOp.WellFormed) (k : Nat)
    (hk : k < tileOp.outs.length) :
    ∃ e a desc,
      (emittedExtracts rewriter (matchAndRewrite tileOp rewriter))[k]? = some e ∧
      (shellOf tileOp rewriter).getRegionIterArgs[k]? = some a ∧
      e.sliceSource? = some a ∧ e.descriptor? = some desc ∧
      1 ≤ a.getType.rank ∧
      desc.offsets.length = a.getType.rank ∧ desc.sizes.length = a.getType.rank ∧
      desc.strides.length = a.getType.rank ∧
      desc.offsets[0]? = some (offsetOf rewriter) ∧
      (∀ d, 1 ≤ d → d < a.getType.rank → desc.offsets[d]? = some (zeroOf rewriter)) ∧
      desc.sizes[0]? = some (sizeOf rewriter) ∧
      (∀ d : Nat, 1 ≤ d → d < a.getType.rank → ∃ c q,
        desc.sizes[d]? = some (resultOf q .index) ∧
        Operation.dim q a (resultOf c .index) ∈
          newlyCreated rewriter (matchAndRewrite tileOp rewriter) ∧
        Operation.constantIndex c d ∈
          newlyCreated rewriter (matchAndRewrite tileOp rewriter)) ∧
      (∀ s ∈ desc.strides, s = oneOf rewriter) ∧
      Operation.constantIndex (zeroOf rewriter).owner 0 ∈
        newlyCreated rewriter (matchAndRewrite tileOp rewriter) ∧
      Operation.constantIndex (oneOf rewriter).owner 1 ∈
        newlyCreated rewriter (matchAndRewrite tileOp rewriter) ∧
      Operation.affineApply (offsetOf rewriter).owner .mul
          (shellOf tileOp rewriter).getInductionVar tileOp.tile_sizes ∈
        newlyCreated rewriter (matchAndRewrite tileOp rewriter) ∧
      ∃ remaining,
        Operation.affineApply remaining .sub (totalSizeOf rewriter) (offsetOf rewriter) ∈
          newlyCreated rewriter (matchAndRewrite tileOp rewriter) ∧
        Operation.affineMin (sizeOf rewriter).owner
            [resultOf remaining .index, tileOp.tile_sizes] ∈
          newlyCreated rewriter (matchAndRewrite tileOp rewriter) := by
  obtain ⟨m, y, a, ha, -, he, hsub, -⟩ := kth_extract_insert tileOp rewriter hwf k hk
  have hrank : 1 ≤ a.getType.rank :=
    rank_pos_of_hasLeadingDim _
      (iterArgs_hasLeadingDim tileOp rewriter hwf.1 a (List.mem_iff_getElem?.mpr ⟨k, ha⟩))
  rw [emittedExtracts_eq tileOp rewriter hpre hwf, newlyCreated_eq tileOp rewriter hpre hwf]
  refine ⟨_, a, _, he, ha, rfl, rfl, hrank, ?_, ?_, ?_, ?_, ?_, ?_, ?_, ?_, ?_, ?_, ?_, ?_⟩
  · simp; omega
  · simp [length_dimVals]; omega
  · simp
  · simp
  · intro d hd1 hdR
    obtain ⟨j, rfl⟩ : ∃ j, d = j + 1 := ⟨d - 1, by omega⟩
    simp only [List.getElem?_cons_succ, List.getElem?_replicate]
    rw [if_pos (by omega)]
  · simp
  · intro d hd1 hdR
    obtain ⟨j, rfl⟩ : ∃ j, d = j + 1 := ⟨d - 1, by omega⟩
    have hj : j < (List.range' 1 (a.getType.rank - 1)).length := by
      rw [List.length_range']; omega
    have hdim : (List.range' 1 (a.getType.rank - 1))[j]? = some (j + 1) := by
      rw [List.getElem?_range' 1 1 (by omega)]; congr 1; omega
    obtain ⟨h1, h2⟩ := mem_dimOps a m _ j (j + 1) hdim
    refine ⟨m + 2 * j, m + 2 * j + 1, ?_, ?_, ?_⟩
    · simp only [List.getElem?_cons_succ]
      exact getElem?_dimVals m _ j hj
    · exact mem_loweredCreated_of_mem_sliceOps _ _ _
        (hsub _ (List.mem_append_left _ h2))
    · have := mem_loweredCreated_of_mem_sliceOps _ _ _
        (hsub _ (List.mem_append_left _ h1))
      simpa using this
  · intro s hs
    exact (List.mem_replicate.mp hs).2
  · simp [loweredCreated, boundOps, zeroOf, resultOf, Value.owner]
  · simp [loweredCreated, boundOps, oneOf, resultOf, Value.owner]
  · simp [loweredCreated, geometryOps, offsetOf, resultOf, Value.owner]
  · refine ⟨rewriter.nextId + 6, ?_, ?_⟩
    · simp [loweredCreated, geometryOps, offsetOf, resultOf, Value.owner]
    · simp [loweredCreated, geometryOps, sizeOf, resultOf, Value.owner]

/-- C5, at the sample construct with two outputs and `k = 1`, the output of rank 2. -/
theorem extraction_descriptor_rank_witness :
    sampleTile2.Precondition ∧ sampleTile2.WellFormed ∧ 1 < sampleTile2.outs.length ∧
    (∃ e a desc,
      (emittedExtracts sampleRewriter (matchAndRewrite sampleTile2 sampleRewriter))[1]? = some e ∧
      (shellOf sampleTile2 sampleRewriter).getRegionIterArgs[1]? = some a ∧
      e.sliceSource? = some a ∧ e.descriptor? = some desc ∧
      1 ≤ a.getType.rank ∧
      desc.offsets.length = a.getType.rank ∧ desc.sizes.length = a.getType.rank ∧
      desc.strides.length = a.getType.rank ∧
      desc.offsets[0]? = some (offsetOf sampleRewriter) ∧
      (∀ d, 1 ≤ d → d < a.getType.rank → desc.offsets[d]? = some (zeroOf sampleRewriter)) ∧
      desc.sizes[0]? = some (sizeOf sampleRewriter) ∧
      (∀ d : Nat, 1 ≤ d → d < a.getType.rank → ∃ c q,
        desc.sizes[d]? = some (resultOf q .index) ∧
        Operation.dim q a (resultOf c .index) ∈
          newlyCreated sampleRewriter (matchAndRewrite sampleTile2 sampleRewriter) ∧
        Operation.constantIndex c d ∈
          newlyCreated sampleRewriter (matchAndRewrite sampleTile2 sampleRewriter)) ∧
      (∀ s ∈ desc.strides, s = oneOf sampleRewriter) ∧
      Operation.constantIndex (zeroOf sampleRewriter).owner 0 ∈
        newlyCreated sampleRewriter (matchAndRewrite sampleTile2 sampleRewriter) ∧
      Operation.constantIndex (oneOf sampleRewriter).owner 1 ∈
        newlyCreated sampleRewriter (matchAndRewrite sampleTile2 sampleRewriter) ∧
      Operation.affineApply (offsetOf sampleRewriter).owner .mul
          (shellOf sampleTile2 sampleRewriter).getInductionVar sampleTile2.tile_sizes ∈
        newlyCreated sampleRewriter (matchAndRewrite sampleTile2 sampleRewriter) ∧
      ∃ remaining,
        Operation.affineApply remaining .sub (totalSizeOf sampleRewriter) (offsetOf sampleRewriter) ∈
          newlyCreated sampleRewriter (matchAndRewrite sampleTile2 sampleRewriter) ∧
        Operation.affineMin (sizeOf sampleRewriter).owner
            [resultOf remaining .index, sampleTile2.tile_sizes] ∈
          newlyCreated sampleRewriter (matchAndRewrite sampleTile2 sampleRewriter)) :=
  ⟨by decide, by decide, by decide,
    extraction_descriptor_rank sampleTile2 sampleRewriter (by decide) (by decide) 1
      (by decide)⟩

/-! ## C6: the two assertions -/

/-- C6 (counterexample).  The sample construct with a step of type `i64` violates the
precondition of section 4.1; the run aborts at the assertion on the step type, and by
then it has created three operations: the constants 0 and 1 and the query of the
leading dimension. -/
theorem step_assertion_follows_three_creations :
    ¬ sampleTileI64Step.Precondition ∧
      (matchAndRewrite sampleTileI64Step sampleRewriter).completion =
        .aborted .assertStepType ∧
      newlyCreated sampleRewriter (matchAndRewrite sampleTileI64Step sampleRewriter) =
        [.constantIndex 10 0, .constantIndex 11 1, .dim 12 sampleOut (resultOf 10 .index)] := by
  refine ⟨by decide, ?_, ?_⟩ <;>
    simp [newlyCreated, matchAndRewrite, sampleTileI64Step, sampleTile, sampleRewriter,
      TileOp.getNumResults, PatternRewriter.create, resultOf, Ty.isIndex, Value.getType]

/-- C6 (amended).  A construct that violates the precondition of section 4.1 makes the
run abort.  When it has no result, or a number of results other than the number of
output operands, the run aborts at the first assertion and the rewriter state is the
one it started with: nothing has been created.  When the results are in order and the
step is not of type `index`, the run aborts at the second assertion; by then exactly
the three operations `boundOps` (the constants 0 and 1 and the query of the leading
dimension of the first output operand) have been created ahead of the construct, and
nothing else has changed: no loop exists and the operations behind the construct are
untouched. -/
theorem precondition_violation_aborts (tileOp : TileOp) (rewriter : PatternRewriter)
    (h : ¬ tileOp.Precondition) :
    (¬ (tileOp.getNumResults > 0 ∧ tileOp.outs.length = tileOp.getNumResults) →
        matchAndRewrite tileOp rewriter = ⟨.aborted .assertResults, rewriter⟩) ∧
      ((tileOp.getNumResults > 0 ∧ tileOp.outs.length = tileOp.getNumResults) →
        matchAndRewrite tileOp rewriter =
          ⟨.aborted .assertStepType,
            { rewriter with
              nextId := rewriter.nextId + 3
              before := rewriter.before ++ boundOps tileOp rewriter
              created := rewriter.created ++ boundOps tileOp rewriter }⟩) := by
  constructor
  · intro hres
    simp [matchAndRewrite, hres]
  · intro hres
    have hstep : tileOp.tile_sizes.getType.isIndex = false := by
      cases hb : tileOp.tile_sizes.getType.isIndex with
      | false => rfl
      | true => exact absurd ⟨hres.1, hres.2, hb⟩ h
    cases ho : tileOp.outs with
    | nil =>
        have := hres.1
        have := hres.2
        rw [ho] at this
        simp at this
        omega
    | cons front rest =>
        have hr1 := hres.1
        have hr2 : (front :: rest).length = tileOp.getNumResults := by
          rw [← ho]; exact hres.2
        unfold matchAndRewrite
        simp only [hr1, hr2, and_self, not_true_eq_false, if_false, ho, hstep,
          PatternRewriter.create, boundOps, zeroOf, List.headD_cons, resultOf]
        simp [Nat.add_assoc]

/-- C6 (amended), at the sample construct with a step of type `i64`. -/
theorem precondition_violation_aborts_witness :
    ¬ sampleTileI64Step.Precondition ∧
      ((¬ (sampleTileI64Step.getNumResults > 0 ∧
            sampleTileI64Step.outs.length = sampleTileI64Step.getNumResults) →
          matchAndRewrite sampleTileI64Step sampleRewriter =
            ⟨.aborted .assertResults, sampleRewriter⟩) ∧
        ((sampleTileI64Step.getNumResults > 0 ∧
            sampleTileI64Step.outs.length = sampleTileI64Step.getNumResults) →
          matchAndRewrite sampleTileI64Step sampleRewriter =
            ⟨.aborted .assertStepType,
              { sampleRewriter with
                nextId := sampleRewriter.nextId + 3
                before := sampleRewriter.before ++ boundOps sampleTileI64Step sampleRewriter
                created :=
                  sampleRewriter.created ++ boundOps sampleTileI64Step sampleRewriter }⟩)) :=
  ⟨by decide, precondition_violation_aborts sampleTileI64Step sampleRewriter (by decide)⟩

/-! ## C7: the results of the loop replace the results of the construct -/

/-- C7.  For a construct of the shape of section 3 under the precondition of section
4.1, with `n` output operands, whose identity lies below the fresh identities and is
the identity of no other operation of the block or of its own body: the run succeeds;
the last of the operations that have taken the place of the construct is the loop,
which carries `n` values and has `n` results; the block after the run is the block
before it, with the three bound operations and the loop in the place of the
construct, in which each value has been replaced by `translate (resultPairs ...)`.
That replacement maps the `k`-th result of the construct to the `k`-th result of the
loop and leaves every other value as it is.  After the run no operand at any depth of
the block is a result of the construct, and no operation at any depth of the block
has the identity of the construct. -/
theorem results_replaced_construct_erased (tileOp : TileOp) (rewriter : PatternRewriter)
    (hpre : tileOp.Precondition) (hwf : tileOp.WellFormed)
    (hfresh : tileOp.id < rewriter.nextId)
    (hid : tileOp.id ∉ identitiesIn (rewriter.before ++ tileOp.body ++ rewriter.after)) :
    (matchAndRewrite tileOp rewriter).completion = .returned .success ∧
    (∃ lb ub step inits body,
      (replacementOps rewriter (matchAndRewrite tileOp rewriter)).getLast? =
        some (.scfFor (loweredFor tileOp rewriter).id lb ub step inits
          (loweredFor tileOp rewriter).blockId body) ∧
      inits.length = tileOp.outs.length) ∧
    (loweredFor tileOp rewriter).getResults.length = tileOp.outs.length ∧
    (matchAndRewrite tileOp rewriter).rewriter.before =
      mapValuesList (translate (resultPairs tileOp rewriter))
        (rewriter.before ++ boundOps tileOp rewriter ++
          [(loweredFor tileOp rewriter).toOperation]) ∧
    (matchAndRewrite tileOp rewriter).rewriter.after =
      mapValuesList (translate (resultPairs tileOp rewriter)) rewriter.after ∧
    (∀ (k : Nat) (r : Value), tileOp.getResults[k]? = some r →
      ∃ r', (loweredFor tileOp rewriter).getResults[k]? = some r' ∧
        translate (resultPairs tileOp rewriter) r = r') ∧
    (∀ v, v ∉ tileOp.getResults → translate (resultPairs tileOp rewriter) v = v) ∧
    (∀ v ∈ usesIn ((matchAndRewrite tileOp rewriter).rewriter.before ++
        (matchAndRewrite tileOp rewriter).rewriter.after), v ∉ tileOp.getResults) ∧
    tileOp.id ∉ identitiesIn ((matchAndRewrite tileOp rewriter).rewriter.before ++
      (matchAndRewrite tileOp rewriter).rewriter.after) := by
  have hb := before_eq tileOp rewriter hpre hwf
  have ha := after_eq tileOp rewriter hpre hwf
  simp only [identitiesIn_append, List.mem_append, not_or] at hid
  refine ⟨by rw [matchAndRewrite_of_wellFormed tileOp rewriter hpre hwf], ?_,
    length_loweredFor_getResults tileOp rewriter, hb, ha,
    fun k r hr => translate_kth_result tileOp rewriter hpre hfresh k r hr,
    fun v hv => translate_resultPairs_of_not_mem tileOp rewriter v hv, ?_, ?_⟩
  · rw [replacementOps_eq tileOp rewriter hpre hwf, mapValuesList_eq_map, List.map_append,
      List.map_cons, List.map_nil, List.getLast?_concat]
    simp only [ForOp.toOperation, Operation.mapValues, loweredFor, shellOf, Option.some.injEq]
    exact ⟨_, _, _, _, _, rfl, by simp⟩
  · intro v hv
    rw [hb, ha, usesIn_append, usesIn_mapValuesList, usesIn_mapValuesList, ← List.map_append,
      List.mem_map] at hv
    obtain ⟨w, -, rfl⟩ := hv
    exact translate_not_mem_getResults tileOp rewriter hpre hfresh w
  · rw [hb, ha, identitiesIn_append, identitiesIn_mapValuesList, identitiesIn_mapValuesList,
      List.append_assoc, identitiesIn_append, List.mem_append, List.mem_append]
    rintro ((h | h) | h)
    · exact hid.1.1 h
    · exact id_not_mem_identities_loweredFor tileOp rewriter hfresh hid.1.2 h
    · exact hid.2 h

/-- C7, at the sample construct. -/
theorem results_replaced_construct_erased_witness :
    sampleTile.Precondition ∧ sampleTile.WellFormed ∧
    sampleTile.id < sampleRewriter.nextId ∧
    sampleTile.id ∉
      identitiesIn (sampleRewriter.before ++ sampleTile.body ++ sampleRewriter.after) ∧
    ((matchAndRewrite sampleTile sampleRewriter).completion = .returned .success ∧
    (∃ lb ub step inits body,
      (replacementOps sampleRewriter (matchAndRewrite sampleTile sampleRewriter)).getLast? =
        some (.scfFor (loweredFor sampleTile sampleRewriter).id lb ub step inits
          (loweredFor sampleTile sampleRewriter).blockId body) ∧
      inits.length = sampleTile.outs.length) ∧
    (loweredFor sampleTile sampleRewriter).getResults.length = sampleTile.outs.length ∧
    (matchAndRewrite sampleTile sampleRewriter).rewriter.before =
      mapValuesList (translate (resultPairs sampleTile sampleRewriter))
        (sampleRewriter.before ++ boundOps sampleTile sampleRewriter ++
          [(loweredFor sampleTile sampleRewriter).toOperation]) ∧
    (matchAndRewrite sampleTile sampleRewriter).rewriter.after =
      mapValuesList (translate (resultPairs sampleTile sampleRewriter)) sampleRewriter.after ∧
    (∀ (k : Nat) (r : Value), sampleTile.getResults[k]? = some r →
      ∃ r', (loweredFor sampleTile sampleRewriter).getResults[k]? = some r' ∧
        translate (resultPairs sampleTile sampleRewriter) r = r') ∧
    (∀ v, v ∉ sampleTile.getResults → translate (resultPairs sampleTile sampleRewriter) v = v) ∧
    (∀ v ∈ usesIn ((matchAndRewrite sampleTile sampleRewriter).rewriter.before ++
        (matchAndRewrite sampleTile sampleRewriter).rewriter.after), v ∉ sampleTile.getResults) ∧
    sampleTile.id ∉ identitiesIn ((matchAndRewrite sampleTile sampleRewriter).rewriter.before ++
      (matchAndRewrite sampleTile sampleRewriter).rewriter.after)) :=
  ⟨by decide, by decide, by decide, by decide,
    results_replaced_construct_erased sampleTile sampleRewriter (by decide) (by decide)
      (by decide) (by decide)⟩

/-! ## C8: the one-to-one chain -/

/-- C8 as stated fails.  The construct `sampleTileShortYield` passes the two
assertions of section 4.1 with two output operands, and its body yields one value:
the run returns success, creates two extractions and one insertion only, and the
terminator `scf.yield`, the last created operation, carries one value. -/
theorem short_yield_breaks_chain :
    sampleTileShortYield.Precondition ∧ sampleTileShortYield.outs.length = 2 ∧
    (matchAndRewrite sampleTileShortYield sampleRewriter).completion = .returned .success ∧
    (emittedExtracts sampleRewriter
      (matchAndRewrite sampleTileShortYield sampleRewriter)).length = 2 ∧
    (emittedInserts sampleRewriter
      (matchAndRewrite sampleTileShortYield sampleRewriter)).length = 1 ∧
    ∃ yid vals,
      (newlyCreated sampleRewriter
        (matchAndRewrite sampleTileShortYield sampleRewriter)).getLast? =
        some (.scfYield yid vals) ∧
      vals.length = 1 := by
  obtain ⟨hlog, hins⟩ := sampleTileShortYield_run
  refine ⟨by decide, rfl, ?_, ?_, ?_, ?_⟩
  · exact (success_iff_shape sampleTileShortYield sampleRewriter (by decide)).mpr
      ⟨by decide, by decide, by decide⟩
  · rw [emittedExtracts, hlog, filter_extract_loweredCreated, length_loweredExtracts]
    rfl
  · rw [emittedInserts, hlog, filter_insert_loweredCreated, hins]
  · refine ⟨(loweredYield sampleTileShortYield sampleRewriter).id,
      (loweredInserts sampleTileShortYield sampleRewriter).map Operation.sliceResult, ?_, ?_⟩
    · rw [hlog, loweredCreated, List.getLast?_concat]
      rfl
    · rw [List.length_map, hins]

/-- C8 (amended).  For a construct of the shape of section 3 under the precondition of section
4.1, with `n` output operands, the run succeeds, creates exactly `n` extractions and
exactly `n` insertions, and last creates the terminator `scf.yield` with exactly `n`
operands.  For every `k < n` the `k`-th operand of the terminator is the result of
the `k`-th insertion, which has the descriptor of the `k`-th extraction, reads the
`k`-th yielded value and writes into the `k`-th loop-carried block argument, the
tensor the `k`-th extraction reads.  In the block, the loop that has replaced the
construct carries `n` values and its body ends in a terminator with `n` operands. -/
theorem one_to_one_chain (tileOp : TileOp) (rewriter : PatternRewriter)
    (hpre : tileOp.Precondition) (hwf : tileOp.WellFormed) :
    (matchAndRewrite tileOp rewriter).completion = .returned .success ∧
    (emittedExtracts rewriter (matchAndRewrite tileOp rewriter)).length =
      tileOp.outs.length ∧
    (emittedInserts rewriter (matchAndRewrite tileOp rewriter)).length =
      tileOp.outs.length ∧
    (∃ yid vals,
      (newlyCreated rewriter (matchAndRewrite tileOp rewriter)).getLast? =
        some (.scfYield yid vals) ∧
      vals.length = tileOp.outs.length ∧
      ∀ k, k < tileOp.outs.length → ∃ e i y a,
        (emittedExtracts rewriter (matchAndRewrite tileOp rewriter))[k]? = some e ∧
        (emittedInserts rewriter (matchAndRewrite tileOp rewriter))[k]? = some i ∧
        (yieldedValues tileOp rewriter)[k]? = some y ∧
        (shellOf tileOp rewriter).getRegionIterArgs[k]? = some a ∧
        vals[k]? = some i.sliceResult ∧
        e.isExtractSlice = true ∧ i.isInsertSlice = true ∧
        e.descriptor?.isSome = true ∧ i.descriptor? = e.descriptor? ∧
        e.sliceSource? = some a ∧ i.sliceSource? = some y ∧ i.sliceDest? = some a) ∧
    (∃ fid lb ub step inits bid body yid vals,
      (replacementOps rewriter (matchAndRewrite tileOp rewriter)).getLast? =
        some (.scfFor fid lb ub step inits bid body) ∧
      inits.length = tileOp.outs.length ∧
      body.getLast? = some (.scfYield yid vals) ∧
      vals.length = tileOp.outs.length) := by
  refine ⟨by rw [matchAndRewrite_of_wellFormed tileOp rewriter hpre hwf], ?_, ?_, ?_, ?_⟩
  · rw [emittedExtracts_eq tileOp rewriter hpre hwf, length_loweredExtracts]
  · rw [emittedInserts_eq tileOp rewriter hpre hwf, length_loweredInserts tileOp rewriter hwf]
  · refine ⟨(loweredYield tileOp rewriter).id,
      (loweredInserts tileOp rewriter).map Operation.sliceResult, ?_, ?_, ?_⟩
    · rw [newlyCreated_eq tileOp rewriter hpre hwf, loweredCreated, List.getLast?_concat]
      rfl
    · rw [List.length_map, length_loweredInserts tileOp rewriter hwf]
    · intro k hk
      obtain ⟨m, y, a, ha, hy, he, -, hi⟩ := kth_extract_insert tileOp rewriter hwf k hk
      rw [emittedExtracts_eq tileOp rewriter hpre hwf,
        emittedInserts_eq tileOp rewriter hpre hwf]
      refine ⟨_, _, y, a, he, hi, hy, ha, ?_, rfl, rfl, rfl, rfl, rfl, rfl, rfl⟩
      rw [List.getElem?_map, hi]
      rfl
  · rw [replacementOps_eq tileOp rewriter hpre hwf, mapValuesList_eq_map, List.map_append,
      List.map_cons, List.map_nil, List.getLast?_concat]
    simp only [ForOp.toOperation, Operation.mapValues, loweredFor, shellOf, loweredBody,
      Option.some.injEq]
    refine ⟨_, _, _, _, _, _, _, (loweredYield tileOp rewriter).id,
      ((loweredInserts tileOp rewriter).map Operation.sliceResult).map
        (translate (resultPairs tileOp rewriter)), rfl, ?_, ?_, ?_⟩
    · simp
    · rw [mapValuesList_eq_map, List.map_append, List.map_cons, List.map_nil,
        List.getLast?_concat]
      rfl
    · simp [length_loweredInserts tileOp rewriter hwf]

/-- C8 (amended), at the sample construct. -/
theorem one_to_one_chain_witness :
    sampleTile.Precondition ∧ sampleTile.WellFormed ∧
    ((matchAndRewrite sampleTile sampleRewriter).completion = .returned .success ∧
    (emittedExtracts sampleRewriter (matchAndRewrite sampleTile sampleRewriter)).length =
      sampleTile.outs.length ∧
    (emittedInserts sampleRewriter (matchAndRewrite sampleTile sampleRewriter)).length =
      sampleTile.outs.length ∧
    (∃ yid vals,
      (newlyCreated sampleRewriter (matchAndRewrite sampleTile sampleRewriter)).getLast? =
        some (.scfYield yid vals) ∧
      vals.length = sampleTile.outs.length ∧
      ∀ k, k < sampleTile.outs.length → ∃ e i y a,
        (emittedExtracts sampleRewriter (matchAndRewrite sampleTile sampleRewriter))[k]? =
          some e ∧
        (emittedInserts sampleRewriter (matchAndRewrite sampleTile sampleRewriter))[k]? =
          some i ∧
        (yieldedValues sampleTile sampleRewriter)[k]? = some y ∧
        (shellOf sampleTile sampleRewriter).getRegionIterArgs[k]? = some a ∧
        vals[k]? = some i.sliceResult ∧
        e.isExtractSlice = true ∧ i.isInsertSlice = true ∧
        e.descriptor?.isSome = true ∧ i.descriptor? = e.descriptor? ∧
        e.sliceSource? = some a ∧ i.sliceSource? = some y ∧ i.sliceDest? = some a) ∧
    (∃ fid lb ub step inits bid body yid vals,
      (replacementOps sampleRewriter (matchAndRewrite sampleTile sampleRewriter)).getLast? =
        some (.scfFor fid lb ub step inits bid body) ∧
      inits.length = sampleTile.outs.length ∧
      body.getLast? = some (.scfYield yid vals) ∧
      vals.length = sampleTile.outs.length)) :=
  ⟨by decide, by decide, one_to_one_chain sampleTile sampleRewriter (by decide) (by decide)⟩

/-! ## C9 and C10: the boundary cases -/

/-- C9 (counterexample).  For the sample construct with total extent `T = 0` and step
`S = 1`, where `S > 0`, `T >= 0` and `S >= T`, the generated loop runs no iteration,
not one. -/
theorem no_iteration_T0_S1 :
    sampleTile.Precondition ∧ sampleTile.WellFormed ∧
      (generatedRun (fun _ s => s) (fun _ => ()) (sampleRuntime 0 1) sampleTile
        sampleRewriter).map (fun run => run.iterations) = some [] := by
  refine ⟨by decide, by decide, ?_⟩
  unfold generatedRun
  rw [sample_replacementOps]
  rfl

/-- C9 (amended).  For a construct of the shape of section 3, under the precondition
of section 4.1 and in scope, whose first output operand has leading extent `T` and
whose step is `S`, with `1 <= T <= S`: the generated loop runs exactly one iteration,
with induction variable 0, and in it the computed offset is 0 and the computed size
is `T`. -/
theorem single_iteration {τ : Type} (bodySem : Int → List τ → List τ) (tensor : Value → τ)
    (rt : Runtime) (tileOp : TileOp) (rewriter : PatternRewriter)
    (hpre : tileOp.Precondition) (hwf : tileOp.WellFormed) (hscope : InScope tileOp rewriter)
    (T S : Int) (dims : List Int)
    (hT : tileOp.outs.head?.bind rt.shape = some (T :: dims))
    (hS : rt.index tileOp.tile_sizes = some S) (h1 : 1 ≤ T) (hTS : T ≤ S) :
    (generatedRun bodySem tensor rt tileOp rewriter).map (fun run => run.iterations) =
      some [⟨0, some 0, some T⟩] := by
  rw [generatedRun_eq bodySem tensor rt tileOp rewriter hpre hwf hscope T S dims hT hS
    (by omega)]
  obtain ⟨n, hn⟩ : ∃ n, T.toNat = n + 1 := ⟨T.toNat - 1, by omega⟩
  have hrest : ∀ s : List τ, scfForExec bodySem T S n (0 + S) s = ([], s) :=
    fun s => scfForExec_of_le bodySem T S n (0 + S) s (by omega)
  have hlt : (0 : Int) < T := by omega
  simp only [hn, scfForExec, hlt, if_true, hrest, Option.map_some', List.map_cons,
    List.map_nil, Int.zero_mul, Int.sub_zero, Int.min_def, hTS]

/-- C9 (amended), at the sample construct with `T = 3` and `S = 3`. -/
theorem single_iteration_witness :
    sampleTile.Precondition ∧ sampleTile.WellFormed ∧ InScope sampleTile sampleRewriter ∧
      sampleTile.outs.head?.bind (sampleRuntime 3 3).shape = some (3 :: []) ∧
      (sampleRuntime 3 3).index sampleTile.tile_sizes = some 3 ∧
      (1 : Int) ≤ 3 ∧ (3 : Int) ≤ 3 ∧
      (generatedRun (fun _ s => s) (fun _ => ()) (sampleRuntime 3 3) sampleTile
        sampleRewriter).map (fun run => run.iterations) = some [⟨0, some 0, some 3⟩] :=
  ⟨by decide, by decide, by decide, rfl, rfl, by decide, by decide,
    single_iteration (fun _ s => s) (fun _ => ()) (sampleRuntime 3 3) sampleTile
      sampleRewriter (by decide) (by decide) (by decide) 3 3 [] rfl rfl (by decide)
      (by decide)⟩

/-- C10.  For a construct of the shape of section 3, under the precondition of
section 4.1 and in scope, whose first output operand has leading extent 0 and whose
step is `S > 0`: the generated loop runs no iteration and its results are the values
of the output operands of the construct, in order, whatever the body computes. -/
theorem empty_extent_keeps_operands {τ : Type} (bodySem : Int → List τ → List τ)
    (tensor : Value → τ) (rt : Runtime) (tileOp : TileOp) (rewriter : PatternRewriter)
    (hpre : tileOp.Precondition) (hwf : tileOp.WellFormed) (hscope : InScope tileOp rewriter)
    (S : Int) (dims : List Int)
    (hT : tileOp.outs.head?.bind rt.shape = some (0 :: dims))
    (hS : rt.index tileOp.tile_sizes = some S) (hpos : 0 < S) :
    (generatedRun bodySem tensor rt tileOp rewriter).map (fun run => run.iterations) =
        some [] ∧
      (generatedRun bodySem tensor rt tileOp rewriter).map (fun run => run.results) =
        some (tileOp.outs.map tensor) := by
  rw [generatedRun_eq bodySem tensor rt tileOp rewriter hpre hwf hscope 0 S dims hT hS hpos]
  exact ⟨rfl, rfl⟩

/-- C10, at the sample construct with step 3. -/
theorem empty_extent_keeps_operands_witness :
    sampleTile.Precondition ∧ sampleTile.WellFormed ∧ InScope sampleTile sampleRewriter ∧
      sampleTile.outs.head?.bind (sampleRuntime 0 3).shape = some (0 :: []) ∧
      (sampleRuntime 0 3).index sampleTile.tile_sizes = some 3 ∧ (0 : Int) < 3 ∧
      ((generatedRun (fun _ s => s) (fun v => v) (sampleRuntime 0 3) sampleTile
          sampleRewriter).map (fun run => run.iterations) = some [] ∧
        (generatedRun (fun _ s => s) (fun v => v) (sampleRuntime 0 3) sampleTile
          sampleRewriter).map (fun run => run.results) =
          some (sampleTile.outs.map (fun v => v))) :=
  ⟨by decide, by decide, by decide, rfl, rfl, by decide,
    empty_extent_keeps_operands (fun _ s => s) (fun v => v) (sampleRuntime 0 3) sampleTile
      sampleRewriter (by decide) (by decide) (by decide) 3 [] rfl rfl (by decide)⟩

/-! ## C12: the loop shell -/

/-- C12.  For every construct under the precondition of section 4.1 the output
operands have a first element `front`, and the run first creates, in this order, the
constant 0, the constant 1, the query of dimension 0 (the result of the constant 0) of
`front`, and the loop: its lower bound is the result of the constant 0, its upper
bound the result of the dimension query, its step the step operand of the construct
as it is, its initial loop-carried values the output operands in their order, and its
body is empty when it is created. -/
theorem loop_shell (tileOp : TileOp) (rewriter : PatternRewriter)
    (hpre : tileOp.Precondition) :
    ∃ front rest, tileOp.outs.head? = some front ∧
      newlyCreated rewriter (matchAndRewrite tileOp rewriter) =
        [.constantIndex rewriter.nextId 0,
          .constantIndex (rewriter.nextId + 1) 1,
          .dim (rewriter.nextId + 2) front (resultOf rewriter.nextId .index),
          .scfFor (rewriter.nextId + 3) (resultOf rewriter.nextId .index)
            (resultOf (rewriter.nextId + 2) .index) tileOp.tile_sizes tileOp.outs
            (rewriter.nextId + 4) []] ++ rest := by
  obtain ⟨rest, hrest⟩ := created_of_precondition tileOp rewriter hpre
  cases ho : tileOp.outs with
  | nil =>
      obtain ⟨hres, hlen, -⟩ := hpre
      rw [ho] at hlen
      simp at hlen
      omega
  | cons front tail =>
      refine ⟨front, geometryOps tileOp rewriter ++ rest, rfl, ?_⟩
      rw [newlyCreated, hrest, List.drop_left, ← ho]
      simp [boundOps, shellOf, ForOp.toOperation, zeroOf, totalSizeOf, ho]

/-- C12, at the sample construct. -/
theorem loop_shell_witness :
    sampleTile.Precondition ∧
    ∃ front rest, sampleTile.outs.head? = some front ∧
      newlyCreated sampleRewriter (matchAndRewrite sampleTile sampleRewriter) =
        [.constantIndex sampleRewriter.nextId 0,
          .constantIndex (sampleRewriter.nextId + 1) 1,
          .dim (sampleRewriter.nextId + 2) front (resultOf sampleRewriter.nextId .index),
          .scfFor (sampleRewriter.nextId + 3) (resultOf sampleRewriter.nextId .index)
            (resultOf (sampleRewriter.nextId + 2) .index) sampleTile.tile_sizes sampleTile.outs
            (sampleRewriter.nextId + 4) []] ++ rest :=
  ⟨by decide, loop_shell sampleTile sampleRewriter (by decide)⟩

/-! ## C17: the pattern never signals failure -/

/-- C17 as stated fails.  The construct `sampleTileRank0` passes the two assertions
of section 4.1, and its output operand is a tensor of rank 0: the run does not
return success, it aborts where the front of the empty list of offsets is taken. -/
theorem rank_zero_output_aborts :
    sampleTileRank0.Precondition ∧
    (matchAndRewrite sampleTileRank0 sampleRewriter).completion = .aborted .frontOfEmpty := by
  refine ⟨by decide, ?_⟩
  rw [matchAndRewrite_geometry sampleTileRank0 sampleRewriter (by decide)]
  simp [materializeExtracts, extractSubtensor, shellOf, ForOp.getRegionIterArgs, numbered,
    sampleTileRank0, sampleTile, Value.getType]

/-- C17 (amended).  No run of `matchAndRewrite` returns failure, whatever the
construct and the rewriter state.  For a construct that passes the two assertions of
section 4.1 the run returns success exactly when every output operand is a ranked
tensor with a leading dimension, the entry block of the body has two arguments more
than there are output operands and the body ends in a yield; otherwise the run
aborts. -/
theorem never_signals_failure (tileOp : TileOp) (rewriter : PatternRewriter) :
    (matchAndRewrite tileOp rewriter).completion ≠ .returned .failure ∧
    (tileOp.Precondition →
      ((matchAndRewrite tileOp rewriter).completion = .returned .success ↔
        (∀ v ∈ tileOp.outs, v.getType.hasLeadingDim = true) ∧
          tileOp.argTypes.length = 2 + tileOp.outs.length ∧ tileOp.endsInYield = true) ∧
      ((matchAndRewrite tileOp rewriter).completion = .returned .success ∨
        ∃ a, (matchAndRewrite tileOp rewriter).completion = .aborted a)) := by
  have hne := completion_ne_failure tileOp rewriter
  refine ⟨hne, fun hpre => ⟨success_iff_shape tileOp rewriter hpre, ?_⟩⟩
  cases hc : (matchAndRewrite tileOp rewriter).completion with
  | returned result =>
      cases result with
      | success => exact Or.inl rfl
      | failure => exact absurd hc hne
  | aborted a => exact Or.inr ⟨a, rfl⟩

/-- C17 (amended), at the sample construct. -/
theorem never_signals_failure_witness :
    sampleTile.Precondition ∧
    ((∀ v ∈ sampleTile.outs, v.getType.hasLeadingDim = true) ∧
      sampleTile.argTypes.length = 2 + sampleTile.outs.length ∧
      sampleTile.endsInYield = true) ∧
    (matchAndRewrite sampleTile sampleRewriter).completion = .returned .success :=
  ⟨by decide, by decide,
    ((never_signals_failure sampleTile sampleRewriter).2 (by decide)).1.mpr (by decide)⟩

/-! ## C16: the types of the loop-carried state -/

/-- C16 as stated fails.  The construct `sampleTileShortYield` passes the two
assertions of section 4.1 and the run returns success: the fourth created operation
is the loop, which has two results, and the terminator `scf.yield`, the last created
operation, has one operand, so its operand types are not the result types of the
loop. -/
theorem short_yield_breaks_types :
    sampleTileShortYield.Precondition ∧
    (matchAndRewrite sampleTileShortYield sampleRewriter).completion = .returned .success ∧
    (newlyCreated sampleRewriter (matchAndRewrite sampleTileShortYield sampleRewriter))[3]? =
      some (shellOf sampleTileShortYield sampleRewriter).toOperation ∧
    ((shellOf sampleTileShortYield sampleRewriter).getResults.map Value.getType).length = 2 ∧
    ∃ yid vals,
      (newlyCreated sampleRewriter
        (matchAndRewrite sampleTileShortYield sampleRewriter)).getLast? =
        some (.scfYield yid vals) ∧
      (vals.map Value.getType).length = 1 ∧
      vals.map Value.getType ≠
        (shellOf sampleTileShortYield sampleRewriter).getResults.map Value.getType := by
  obtain ⟨hlog, hins⟩ := sampleTileShortYield_run
  have hres : ((shellOf sampleTileShortYield sampleRewriter).getResults.map
      Value.getType).length = 2 := by
    rw [map_getType_getResults]
    rfl
  have hvals : (((loweredInserts sampleTileShortYield sampleRewriter).map
      Operation.sliceResult).map Value.getType).length = 1 := by
    rw [List.length_map, List.length_map, hins]
  refine ⟨by decide, ?_, ?_, hres, ?_⟩
  · exact (success_iff_shape sampleTileShortYield sampleRewriter (by decide)).mpr
      ⟨by decide, by decide, by decide⟩
  · rw [hlog]
    simp [loweredCreated, boundOps]
  · refine ⟨(loweredYield sampleTileShortYield sampleRewriter).id,
      (loweredInserts sampleTileShortYield sampleRewriter).map Operation.sliceResult, ?_, hvals,
      ?_⟩
    · rw [hlog, loweredCreated, List.getLast?_concat]
      rfl
    · intro heq
      have := congrArg List.length heq
      rw [hvals, hres] at this
      omega

/-- C16 (amended).  For a construct of the shape of section 3 under the precondition of section
4.1 and every `k` below the number of output operands: the `k`-th created insertion
writes into the `k`-th loop-carried block argument, and its result type is the type
of that block argument, which is the type of the `k`-th output operand.  The fourth
created operation is the loop, and the operand types of the terminator `scf.yield`,
the last created operation, are the result types of the loop position by position,
which are the types of the output operands. -/
theorem carried_types_preserved (tileOp : TileOp) (rewriter : PatternRewriter)
    (hpre : tileOp.Precondition) (hwf : tileOp.WellFormed) :
    (∀ (k : Nat), k < tileOp.outs.length → ∃ i a out,
      (emittedInserts rewriter (matchAndRewrite tileOp rewriter))[k]? = some i ∧
      (shellOf tileOp rewriter).getRegionIterArgs[k]? = some a ∧
      tileOp.outs[k]? = some out ∧
      i.isInsertSlice = true ∧ i.sliceDest? = some a ∧
      i.sliceResult.getType = a.getType ∧ a.getType = out.getType) ∧
    (newlyCreated rewriter (matchAndRewrite tileOp rewriter))[3]? =
      some (shellOf tileOp rewriter).toOperation ∧
    ∃ yid vals,
      (newlyCreated rewriter (matchAndRewrite tileOp rewriter)).getLast? =
        some (.scfYield yid vals) ∧
      vals.map Value.getType = (shellOf tileOp rewriter).getResults.map Value.getType ∧
      (shellOf tileOp rewriter).getResults.map Value.getType =
        tileOp.outs.map Value.getType := by
  refine ⟨?_, ?_, ?_⟩
  · intro k hk
    rw [emittedInserts_eq tileOp rewriter hpre hwf]
    exact kth_insert_type tileOp rewriter hwf k hk
  · rw [newlyCreated_eq tileOp rewriter hpre hwf]
    simp [loweredCreated, boundOps]
  · refine ⟨(loweredYield tileOp rewriter).id,
      (loweredInserts tileOp rewriter).map Operation.sliceResult, ?_, ?_, ?_⟩
    · rw [newlyCreated_eq tileOp rewriter hpre hwf, loweredCreated, List.getLast?_concat]
      rfl
    · rw [map_getType_loweredInserts tileOp rewriter hwf, map_getType_getResults]
      rfl
    · rw [map_getType_getResults]
      rfl

/-- C16 (amended), at the sample construct with two outputs of different rank. -/
theorem carried_types_preserved_witness :
    sampleTile2.Precondition ∧ sampleTile2.WellFormed ∧
    ((∀ (k : Nat), k < sampleTile2.outs.length → ∃ i a out,
      (emittedInserts sampleRewriter (matchAndRewrite sampleTile2 sampleRewriter))[k]? =
        some i ∧
      (shellOf sampleTile2 sampleRewriter).getRegionIterArgs[k]? = some a ∧
      sampleTile2.outs[k]? = some out ∧
      i.isInsertSlice = true ∧ i.sliceDest? = some a ∧
      i.sliceResult.getType = a.getType ∧ a.getType = out.getType) ∧
    (newlyCreated sampleRewriter (matchAndRewrite sampleTile2 sampleRewriter))[3]? =
      some (shellOf sampleTile2 sampleRewriter).toOperation ∧
    ∃ yid vals,
      (newlyCreated sampleRewriter (matchAndRewrite sampleTile2 sampleRewriter)).getLast? =
        some (.scfYield yid vals) ∧
      vals.map Value.getType =
        (shellOf sampleTile2 sampleRewriter).getResults.map Value.getType ∧
      (shellOf sampleTile2 sampleRewriter).getResults.map Value.getType =
        sampleTile2.outs.map Value.getType) :=
  ⟨by decide, by decide,
    carried_types_preserved sampleTile2 sampleRewriter (by decide) (by decide)⟩

/-! ## C15: several outputs share one offset and one size -/

/-- C15.  For a construct of the shape of section 3 under the precondition of section
4.1, with any number of output operands (two or more included) of any ranks: the run
creates exactly one product `mul`, the computation of `offset`, and exactly one
`affine.min`, the computation of `size`; it creates one extraction per output
operand; and for every `k` the `k`-th extraction reads the `k`-th loop-carried block
argument `a`, has the result of `mul` as its offset 0 and the result of `min` as its
size 0, and has as many offsets, sizes and strides as the rank of `a`, which is at
least 1. -/
theorem multi_output_sharing (tileOp : TileOp) (rewriter : PatternRewriter)
    (hpre : tileOp.Precondition) (hwf : tileOp.WellFormed) :
    ∃ mul min,
      (newlyCreated rewriter (matchAndRewrite tileOp rewriter)).filter Operation.isAffineMul =
        [mul] ∧
      (newlyCreated rewriter (matchAndRewrite tileOp rewriter)).filter Operation.isAffineMin =
        [min] ∧
      (emittedExtracts rewriter (matchAndRewrite tileOp rewriter)).length =
        tileOp.outs.length ∧
      ∀ (k : Nat), k < tileOp.outs.length → ∃ e a desc,
        (emittedExtracts rewriter (matchAndRewrite tileOp rewriter))[k]? = some e ∧
        (shellOf tileOp rewriter).getRegionIterArgs[k]? = some a ∧
        e.sliceSource? = some a ∧ e.descriptor? = some desc ∧
        desc.offsets[0]? = some (resultOf mul.id .index) ∧
        desc.sizes[0]? = some (resultOf min.id .index) ∧
        1 ≤ a.getType.rank ∧
        desc.offsets.length = a.getType.rank ∧ desc.sizes.length = a.getType.rank ∧
        desc.strides.length = a.getType.rank := by
  refine ⟨.affineApply (rewriter.nextId + 5) .mul (shellOf tileOp rewriter).getInductionVar
      tileOp.tile_sizes,
    .affineMin (rewriter.nextId + 7) [resultOf (rewriter.nextId + 6) .index, tileOp.tile_sizes],
    ?_, ?_, ?_, ?_⟩
  · rw [newlyCreated_eq tileOp rewriter hpre hwf]
    exact filter_mul_loweredCreated tileOp rewriter
  · rw [newlyCreated_eq tileOp rewriter hpre hwf]
    exact filter_min_loweredCreated tileOp rewriter
  · rw [emittedExtracts_eq tileOp rewriter hpre hwf, length_loweredExtracts]
  · intro k hk
    obtain ⟨m, y, a, ha, -, he, -, -⟩ := kth_extract_insert tileOp rewriter hwf k hk
    have hrank : 1 ≤ a.getType.rank :=
      rank_pos_of_hasLeadingDim _
        (iterArgs_hasLeadingDim tileOp rewriter hwf.1 a (List.mem_iff_getElem?.mpr ⟨k, ha⟩))
    rw [emittedExtracts_eq tileOp rewriter hpre hwf]
    refine ⟨_, a, _, he, ha, rfl, rfl, ?_, ?_, hrank, ?_, ?_, ?_⟩
    · simp [Operation.id, offsetOf]
    · simp [Operation.id, sizeOf]
    · simp; omega
    · simp [length_dimVals]; omega
    · simp

/-- C15, at the sample construct with two outputs, of rank 1 and of rank 2. -/
theorem multi_output_sharing_witness :
    sampleTile2.Precondition ∧ sampleTile2.WellFormed ∧
    ∃ mul min,
      (newlyCreated sampleRewriter (matchAndRewrite sampleTile2 sampleRewriter)).filter
        Operation.isAffineMul = [mul] ∧
      (newlyCreated sampleRewriter (matchAndRewrite sampleTile2 sampleRewriter)).filter
        Operation.isAffineMin = [min] ∧
      (emittedExtracts sampleRewriter (matchAndRewrite sampleTile2 sampleRewriter)).length =
        sampleTile2.outs.length ∧
      ∀ (k : Nat), k < sampleTile2.outs.length → ∃ e a desc,
        (emittedExtracts sampleRewriter (matchAndRewrite sampleTile2 sampleRewriter))[k]? =
          some e ∧
        (shellOf sampleTile2 sampleRewriter).getRegionIterArgs[k]? = some a ∧
        e.sliceSource? = some a ∧ e.descriptor? = some desc ∧
        desc.offsets[0]? = some (resultOf mul.id .index) ∧
        desc.sizes[0]? = some (resultOf min.id .index) ∧
        1 ≤ a.getType.rank ∧
        desc.offsets.length = a.getType.rank ∧ desc.sizes.length = a.getType.rank ∧
        desc.strides.length = a.getType.rank :=
  ⟨by decide, by decide, multi_output_sharing sampleTile2 sampleRewriter (by decide) (by decide)⟩

/-! ## C13: the splice of the body -/

/-- C13.  For a construct in scope, of the shape of section 3 (`n` output operands, an
entry block with `2 + n` arguments, a body that ends in a yield) under the
precondition of section 4.1: the first half of the pattern hands the second half the
values `offset` and `size` and the results `exs` of the created extractions, in
creation order; the list given to `mergeBlocks` is `[offset, size] ++ exs`, of length
`2 + n`, and the merge accepts it and appends the body of the construct, with the
block arguments zipped with that list replaced in turn, to the loop body that holds
the geometry, the dimension queries and the extractions.  In the block after the
rewrite the loop body starts with the geometry, the dimension queries and the
extractions, followed by the statements of the construct ahead of its yield, in
their order, with every operand `v` replaced by `τ v`: `τ` maps the `j`-th block
argument of the construct to the `j`-th entry of the list (argument 0 to `offset`,
argument 1 to `size`, argument `2 + k` to the result of the `k`-th extraction) and
leaves every value alone that is neither a block argument nor a result of the
construct. -/
theorem body_splice (tileOp : TileOp) (rewriter : PatternRewriter)
    (hpre : tileOp.Precondition) (hwf : tileOp.WellFormed) (hscope : InScope tileOp rewriter) :
    ∃ (exs : List Value) (τ : Value → Value),
      exs = (emittedExtracts rewriter (matchAndRewrite tileOp rewriter)).map
        Operation.sliceResult ∧
      exs.length = tileOp.outs.length ∧
      ([offsetOf rewriter, sizeOf rewriter] ++ exs).length = 2 + tileOp.outs.length ∧
      matchAndRewrite tileOp rewriter =
        spliceAndWriteBack tileOp (sliceRewriter tileOp rewriter) (sliceFor tileOp rewriter)
          (offsetOf rewriter) (sizeOf rewriter) exs ∧
      (sliceFor tileOp rewriter).body =
        geometryOps tileOp rewriter ++ loweredSliceOps tileOp rewriter ∧
      mergeBlocks tileOp (sliceFor tileOp rewriter) ([offsetOf rewriter, sizeOf rewriter] ++ exs) =
        .ok { sliceFor tileOp rewriter with
              body := geometryOps tileOp rewriter ++ loweredSliceOps tileOp rewriter ++
                replaceAllUsesWith
                  (tileOp.getArguments.zip ([offsetOf rewriter, sizeOf rewriter] ++ exs))
                  tileOp.body } ∧
      (∀ (j : Nat) (arg new : Value), tileOp.getArguments[j]? = some arg →
        ([offsetOf rewriter, sizeOf rewriter] ++ exs)[j]? = some new → τ arg = new) ∧
      (∀ v, v ∉ tileOp.getArguments → v ∉ tileOp.getResults → τ v = v) ∧
      ∃ fid lb ub step inits bid rest,
        (replacementOps rewriter (matchAndRewrite tileOp rewriter)).getLast? =
          some (.scfFor fid lb ub step inits bid
            (geometryOps tileOp rewriter ++ loweredSliceOps tileOp rewriter ++
              mapValuesList τ tileOp.body.dropLast ++ rest)) := by
  have hfresh := hscope.1
  have hlen := length_bbArgsTranslated tileOp rewriter
  refine ⟨(loweredExtracts tileOp rewriter).map Operation.sliceResult,
    translate (resultPairs tileOp rewriter) ∘ translate (mergePairs tileOp rewriter),
    by rw [emittedExtracts_eq tileOp rewriter hpre hwf],
    by rw [List.length_map, length_loweredExtracts], hlen,
    matchAndRewrite_splice tileOp rewriter hpre hwf.1, rfl, ?_, ?_, ?_, ?_⟩
  · have hargs : ([offsetOf rewriter, sizeOf rewriter] ++
        (loweredExtracts tileOp rewriter).map Operation.sliceResult).length =
        tileOp.argTypes.length := by
      rw [hwf.2.1]
      exact hlen
    simp only [mergeBlocks]
    rw [if_pos hargs]
    rfl
  · intro j arg new harg hnew
    have h1 := translate_mergePairs_arg tileOp rewriter j arg new harg hnew
    simp only [Function.comp, h1]
    apply translate_resultPairs_of_not_mem
    intro hmem
    obtain ⟨i, t, h⟩ := owner_of_mem_getResults tileOp _ hmem
    have hn := List.mem_iff_getElem?.mpr ⟨j, hnew⟩
    simp only [List.cons_append, List.nil_append, List.mem_cons, List.mem_map] at hn
    rcases hn with rfl | rfl | ⟨e, he, rfl⟩
    · simp [offsetOf, resultOf] at h
      omega
    · simp [sizeOf, resultOf] at h
      omega
    · have hid : rewriter.nextId + 8 ≤ e.id := by
        have h2 := List.mem_map_of_mem Operation.id (extractOps_subset _ _ _ _ _ _ e he)
        rw [ids_sliceOps, List.mem_range'_1] at h2
        exact h2.1
      have hex : e.isExtractSlice = true := by
        have hf : e ∈ (loweredSliceOps tileOp rewriter).filter Operation.isExtractSlice := by
          rw [loweredSliceOps, filter_sliceOps]; exact he
        exact (List.mem_filter.mp hf).2
      cases e <;> simp [Operation.isExtractSlice] at hex
      simp [Operation.sliceResult, resultOf, Operation.id] at h hid
      omega
  · intro v hargs hres
    simp only [Function.comp, translate_mergePairs_of_not_mem tileOp rewriter v hargs,
      translate_resultPairs_of_not_mem tileOp rewriter v hres]
  · rw [replacementOps_spliced tileOp rewriter hpre hwf hscope, List.getLast?_concat]
    exact ⟨_, _, _, _, _, _, _, rfl⟩

/-- C13, at the sample construct. -/
theorem body_splice_witness :
    sampleTile.Precondition ∧ sampleTile.WellFormed ∧ InScope sampleTile sampleRewriter ∧
    ∃ (exs : List Value) (τ : Value → Value),
      exs = (emittedExtracts sampleRewriter (matchAndRewrite sampleTile sampleRewriter)).map
        Operation.sliceResult ∧
      exs.length = sampleTile.outs.length ∧
      ([offsetOf sampleRewriter, sizeOf sampleRewriter] ++ exs).length =
        2 + sampleTile.outs.length ∧
      matchAndRewrite sampleTile sampleRewriter =
        spliceAndWriteBack sampleTile (sliceRewriter sampleTile sampleRewriter)
          (sliceFor sampleTile sampleRewriter) (offsetOf sampleRewriter)
          (sizeOf sampleRewriter) exs ∧
      (sliceFor sampleTile sampleRewriter).body =
        geometryOps sampleTile sampleRewriter ++ loweredSliceOps sampleTile sampleRewriter ∧
      mergeBlocks sampleTile (sliceFor sampleTile sampleRewriter)
          ([offsetOf sampleRewriter, sizeOf sampleRewriter] ++ exs) =
        .ok { sliceFor sampleTile sampleRewriter with
              body := geometryOps sampleTile sampleRewriter ++
                loweredSliceOps sampleTile sampleRewriter ++
                replaceAllUsesWith
                  (sampleTile.getArguments.zip
                    ([offsetOf sampleRewriter, sizeOf sampleRewriter] ++ exs))
                  sampleTile.body } ∧
      (∀ (j : Nat) (arg new : Value), sampleTile.getArguments[j]? = some arg →
        ([offsetOf sampleRewriter, sizeOf sampleRewriter] ++ exs)[j]? = some new →
        τ arg = new) ∧
      (∀ v, v ∉ sampleTile.getArguments → v ∉ sampleTile.getResults → τ v = v) ∧
      ∃ fid lb ub step inits bid rest,
        (replacementOps sampleRewriter (matchAndRewrite sampleTile sampleRewriter)).getLast? =
          some (.scfFor fid lb ub step inits bid
            (geometryOps sampleTile sampleRewriter ++ loweredSliceOps sampleTile sampleRewriter ++
              mapValuesList τ sampleTile.body.dropLast ++ rest)) :=
  ⟨by decide, by decide, by decide,
    body_splice sampleTile sampleRewriter (by decide) (by decide) (by decide)⟩

/-! ## C14: the loop body has one terminator -/

/-- C14.  For a construct in scope, of the shape of section 3 (its body ends in a
yield, and, as in every block of the IR, no statement ahead of the last is a
terminator) under the precondition of section 4.1: in the block after the rewrite
the body of the loop is the geometry, the dimension queries and extractions, the
statements of the construct ahead of its yield (`spliced`, with the identities those
statements had), the insertions (`inserts`, with the identities of the created
insertions, one per output operand) and, last, the terminator `scf.yield`.  No
statement at the top level of the loop body is a `tile_yield`, the only `scf.yield`
among them is the last statement, its operands are the results of the insertions in
their order, and the `k`-th insertion writes into the `k`-th loop-carried block
argument. -/
theorem unique_terminator (tileOp : TileOp) (rewriter : PatternRewriter)
    (hpre : tileOp.Precondition) (hwf : tileOp.WellFormed) (hscope : InScope tileOp rewriter)
    (hterm : tileOp.TerminatorLast) :
    ∃ fid lb ub step inits bid body spliced inserts yid vals,
      (replacementOps rewriter (matchAndRewrite tileOp rewriter)).getLast? =
        some (.scfFor fid lb ub step inits bid body) ∧
      body = geometryOps tileOp rewriter ++ loweredSliceOps tileOp rewriter ++ spliced ++
        inserts ++ [.scfYield yid vals] ∧
      spliced.map Operation.id = tileOp.body.dropLast.map Operation.id ∧
      inserts.map Operation.id =
        (emittedInserts rewriter (matchAndRewrite tileOp rewriter)).map Operation.id ∧
      inserts.length = tileOp.outs.length ∧
      body.filter Operation.isTileYield = [] ∧
      body.filter Operation.isScfYield = [.scfYield yid vals] ∧
      body.getLast? = some (.scfYield yid vals) ∧
      vals = inserts.map Operation.sliceResult ∧
      ∀ (k : Nat), k < tileOp.outs.length → ∃ i a,
        inserts[k]? = some i ∧ (shellOf tileOp rewriter).getRegionIterArgs[k]? = some a ∧
        i.isInsertSlice = true ∧ i.sliceDest? = some a := by
  have hfresh := hscope.1
  have hspl : (mapValuesList
      (translate (resultPairs tileOp rewriter) ∘ translate (mergePairs tileOp rewriter))
      tileOp.body.dropLast).filter Operation.isTileYield = [] ∧
      (mapValuesList
      (translate (resultPairs tileOp rewriter) ∘ translate (mergePairs tileOp rewriter))
      tileOp.body.dropLast).filter Operation.isScfYield = [] := by
    constructor
    · apply filter_mapValuesList_nil _ Operation.isTileYield_mapValues
      rw [List.filter_eq_nil_iff]
      intro op hop
      simp [(hterm op hop).1]
    · apply filter_mapValuesList_nil _ Operation.isScfYield_mapValues
      rw [List.filter_eq_nil_iff]
      intro op hop
      simp [(hterm op hop).2]
  have hS1 := filter_loweredSliceOps_nil Operation.isTileYield (fun _ _ => rfl)
    (fun _ _ _ => rfl) (fun _ _ _ _ _ _ _ _ _ => rfl) tileOp rewriter
  have hS2 := filter_loweredSliceOps_nil Operation.isScfYield (fun _ _ => rfl)
    (fun _ _ _ => rfl) (fun _ _ _ _ _ _ _ _ _ => rfl) tileOp rewriter
  have hI1 := filter_mapValuesList_nil _ Operation.isTileYield_mapValues
    (translate (resultPairs tileOp rewriter)) _
    (filter_loweredInserts_nil Operation.isTileYield (fun _ _ _ _ _ _ _ _ _ _ => rfl)
      tileOp rewriter)
  have hI2 := filter_mapValuesList_nil _ Operation.isScfYield_mapValues
    (translate (resultPairs tileOp rewriter)) _
    (filter_loweredInserts_nil Operation.isScfYield (fun _ _ _ _ _ _ _ _ _ _ => rfl)
      tileOp rewriter)
  refine ⟨rewriter.nextId + 3, zeroOf rewriter, totalSizeOf rewriter, tileOp.tile_sizes,
    tileOp.outs, rewriter.nextId + 4, _,
    mapValuesList
      (translate (resultPairs tileOp rewriter) ∘ translate (mergePairs tileOp rewriter))
      tileOp.body.dropLast,
    mapValuesList (translate (resultPairs tileOp rewriter)) (loweredInserts tileOp rewriter),
    (loweredYield tileOp rewriter).id,
    ((loweredInserts tileOp rewriter).map Operation.sliceResult).map
      (translate (resultPairs tileOp rewriter)),
    ?_, rfl, ?_, ?_, ?_, ?_, ?_, ?_, ?_, ?_⟩
  · rw [replacementOps_spliced tileOp rewriter hpre hwf hscope, List.getLast?_concat,
      mapValuesList_append]
    simp only [← List.append_assoc]
    rfl
  · exact map_id_mapValuesList _ _
  · rw [map_id_mapValuesList, emittedInserts_eq tileOp rewriter hpre hwf]
  · rw [mapValuesList_eq_map, List.length_map, length_loweredInserts tileOp rewriter hwf]
  · simp only [List.filter_append, hspl.1, hS1, hI1]
    simp [geometryOps, Operation.isTileYield]
  · simp only [List.filter_append, hspl.2, hS2, hI2]
    simp [geometryOps, Operation.isScfYield]
  · rw [List.getLast?_concat]
  · exact map_translate_insertResults tileOp rewriter hfresh
  · intro k hk
    obtain ⟨m, y, a, ha, -, -, -, hi⟩ := kth_extract_insert tileOp rewriter hwf k hk
    refine ⟨(insertOpFor (rewriter.nextId + 8 + (loweredSliceOps tileOp rewriter).length + k)
        (extractOpAt (zeroOf rewriter) (oneOf rewriter) (offsetOf rewriter) (sizeOf rewriter) m a)
        y a).mapValues (translate (resultPairs tileOp rewriter)), a, ?_, ha, ?_, ?_⟩
    · rw [mapValuesList_eq_map, List.getElem?_map, hi]
      rfl
    · rfl
    · obtain ⟨i, ty, -, rfl⟩ := mem_numbered _ _ _ a (List.mem_iff_getElem?.mpr ⟨k, ha⟩)
      simp [insertOpFor, extractOpAt, Operation.mapValues, Operation.sliceDest?,
        translate_resultPairs_blockArg]

/-- C14, at the sample construct. -/
theorem unique_terminator_witness :
    sampleTile.Precondition ∧ sampleTile.WellFormed ∧ InScope sampleTile sampleRewriter ∧
    sampleTile.TerminatorLast ∧
    ∃ fid lb ub step inits bid body spliced inserts yid vals,
      (replacementOps sampleRewriter (matchAndRewrite sampleTile sampleRewriter)).getLast? =
        some (.scfFor fid lb ub step inits bid body) ∧
      body = geometryOps sampleTile sampleRewriter ++ loweredSliceOps sampleTile sampleRewriter ++
        spliced ++ inserts ++ [.scfYield yid vals] ∧
      spliced.map Operation.id = sampleTile.body.dropLast.map Operation.id ∧
      inserts.map Operation.id =
        (emittedInserts sampleRewriter (matchAndRewrite sampleTile sampleRewriter)).map
          Operation.id ∧
      inserts.length = sampleTile.outs.length ∧
      body.filter Operation.isTileYield = [] ∧
      body.filter Operation.isScfYield = [.scfYield yid vals] ∧
      body.getLast? = some (.scfYield yid vals) ∧
      vals = inserts.map Operation.sliceResult ∧
      ∀ (k : Nat), k < sampleTile.outs.length → ∃ i a,
        inserts[k]? = some i ∧ (shellOf sampleTile sampleRewriter).getRegionIterArgs[k]? = some a ∧
        i.isInsertSlice = true ∧ i.sliceDest? = some a :=
  ⟨by decide, by decide, by decide, by decide,
    unique_terminator sampleTile sampleRewriter (by decide) (by decide) (by decide)
      (by decide)⟩

/-! ## C11: the search after a rewrite -/

/-- C11 as stated fails.  In a block that holds `sampleTile` and, behind it,
`sampleSibling`, the run on `sampleTile` returns success, and the search over the
rewritten block still finds a tile operation, the one with identity 20. -/
theorem second_construct_remains :
    (matchAndRewrite sampleTile sampleRewriterTwo).completion = .returned .success ∧
    (tileOpsIn ((matchAndRewrite sampleTile sampleRewriterTwo).rewriter.before ++
      (matchAndRewrite sampleTile sampleRewriterTwo).rewriter.after)).map TileOp.id = [20] := by
  have hc : (matchAndRewrite sampleTile sampleRewriterTwo).completion = .returned .success :=
    congrArg Outcome.completion
      (matchAndRewrite_of_wellFormed sampleTile sampleRewriterTwo (by decide) (by decide))
  refine ⟨hc, ?_⟩
  rw [tileIds_rewritten sampleTile sampleRewriterTwo hc]
  decide

/-- C11 (amended).  After a run of `matchAndRewrite` that returned success, the
search over the rewritten block finds the tile operations the block held apart from
the rewritten construct, in their order: those ahead of the construct, those nested
in its body, which is now in the loop, and those behind it.  Before the run the
search found these and the construct.  So the search finds none after the run
exactly when the construct was the only tile operation of the block and held none
in its body. -/
theorem search_after_rewrite (tileOp : TileOp) (rewriter : PatternRewriter)
    (hsucc : (matchAndRewrite tileOp rewriter).completion = .returned .success) :
    (tileOpsIn ((matchAndRewrite tileOp rewriter).rewriter.before ++
        (matchAndRewrite tileOp rewriter).rewriter.after)).map TileOp.id =
      (tileOpsIn rewriter.before).map TileOp.id ++ (tileOpsIn tileOp.body).map TileOp.id ++
        (tileOpsIn rewriter.after).map TileOp.id ∧
    (tileOpsIn (rewriter.before ++ [tileOp.toOperation] ++ rewriter.after)).map TileOp.id =
      (tileOpsIn rewriter.before).map TileOp.id ++
        tileOp.id :: ((tileOpsIn tileOp.body).map TileOp.id ++
          (tileOpsIn rewriter.after).map TileOp.id) ∧
    (tileOpsIn ((matchAndRewrite tileOp rewriter).rewriter.before ++
        (matchAndRewrite tileOp rewriter).rewriter.after) = [] ↔
      tileOpsIn rewriter.before = [] ∧ tileOpsIn tileOp.body = [] ∧
        tileOpsIn rewriter.after = []) := by
  have hids := tileIds_rewritten tileOp rewriter hsucc
  refine ⟨?_, ?_, ?_⟩
  · rw [hids, List.map_append, List.map_append]
  · rw [tileOpsIn_append, tileOpsIn_append, tileOpsIn_toOperation]
    simp
  · constructor
    · intro h
      rw [h] at hids
      simpa [and_assoc] using hids.symm
    · rintro ⟨h1, h2, h3⟩
      rw [h1, h2, h3] at hids
      simpa using hids

/-- C11 (amended), at the sample block with two tile operations. -/
theorem search_after_rewrite_witness :
    (matchAndRewrite sampleTile sampleRewriterTwo).completion = .returned .success ∧
    ((tileOpsIn ((matchAndRewrite sampleTile sampleRewriterTwo).rewriter.before ++
        (matchAndRewrite sampleTile sampleRewriterTwo).rewriter.after)).map TileOp.id =
      (tileOpsIn sampleRewriterTwo.before).map TileOp.id ++
        (tileOpsIn sampleTile.body).map TileOp.id ++
        (tileOpsIn sampleRewriterTwo.after).map TileOp.id ∧
    (tileOpsIn (sampleRewriterTwo.before ++ [sampleTile.toOperation] ++
        sampleRewriterTwo.after)).map TileOp.id =
      (tileOpsIn sampleRewriterTwo.before).map TileOp.id ++
        sampleTile.id :: ((tileOpsIn sampleTile.body).map TileOp.id ++
          (tileOpsIn sampleRewriterTwo.after).map TileOp.id) ∧
    (tileOpsIn ((matchAndRewrite sampleTile sampleRewriterTwo).rewriter.before ++
        (matchAndRewrite sampleTile sampleRewriterTwo).rewriter.after) = [] ↔
      tileOpsIn sampleRewriterTwo.before = [] ∧ tileOpsIn sampleTile.body = [] ∧
        tileOpsIn sampleRewriterTwo.after = [])) :=
  ⟨congrArg Outcome.completion
      (matchAndRewrite_of_wellFormed sampleTile sampleRewriterTwo (by decide) (by decide)),
    search_after_rewrite sampleTile sampleRewriterTwo
      (congrArg Outcome.completion
        (matchAndRewrite_of_wellFormed sampleTile sampleRewriterTwo (by decide) (by decide)))⟩

/-! ## C18: the termination measure of the driver -/

/-- C18.  (1) For every construct that passes the two assertions of section 4.1 and
every rewriter state, a run of `matchAndRewrite` that returns success leaves a block
with exactly one tile operation less, counted at every nesting depth, than the block
with the construct held.  (2) For every function whose tile operations, at every
depth, pass the assertions and have the shape and the types of section 3, the driver
with fuel for at least one application per tile operation applies the pattern
exactly as many times as the function held tile operations and ends with a function
in which the search finds none. -/
theorem driver_termination_measure (tileOp : TileOp) (rewriter : PatternRewriter)
    (ops : List Operation) (nextId fuel : Nat) :
    (tileOp.Precondition →
      (matchAndRewrite tileOp rewriter).completion = .returned .success →
      (tileOpsIn ((matchAndRewrite tileOp rewriter).rewriter.before ++
          (matchAndRewrite tileOp rewriter).rewriter.after)).length + 1 =
        (tileOpsIn (rewriter.before ++ [tileOp.toOperation] ++ rewriter.after)).length) ∧
    (AllLowerable ops → (tileOpsIn ops).length ≤ fuel →
      ∃ final, applyPatternsGreedily fuel nextId ops = some (final, (tileOpsIn ops).length) ∧
        tileOpsIn final = []) := by
  refine ⟨fun _ hsucc => ?_, applyPatternsGreedily_spec fuel nextId ops⟩
  have hids := congrArg List.length (tileIds_rewritten tileOp rewriter hsucc)
  simp only [List.length_map, List.length_append] at hids
  rw [hids, tileOpsIn_append, tileOpsIn_append, tileOpsIn_toOperation]
  simp only [List.length_append, List.length_cons]
  omega

/-- C18, at the sample function with two tile operations. -/
theorem driver_termination_measure_witness :
    sampleTile.Precondition ∧
    (matchAndRewrite sampleTile sampleRewriterTwo).completion = .returned .success ∧
    AllLowerable sampleFunction ∧ (tileOpsIn sampleFunction).length ≤ 2 ∧
    (tileOpsIn ((matchAndRewrite sampleTile sampleRewriterTwo).rewriter.before ++
        (matchAndRewrite sampleTile sampleRewriterTwo).rewriter.after)).length + 1 =
      (tileOpsIn (sampleRewriterTwo.before ++ [sampleTile.toOperation] ++
        sampleRewriterTwo.after)).length ∧
    ∃ final, applyPatternsGreedily 2 30 sampleFunction =
        some (final, (tileOpsIn sampleFunction).length) ∧
      tileOpsIn final = [] :=
  ⟨by decide,
    congrArg Outcome.completion
      (matchAndRewrite_of_wellFormed sampleTile sampleRewriterTwo (by decide) (by decide)),
    by decide, by decide,
    (driver_termination_measure sampleTile sampleRewriterTwo sampleFunction 30 2).1 (by decide)
      (congrArg Outcome.completion
        (matchAndRewrite_of_wellFormed sampleTile sampleRewriterTwo (by decide) (by decide))),
    (driver_termination_measure sampleTile sampleRewriterTwo sampleFunction 30 2).2 (by decide)
      (by decide)⟩

end TileToSequentialFor
